import Mathlib

/-!
# Simon-Says vault controller (`src/main.cpp`)

A shallow embedding of the Arduino sketch.

* Every call into the Arduino core, the keypad driver, the serial port or the
  low-power library is recorded as an `Event`; a run of the program is the list
  of events it produced, oldest first.
* Values read from the outside (clock, keypad, pseudo-random generator, unlock
  button) come from streams stored in the `World`; a read consumes the head of
  its stream.
* Routines that only write to the hardware (`setColor`, `buzz_sound`, `toner`,
  `winner_sound`, `play_winner`, `play_loser`, `manualUnlock`, `setup`) are the
  list of events they emit.  Routines that read inputs or touch `gameBoard` /
  `gameRound` pass the `World` explicitly.
* `char`, `byte`, `int` and `long` values are integers; conversions between the
  C types are written out (`toChar`, `toByte`, `toLong`, `toULong`).
* Loops whose number of iterations depends on the inputs take a `fuel`
  argument bounding the iterations of each loop; when it runs out the result
  is `Result.outOfFuel` carrying the world reached so far.
-/

namespace SimonSays

/-! ## Constants

Characters are their ASCII codes: `'\000'` is 0, `'0'` is 48, `'9'` is 57, `'7'`
is 55, `'5'` is 53. -/

def CHOICE_NONE : Int := 0
def CHOICE_RED : Int := 48
def CHOICE_GREEN : Int := 57
def CHOICE_BLUE : Int := 55
def CHOICE_WHITE : Int := 53

def LED_RED : Nat := 9
def LED_GREEN : Nat := 5
def LED_BLUE : Nat := 3
def UNLOCK_PIN : Nat := 8
def UNLOCK_BUTTON : Nat := 7
def BUZZER : Nat := 6

def ROUNDS_TO_WIN : Nat := 7
def ENTRY_TIME_LIMIT : Int := 3000

def LOW : Bool := false
def HIGH : Bool := true

/-- Pin modes of `pinMode`. -/
inductive PinMode where
  | OUTPUT
  | INPUT_PULLUP
  deriving DecidableEq, Repr

/-- The key characters of the 4x3 matrix (`keys[ROWS][COLS]`), row by row:
`'2','1','3' / '5','4','6' / '8','7','9' / '0','C','E'`. -/
def keys : List (List Int) :=
  [[50, 49, 51], [53, 52, 54], [56, 55, 57], [48, 67, 69]]

/-! ## C integer conversions (avr-gcc: 8-bit signed `char`, 32-bit `long`) -/

/-- Conversion to `char` (signed, 8 bits). -/
def toChar (v : Int) : Int := (v + 128) % 256 - 128

/-- Conversion to `byte` (unsigned, 8 bits). -/
def toByte (v : Int) : Int := v % 256

/-- Conversion to `long` (signed, 32 bits). -/
def toLong (v : Int) : Int := (v + 2 ^ 31) % 2 ^ 32 - 2 ^ 31

/-- Conversion to `unsigned long` (32 bits). -/
def toULong (v : Int) : Int := v % 2 ^ 32

/-! ## Events and the world -/

/-- One call into the hardware layer.  `waitReturn` is not a hardware call: it
marks a `return` of `wait_for_button` together with the value returned, so that
statements about callers can speak of the results of the calls. -/
inductive Event where
  | pinMode (pin : Nat) (mode : PinMode)
  | digitalWrite (pin : Nat) (level : Bool)
  | analogWrite (pin : Nat) (value : Int)
  | delay (ms : Int)
  | delayMicroseconds (us : Int)
  | println (text : String)
  | printlnChar (c : Int)
  | randomSeed (seed : Int)
  | random (result : Int)
  | millis (result : Int)
  | getKey (result : Int)
  | digitalRead (pin : Nat) (result : Bool)
  | idle
  | waitReturn (value : Int)
  deriving DecidableEq, Repr

/-- The two globals of the sketch, the input streams still to be consumed and
the events produced so far. -/
structure World where
  /-- Array `byte gameBoard[32]`, as a map from index to cell value -/
  gameBoard : Nat → Int
  /-- Counter `byte gameRound` -/
  gameRound : Nat
  /-- Results of the coming `millis()` calls -/
  clock : Nat → Nat
  /-- Results of the coming `keypad.getKey()` calls -/
  keypad : Nat → Int
  /-- Results of the coming `random(0, 4)` calls -/
  prng : Nat → Int
  /-- Results of the coming `digitalRead(UNLOCK_BUTTON)` calls (`true` = HIGH) -/
  unlockButton : Nat → Bool
  /-- Events so far -/
  trace : List Event

/-- Append events to the trace. -/
def World.emit (w : World) (es : List Event) : World :=
  { w with trace := w.trace ++ es }

/-- Read `millis()`: an `unsigned long`, so the reading is taken modulo `2^32`. -/
def World.millis (w : World) : Int × World :=
  (toULong (w.clock 0),
   { w with clock := fun n => w.clock (n + 1),
            trace := w.trace ++ [Event.millis (toULong (w.clock 0))] })

/-- Read `keypad.getKey()`. -/
def World.getKey (w : World) : Int × World :=
  (w.keypad 0,
   { w with keypad := fun n => w.keypad (n + 1),
            trace := w.trace ++ [Event.getKey (w.keypad 0)] })

/-- Read `random(0, 4)`. -/
def World.random (w : World) : Int × World :=
  (w.prng 0,
   { w with prng := fun n => w.prng (n + 1),
            trace := w.trace ++ [Event.random (w.prng 0)] })

/-- Read `digitalRead(UNLOCK_BUTTON)`. -/
def World.digitalRead (w : World) : Bool × World :=
  (w.unlockButton 0,
   { w with unlockButton := fun n => w.unlockButton (n + 1),
            trace := w.trace ++ [Event.digitalRead UNLOCK_BUTTON (w.unlockButton 0)] })

/-- Outcome of a routine run with bounded fuel. -/
inductive Result (α : Type) where
  /-- The routine returned `value` in world `w` -/
  | ret (value : α) (w : World)
  /-- A loop used up its fuel in world `w` -/
  | outOfFuel (w : World)

/-- The world in which a run stopped. -/
def Result.world {α : Type} : Result α → World
  | Result.ret _ w => w
  | Result.outOfFuel w => w

/-! ## Output engine -/

/-- Source `setColor(red, green, blue)`. -/
def setColor (red green blue : Int) : List Event :=
  [Event.analogWrite LED_RED red, Event.analogWrite LED_GREEN green,
   Event.analogWrite LED_BLUE blue]

/-- The `while` loop of `buzz_sound`; `n` bounds the number of iterations. -/
def buzz_loop : Nat → Int → Int → List Event
  | 0, _, _ => []
  | n + 1, buzz_length_us, buzz_delay_us =>
    if buzz_length_us > buzz_delay_us * 2 then
      [Event.digitalWrite BUZZER LOW, Event.delayMicroseconds buzz_delay_us,
       Event.digitalWrite BUZZER HIGH, Event.delayMicroseconds buzz_delay_us]
        ++ buzz_loop n (buzz_length_us - buzz_delay_us * 2) buzz_delay_us
    else []

/-- Source `buzz_sound(buzz_length_ms, buzz_delay_us)`.  The loop is given as many
iterations as there are microseconds in the budget, which it never uses up
when `buzz_delay_us >= 1` (each iteration takes at least two of them); every
call in the sketch passes a positive constant. -/
def buzz_sound (buzz_length_ms buzz_delay_us : Int) : List Event :=
  buzz_loop (buzz_length_ms * 1000).toNat (buzz_length_ms * 1000) buzz_delay_us

/-- Source `toner(which, buzz_length_ms)`; the `switch` has no default case. -/
def toner (which buzz_length_ms : Int) : List Event :=
  (if which = CHOICE_RED then setColor 255 0 0 ++ buzz_sound buzz_length_ms 1136
   else if which = CHOICE_GREEN then setColor 0 255 0 ++ buzz_sound buzz_length_ms 568
   else if which = CHOICE_BLUE then setColor 0 0 255 ++ buzz_sound buzz_length_ms 851
   else if which = CHOICE_WHITE then setColor 255 255 255 ++ buzz_sound buzz_length_ms 638
   else [])
  ++ setColor 0 0 0

/-- The inner loop of `winner_sound`: `for (byte y = 0; y < 3; y++)`, counting
the remaining iterations. -/
def winner_inner (x : Nat) : Nat → List Event
  | 0 => []
  | n + 1 =>
    [Event.digitalWrite BUZZER HIGH, Event.delayMicroseconds x,
     Event.digitalWrite BUZZER LOW, Event.delayMicroseconds x] ++ winner_inner x n

/-- The outer loop of `winner_sound`, entered with counter `x`:
`for ( ; x > 70; x--)`. -/
def winner_outer : Nat → List Event
  | 0 => []
  | x + 1 => if x + 1 > 70 then winner_inner (x + 1) 3 ++ winner_outer x else []

/-- Source `winner_sound()`. -/
def winner_sound : List Event := winner_outer 250

/-- Source `play_winner()`. -/
def play_winner : List Event :=
  [Event.digitalWrite UNLOCK_PIN HIGH]
  ++ setColor 0 255 255 ++ winner_sound
  ++ setColor 255 0 255 ++ winner_sound
  ++ setColor 255 255 0 ++ winner_sound
  ++ setColor 0 255 0 ++ winner_sound
  ++ [Event.delay 15000, Event.digitalWrite UNLOCK_PIN LOW]

/-- Source `play_loser()`. -/
def play_loser : List Event :=
  setColor 255 0 0 ++ buzz_sound 255 1500
  ++ setColor 255 255 0 ++ buzz_sound 255 1500
  ++ setColor 0 255 255 ++ buzz_sound 255 1500
  ++ setColor 255 0 255 ++ buzz_sound 255 1500
  ++ setColor 255 0 0 ++ [Event.delay 3000]

/-- Source `manualUnlock()`. -/
def manualUnlock : List Event :=
  [Event.digitalWrite UNLOCK_PIN HIGH] ++ setColor 0 255 0
  ++ [Event.delay 7000, Event.digitalWrite UNLOCK_PIN LOW] ++ setColor 0 0 0

/-- Source `setup()` (built without `SERIAL_ON`). -/
def setup : List Event :=
  [Event.pinMode LED_RED PinMode.OUTPUT, Event.pinMode LED_GREEN PinMode.OUTPUT,
   Event.pinMode LED_BLUE PinMode.OUTPUT, Event.pinMode BUZZER PinMode.OUTPUT,
   Event.pinMode UNLOCK_PIN PinMode.OUTPUT,
   Event.pinMode UNLOCK_BUTTON PinMode.INPUT_PULLUP,
   Event.digitalWrite UNLOCK_PIN LOW, Event.digitalWrite BUZZER LOW]

/-! ## Game logic -/

/-- The conversion of the drawn number to a `CHOICE_` code in `add_to_moves`. -/
def choiceOf (newButton : Int) : Int :=
  if newButton = 0 then CHOICE_RED
  else if newButton = 1 then CHOICE_GREEN
  else if newButton = 2 then CHOICE_BLUE
  else if newButton = 3 then CHOICE_WHITE
  else newButton

/-- Source `add_to_moves()`: `char newButton = random(0, 4)`, the conversion, then
`gameBoard[gameRound++] = newButton`.  The array is modelled as an unbounded
map, so the write is defined for every index. -/
def add_to_moves (w : World) : World :=
  let newButton := choiceOf (toChar w.random.1)
  let w1 := w.random.2
  { w1 with gameBoard := Function.update w1.gameBoard w1.gameRound (toByte newButton),
            gameRound := (w1.gameRound + 1) % 256 }

/-- The `for` loop of `playMoves`, entered with counter `currentMove`; the
first argument bounds the remaining iterations. -/
def playMoves_loop (w : World) : Nat → Nat → List Event
  | 0, _ => []
  | n + 1, currentMove =>
    if currentMove < w.gameRound then
      toner (toChar (w.gameBoard currentMove)) 150 ++ [Event.delay 150]
        ++ playMoves_loop w n ((currentMove + 1) % 256)
    else []

/-- Source `playMoves()`; the loop runs at most `gameRound` times. -/
def playMoves (w : World) : World :=
  w.emit (playMoves_loop w w.gameRound 0)

/-! ## Input engine -/

/-- The test `(millis() - startTime) < ENTRY_TIME_LIMIT`: `startTime` is a `long`
and `now` an `unsigned long`, so both operands of the subtraction and of the
comparison are converted to `unsigned long`. -/
def withinEntryTime (now startTime : Int) : Bool :=
  decide (toULong (now - toULong startTime) < toULong ENTRY_TIME_LIMIT)

/-- The loop `while(keypad.getKey() != CHOICE_NONE) ;`. -/
def release_loop : Nat → World → Result Unit
  | 0, w => Result.outOfFuel w
  | fuel + 1, w =>
    if w.getKey.1 ≠ CHOICE_NONE then release_loop fuel w.getKey.2
    else Result.ret () w.getKey.2

/-- The `while` loop of `wait_for_button`; `fuel0` is the fuel handed to the
inner release loop. -/
def wait_loop (fuel0 : Nat) (startTime : Int) : Nat → World → Result Int
  | 0, w => Result.outOfFuel w
  | fuel + 1, w =>
    if withinEntryTime w.millis.1 startTime then
      let button := w.millis.2.getKey.1
      let w2 := w.millis.2.getKey.2
      if button ≠ CHOICE_NONE then
        let w3 := (w2.emit [Event.printlnChar button]).emit (toner button 150)
        match release_loop fuel0 w3 with
        | Result.outOfFuel w4 => Result.outOfFuel w4
        | Result.ret _ w4 =>
          Result.ret button ((w4.emit [Event.delay 10]).emit [Event.waitReturn button])
      else wait_loop fuel0 startTime fuel w2
    else Result.ret CHOICE_NONE (w.millis.2.emit [Event.waitReturn CHOICE_NONE])

/-- Source `wait_for_button()`: `long startTime = millis()`, then the loop. -/
def wait_for_button (fuel : Nat) (w : World) : Result Int :=
  wait_loop fuel (toLong w.millis.1) fuel w.millis.2

/-! ## The game -/

/-- The `for` loop of `play_memory` that checks the player's echo, entered with
counter `currentMove`.  `Result.ret false` means that the body executed
`return false`; `Result.ret true` that the loop ran to its end. -/
def echo_loop (fuel0 : Nat) : Nat → Nat → World → Result Bool
  | 0, _, w => Result.outOfFuel w
  | fuel + 1, currentMove, w =>
    if currentMove < w.gameRound then
      match wait_for_button fuel0 w with
      | Result.outOfFuel w1 => Result.outOfFuel w1
      | Result.ret choice w1 =>
        if choice = CHOICE_NONE then Result.ret false w1
        else if choice ≠ w1.gameBoard currentMove then Result.ret false w1
        else echo_loop fuel0 fuel ((currentMove + 1) % 256) w1
    else Result.ret true w

/-- The loop `while (gameRound < ROUNDS_TO_WIN)` of `play_memory`. -/
def play_loop (fuel0 : Nat) : Nat → World → Result Bool
  | 0, w => Result.outOfFuel w
  | fuel + 1, w =>
    if w.gameRound < ROUNDS_TO_WIN then
      match echo_loop fuel0 fuel0 0 (playMoves (add_to_moves w)) with
      | Result.outOfFuel w1 => Result.outOfFuel w1
      | Result.ret false w1 => Result.ret false w1
      | Result.ret true w1 => play_loop fuel0 fuel (w1.emit [Event.delay 1000])
    else Result.ret true w

/-- Source `play_memory()`. -/
def play_memory (fuel : Nat) (w : World) : Result Bool :=
  let w1 := w.emit [Event.println "play_memory"]
  let w2 := w1.millis.2.emit [Event.randomSeed w1.millis.1]
  play_loop fuel fuel { w2 with gameRound := 0 }

/-! ## Supervisor -/

/-- The loop `while(1)` of `attractMode`. -/
def attract_loop : Nat → World → Result Unit
  | 0, w => Result.outOfFuel w
  | fuel + 1, w =>
    let w1 := w.getKey.2.emit [Event.delay 10]
    if w1.getKey.1 ≠ CHOICE_NONE then Result.ret () w1.getKey.2
    else
      let w2 := w1.getKey.2
      let w3 := if w2.digitalRead.1 = LOW then w2.digitalRead.2.emit manualUnlock
                else w2.digitalRead.2
      attract_loop fuel (w3.emit [Event.idle])

/-- Source `attractMode()`. -/
def attractMode (fuel : Nat) (w : World) : Result Unit :=
  attract_loop fuel ((w.emit [Event.println "attractMode"]).emit (setColor 0 0 0))

/-- The part of `loop()` that follows the return of `attractMode`. -/
def game_phase (fuel : Nat) (w : World) : Result Unit :=
  let w1 := ((w.emit [Event.println "Game mode"]).emit (setColor 0 0 0)).emit [Event.delay 200]
  match play_memory fuel w1 with
  | Result.outOfFuel w2 => Result.outOfFuel w2
  | Result.ret true w2 => Result.ret () (w2.emit play_winner)
  | Result.ret false w2 => Result.ret () (w2.emit play_loser)

/-- Source `loop()`. -/
def loop (fuel : Nat) (w : World) : Result Unit :=
  match attractMode fuel w with
  | Result.outOfFuel w1 => Result.outOfFuel w1
  | Result.ret _ w1 => game_phase fuel w1

/-- The sketch: `setup()` once, then `loop()` for at most `n` iterations. -/
def run (fuel : Nat) : Nat → World → Result Unit
  | 0, w => Result.ret () (w.emit setup)
  | n + 1, w =>
    match run fuel n w with
    | Result.outOfFuel w1 => Result.outOfFuel w1
    | Result.ret _ w1 => loop fuel w1

/-! ## Vocabulary of the specification -/

/-- The four colour codes. -/
def colors : List Int := [CHOICE_RED, CHOICE_GREEN, CHOICE_BLUE, CHOICE_WHITE]

/-- The tone table of the specification: colour, RGB triple, half-period in
microseconds (RED (255,0,0) 1136, GREEN (0,255,0) 568, BLUE (0,0,255) 851,
WHITE (255,255,255) 638). -/
def toneDescriptor (c : Int) : (Int × Int × Int) × Int :=
  if c = CHOICE_RED then ((255, 0, 0), 1136)
  else if c = CHOICE_GREEN then ((0, 255, 0), 568)
  else if c = CHOICE_BLUE then ((0, 0, 255), 851)
  else ((255, 255, 255), 638)

/-- One full LOW/HIGH toggle cycle of the buzzer with half-period `h`. -/
def toggleCycle (h : Int) : List Event :=
  [Event.digitalWrite BUZZER LOW, Event.delayMicroseconds h,
   Event.digitalWrite BUZZER HIGH, Event.delayMicroseconds h]

/-- Time an event blocks for, in microseconds. -/
def eventMicros : Event → Int
  | Event.delay ms => ms * 1000
  | Event.delayMicroseconds us => us
  | _ => 0

/-- Sum of the delays of a list of events, in microseconds. -/
def totalMicros (es : List Event) : Int := (es.map eventMicros).sum

/-- Sum of the delays executed while the unlock pin is HIGH, in microseconds,
for a list of events entered with the pin at `level`. -/
def holdMicros : Bool → List Event → Int
  | _, [] => 0
  | level, Event.digitalWrite pin v :: es =>
    if pin = UNLOCK_PIN then holdMicros v es else holdMicros level es
  | level, e :: es => (if level then eventMicros e else 0) + holdMicros level es

/-- An event that writes the unlock pin: a `digitalWrite` or an `analogWrite`
whose pin is `UNLOCK_PIN`. -/
def isUnlockWrite : Event → Bool
  | Event.digitalWrite pin _ => decide (pin = UNLOCK_PIN)
  | Event.analogWrite pin _ => decide (pin = UNLOCK_PIN)
  | _ => false

/-- What `play_winner` does between its two writes of the unlock pin, the
final `delay(15000)` left out. -/
def winnerBody : List Event :=
  setColor 0 255 255 ++ winner_sound ++ setColor 255 0 255 ++ winner_sound
  ++ setColor 255 255 0 ++ winner_sound ++ setColor 0 255 0 ++ winner_sound

/-- The values returned by the calls of `wait_for_button` recorded in a list of
events, in order. -/
def waitResults : List Event → List Int
  | [] => []
  | Event.waitReturn c :: es => c :: waitResults es
  | _ :: es => waitResults es

/-- Events that the body of `wait_for_button` can produce: clock and keypad
reads, the serial echo of the key, writes to the LED and to the buzzer, the
microsecond delays of a tone and the 10 ms debounce delay. -/
def isWaitEvent : Event → Bool
  | Event.millis _ => true
  | Event.getKey _ => true
  | Event.printlnChar _ => true
  | Event.analogWrite pin _ => decide (pin = LED_RED ∨ pin = LED_GREEN ∨ pin = LED_BLUE)
  | Event.delayMicroseconds _ => true
  | Event.digitalWrite pin _ => decide (pin = BUZZER)
  | Event.delay ms => decide (ms = 10)
  | _ => false

/-- Events that write a pin or block: LED writes, digital writes, delays. -/
def isOutput : Event → Bool
  | Event.analogWrite _ _ => true
  | Event.digitalWrite _ _ => true
  | Event.delay _ => true
  | Event.delayMicroseconds _ => true
  | _ => false

/-- The marker of the return of a call of `wait_for_button`, if the run
returned. -/
def returnMark : Result Int → List Event
  | Result.ret c _ => [Event.waitReturn c]
  | Result.outOfFuel _ => []

/-- World `w2` is reached from `w1` by reading the clock and the keypad and
emitting the events `seg`: the game state and the other input streams are
untouched, the clock and keypad streams have lost some leading readings. -/
structure Polls (w1 w2 : World) (seg : List Event) : Prop where
  gameBoard : w2.gameBoard = w1.gameBoard
  gameRound : w2.gameRound = w1.gameRound
  prng : w2.prng = w1.prng
  unlockButton : w2.unlockButton = w1.unlockButton
  clock : ∃ a, w2.clock = fun n => w1.clock (n + a)
  keypad : ∃ b, w2.keypad = fun n => w1.keypad (n + b)
  trace : w2.trace = w1.trace ++ seg

/-- The clock keeps advancing: after every reading there is a later reading at
least `ENTRY_TIME_LIMIT` ms past it, in 32-bit unsigned arithmetic. -/
def ClockAdvances (clock : Nat → Nat) : Prop :=
  ∀ n, ∃ m, n < m ∧ ENTRY_TIME_LIMIT ≤ toULong ((clock m : Int) - (clock n : Int))

/-- Every key is released again: after every poll there is a poll that
returns `CHOICE_NONE`. -/
def KeysReleased (keypad : Nat → Int) : Prop :=
  ∀ n, ∃ m, n ≤ m ∧ keypad m = CHOICE_NONE

/-- The value a run returned, if it returned. -/
def Result.valueOf {α : Type} : Result α → Option α
  | Result.ret a _ => some a
  | Result.outOfFuel _ => none

/-- A game in which every draw is 0 (RED), the player taps the RED key `'0'`
at every other poll and the clock is read every 1000 ms. -/
def cleanGame : World :=
  { gameBoard := fun _ => 0, gameRound := 0,
    clock := fun n => 1000 * n,
    keypad := fun n => if n % 2 = 0 then CHOICE_RED else CHOICE_NONE,
    prng := fun _ => 0,
    unlockButton := fun _ => true,
    trace := [] }

/-- The game `cleanGame` with one tap of the key `'1'` (code 49) before the
player's first RED tap. -/
def strayGame : World :=
  { cleanGame with
    keypad := fun n => if n = 0 then 49 else if n = 1 then CHOICE_NONE
                       else cleanGame.keypad (n - 2) }

/-- A world in which no key is ever pressed and the clock, read every 1000 ms,
starts 1000 ms before the 32-bit counter wraps. -/
def idleWorld : World :=
  { gameBoard := fun _ => 0, gameRound := 0,
    clock := fun n => 4294966296 + 1000 * n,
    keypad := fun _ => CHOICE_NONE,
    prng := fun _ => 0,
    unlockButton := fun _ => true,
    trace := [] }

/-- The value that `add_to_moves` stores in `gameBoard` for the draw `d`. -/
def storedChoice (d : Int) : Int := toByte (choiceOf (toChar d))

/-- The sequence held by `gameBoard` after the first `k` draws of `P`. -/
def sequenceOf (P : Nat → Int) (k : Nat) : List Int :=
  (List.range k).map (fun i => storedChoice (P i))

/-- The events of a playback of the sequence `s`: for each element its tone
for 150 ms, then a delay of 150 ms. -/
def playback (s : List Int) : List Event :=
  s.flatMap (fun c => toner (toChar c) 150 ++ [Event.delay 150])

/-- The events of round `k + 1` of a game with draws `P`: the draw, the
playback of the `k + 1` elements, the events `echo` of the echo phase and, if
the echo matched, the pause of 1000 ms. -/
def roundEvents (P : Nat → Int) (k : Nat) (echo : List Event) (ok : Bool) : List Event :=
  [Event.random (P k)] ++ playback (sequenceOf P (k + 1)) ++ echo
    ++ (if ok then [Event.delay 1000] else [])

/-- The events of the rounds `k + 1, k + 2, ...` of a game with draws `P`,
given the echo phase of each and whether it matched. -/
def gameEvents (P : Nat → Int) : Nat → List (List Event × Bool) → List Event
  | _, [] => []
  | k, r :: rest => roundEvents P k r.1 r.2 ++ gameEvents P (k + 1) rest

/-- The echo phase `echo` of a round with `n` elements is well-formed: it
consists of input-engine events and return markers; if it matched, the values
returned are the `n` elements in order; if not, the calls before the last
returned the first `j` elements and the last call returned something else than
element `j`. -/
def EchoValid (P : Nat → Int) (n : Nat) (echo : List Event) (ok : Bool) : Prop :=
  (∀ e ∈ echo, isWaitEvent e = true ∨ ∃ c, e = Event.waitReturn c)
  ∧ (ok = true → waitResults echo = sequenceOf P n)
  ∧ (ok = false → ∃ j c body, j < n ∧ echo = body ++ [Event.waitReturn c]
      ∧ waitResults body = sequenceOf P j ∧ c ≠ storedChoice (P j))

/-- The rounds `k + 1, k + 2, ...` of a game that returned `b` are well-formed:
every round is a round up to `ROUNDS_TO_WIN`; a matched echo is followed by the
next round, or by nothing after round `ROUNDS_TO_WIN`, in which case the game
returned true; a failed echo is the end of the game, which returned false. -/
def RoundsValid (P : Nat → Int) : Nat → List (List Event × Bool) → Bool → Prop
  | k, [], b => b = true ∧ k = ROUNDS_TO_WIN
  | k, r :: rest, b =>
    k < ROUNDS_TO_WIN ∧ EchoValid P (k + 1) r.1 r.2
      ∧ (r.2 = true → RoundsValid P (k + 1) rest b)
      ∧ (r.2 = false → rest = [] ∧ b = false)

/-- The state of a game with draws `P` after `k` draws: the round counter is
`k`, the first `k` cells hold the sequence, the generator is `k` draws on. -/
structure GameInv (P : Nat → Int) (k : Nat) (w : World) : Prop where
  gameRound : w.gameRound = k
  gameBoard : ∀ i < k, w.gameBoard i = storedChoice (P i)
  prng : w.prng = fun n => P (n + k)

/-- The cells `i, i+1, ..., i+n-1` of the game board. -/
def boardSlice (w : World) (i n : Nat) : List Int := (List.range' i n).map w.gameBoard

/-- The world at the head of the round loop of `play_memory` called in `w`:
the three events of the prologue are emitted, one clock reading is consumed and
`gameRound` is 0. -/
def gameStart (w : World) : World :=
  { (w.emit [Event.println "play_memory", Event.millis (toULong (w.clock 0)),
        Event.randomSeed (toULong (w.clock 0))]) with
    clock := fun n => w.clock (n + 1), gameRound := 0 }

/-- The inputs of a perfect game with draws `P`: for each round `k = 1..7`, the
first `k` elements of the sequence, in order. -/
def winningEcho (P : Nat → Int) : List Int :=
  (List.range ROUNDS_TO_WIN).flatMap (fun k => (List.range (k + 1)).map (fun i => choiceOf (P i)))

/-- The values a perfect player returns in the rounds `k + 1, ..., k + n`. -/
def perfectEcho (P : Nat → Int) (k n : Nat) : List Int :=
  (List.range' k n).flatMap (fun j => sequenceOf P (j + 1))

/-- The world in which `loop()` calls `play_memory`, when `attractMode`
returned in `w`: "Game mode" is printed, the LED is off, 200 ms have passed. -/
def gamePrelude (w : World) : World :=
  ((w.emit [Event.println "Game mode"]).emit (setColor 0 0 0)).emit [Event.delay 200]

/-- The level of the unlock pin after the events `es`, when it was `level`
before them: a `digitalWrite` on the pin sets it to the value written, an
`analogWrite` on the pin drives it (HIGH unless the value is 0), every other
event leaves it alone. -/
def unlockAfter : Bool → List Event → Bool
  | level, [] => level
  | level, Event.digitalWrite pin v :: es =>
    if pin = UNLOCK_PIN then unlockAfter v es else unlockAfter level es
  | level, Event.analogWrite pin v :: es =>
    if pin = UNLOCK_PIN then unlockAfter (decide (v ≠ 0)) es else unlockAfter level es
  | level, _ :: es => unlockAfter level es

/-- No event of `seg` writes the unlock pin. -/
def Quiet (seg : List Event) : Prop := ∀ e ∈ seg, isUnlockWrite e = false

/-- A list of events in which the unlock pin is written only by whole runs of
`play_winner` and of `manualUnlock`: it is made of events that do not write the
pin and of complete copies of the events of these two routines. -/
inductive UnlockBlocks : List Event → Prop where
  | nil : UnlockBlocks []
  | quiet (es : List Event) (e : Event) :
      UnlockBlocks es → isUnlockWrite e = false → UnlockBlocks (es ++ [e])
  | win (es : List Event) : UnlockBlocks es → UnlockBlocks (es ++ play_winner)
  | manual (es : List Event) : UnlockBlocks es → UnlockBlocks (es ++ manualUnlock)

/-- The point between the events `pre` (done) and `post` (to come) lies inside
a run of `play_winner` or of `manualUnlock`, after its HIGH write of the unlock
pin and before its LOW write. -/
def InsideUnlockBlock (pre post : List Event) : Prop :=
  ∃ pre0 done todo post0, pre = pre0 ++ done ∧ post = todo ++ post0
    ∧ (done ++ todo = play_winner ∨ done ++ todo = manualUnlock)
    ∧ Event.digitalWrite UNLOCK_PIN HIGH ∈ done
    ∧ Event.digitalWrite UNLOCK_PIN LOW ∈ todo

/-- One square-wave period of `winner_sound` with half-period `x`. -/
def winnerCycle (x : Nat) : List Event :=
  [Event.digitalWrite BUZZER HIGH, Event.delayMicroseconds x,
   Event.digitalWrite BUZZER LOW, Event.delayMicroseconds x]

/-- The half-periods of the periods of `winner_sound`, in order, as the
specification gives them: 250, 249, ..., 71, each three times. -/
def winnerHalfPeriods : List Nat :=
  (List.range 180).flatMap (fun i => List.replicate 3 (250 - i))

/-- Events that write nothing but the three LED pins and the buzzer pin:
LED writes, buzzer writes and delays. -/
def isLedOrBuzzer : Event → Bool
  | Event.analogWrite pin _ => decide (pin = LED_RED ∨ pin = LED_GREEN ∨ pin = LED_BLUE)
  | Event.digitalWrite pin _ => decide (pin = BUZZER)
  | Event.delay _ => true
  | Event.delayMicroseconds _ => true
  | _ => false

/-- A world in which no key is pressed and the unlock button is held down
(the pin reads LOW). -/
def unlockHeld : World :=
  { gameBoard := fun _ => 0, gameRound := 0,
    clock := fun n => 1000 * n,
    keypad := fun _ => CHOICE_NONE,
    prng := fun _ => 0,
    unlockButton := fun _ => LOW,
    trace := [] }

/-- A world in which the player holds the key `'9'` (GREEN) for three polls,
one poll after an idle one, and the clock is read every 100 ms. -/
def greenTap : World :=
  { gameBoard := fun _ => 0, gameRound := 0,
    clock := fun n => 100 * n,
    keypad := fun n => if 1 ≤ n ∧ n ≤ 3 then CHOICE_GREEN else CHOICE_NONE,
    prng := fun _ => 0,
    unlockButton := fun _ => HIGH,
    trace := [] }

/-- Two worlds hold the same clock readings and the same keypad readings. -/
def SameInputs (w1 w2 : World) : Prop :=
  w1.clock = w2.clock ∧ w1.keypad = w2.keypad

/-- The runs `r1`, started in `w1`, and `r2`, started in `w2`, went the same
way: both returned the same value or both ran out of fuel, they emitted the
same events and left the same clock and keypad readings. -/
def SameRun {α : Type} (w1 w2 : World) (r1 r2 : Result α) : Prop :=
  r1.valueOf = r2.valueOf ∧ SameInputs r1.world r2.world
    ∧ ∃ seg, r1.world.trace = w1.trace ++ seg ∧ r2.world.trace = w2.trace ++ seg

/-- The declared length of the array: `byte gameBoard[32]`. -/
def gameBoardSize : Nat := 32

/-- Events that record a draw of the generator, one per call of
`add_to_moves`. -/
def isDraw : Event → Bool
  | Event.random _ => true
  | _ => false

/-- A world in which the key RED is down at the second keypad scan and no key
is pressed at any other scan; the clock is read every 1000 ms and every draw
is 0. -/
def keyThenIdle : World :=
  { gameBoard := fun _ => 0, gameRound := 0,
    clock := fun n => 1000 * n,
    keypad := fun n => if n = 1 then CHOICE_RED else CHOICE_NONE,
    prng := fun _ => 0,
    unlockButton := fun _ => true,
    trace := [] }

/-- The world in which `attractMode`, called in `w0`, returns when the second
keypad scan of its first iteration sees a key. -/
def afterAttract (w0 : World) : World :=
  (((w0.emit [Event.println "attractMode"]).emit (setColor 0 0 0)).getKey.2.emit
    [Event.delay 10]).getKey.2

/-! ## Lemmas and theorems -/

/-! ### Output engine -/

theorem totalMicros_append (a b : List Event) :
    totalMicros (a ++ b) = totalMicros a + totalMicros b := by
  simp [totalMicros]

theorem holdMicros_quiet (level : Bool) (es rest : List Event)
    (h : ∀ e ∈ es, isUnlockWrite e = false) :
    holdMicros level (es ++ rest)
      = (if level then totalMicros es else 0) + holdMicros level rest := by
  induction es with
  | nil => simp [totalMicros]
  | cons e es ih =>
    have he := h e (List.mem_cons_self _ _)
    have ih1 := ih (fun x hx => h x (List.mem_cons_of_mem _ hx))
    cases e <;>
      simp_all [holdMicros, isUnlockWrite, totalMicros, eventMicros] <;>
      split_ifs <;> simp_all <;> ring

theorem buzz_loop_events (n : Nat) (len h : Int) :
    ∀ e ∈ buzz_loop n len h,
      e = Event.digitalWrite BUZZER LOW ∨ e = Event.digitalWrite BUZZER HIGH
        ∨ e = Event.delayMicroseconds h := by
  induction n generalizing len with
  | zero => simp [buzz_loop]
  | succ n ih =>
    intro e he
    rw [buzz_loop] at he
    split_ifs at he with hc
    · simp only [List.cons_append, List.nil_append, List.mem_cons] at he
      rcases he with he | he | he | he | he
      · exact Or.inl he
      · exact Or.inr (Or.inr he)
      · exact Or.inr (Or.inl he)
      · exact Or.inr (Or.inr he)
      · exact ih _ e he
    · simp at he

/-- The loop of `buzz_sound` emits whole toggle cycles; when the half-period is
positive and the fuel covers the budget, their number `k` satisfies
`k * 2h <= budget <= (k + 1) * 2h`. -/
theorem buzz_loop_cycles (n : Nat) (len h : Int) (hh : 1 ≤ h) (hlen : 0 ≤ len)
    (hfuel : len ≤ n) :
    ∃ k : Nat, buzz_loop n len h = (List.replicate k (toggleCycle h)).flatten
      ∧ (k : Int) * (2 * h) ≤ len ∧ len ≤ ((k : Int) + 1) * (2 * h)
      ∧ (0 < len → (k : Int) * (2 * h) < len) := by
  induction n generalizing len with
  | zero =>
    refine ⟨0, by simp [buzz_loop], by simpa using hlen, ?_, ?_⟩
    · have : len ≤ 0 := by simpa using hfuel
      omega
    · intro hpos
      have : len ≤ 0 := by simpa using hfuel
      omega
  | succ n ih =>
    rw [buzz_loop]
    split_ifs with hc
    · obtain ⟨k, hk, h1, h2, h3⟩ := ih (len - h * 2) (by omega) (by push_cast at hfuel; omega)
      refine ⟨k + 1, ?_, ?_, ?_, ?_⟩
      · rw [hk, List.replicate_succ, List.flatten_cons]
        rfl
      · push_cast
        nlinarith
      · push_cast
        nlinarith
      · intro _
        have := h3 (by omega)
        push_cast
        nlinarith
    · refine ⟨0, by simp, by simpa using hlen, by omega, ?_⟩
      intro hpos
      simpa using hpos

theorem buzz_sound_cycles (d h : Int) (hd : 0 ≤ d) (hh : 1 ≤ h) :
    ∃ k : Nat, buzz_sound d h = (List.replicate k (toggleCycle h)).flatten
      ∧ (k : Int) * (2 * h) ≤ d * 1000 ∧ d * 1000 ≤ ((k : Int) + 1) * (2 * h)
      ∧ (0 < d → (k : Int) * (2 * h) < d * 1000) := by
  obtain ⟨k, h0, h1, h2, h3⟩ :=
    buzz_loop_cycles (d * 1000).toNat (d * 1000) h hh (by omega)
      (by rw [Int.toNat_of_nonneg (by omega)])
  exact ⟨k, h0, h1, h2, fun hpos => h3 (by omega)⟩

theorem winner_inner_quiet (x n : Nat) :
    ∀ e ∈ winner_inner x n, isUnlockWrite e = false := by
  induction n with
  | zero => simp [winner_inner]
  | succ n ih =>
    intro e he
    rw [winner_inner] at he
    simp only [List.cons_append, List.nil_append, List.mem_cons] at he
    rcases he with he | he | he | he | he
    · subst he; simp [isUnlockWrite, BUZZER, UNLOCK_PIN]
    · subst he; rfl
    · subst he; simp [isUnlockWrite, BUZZER, UNLOCK_PIN]
    · subst he; rfl
    · exact ih e he

theorem winner_outer_quiet (x : Nat) :
    ∀ e ∈ winner_outer x, isUnlockWrite e = false := by
  induction x with
  | zero => simp [winner_outer]
  | succ x ih =>
    intro e he
    rw [winner_outer] at he
    split_ifs at he
    · rcases List.mem_append.mp he with he | he
      · exact winner_inner_quiet _ _ e he
      · exact ih e he
    · simp at he

theorem setColor_quiet (r g b : Int) : ∀ e ∈ setColor r g b, isUnlockWrite e = false := by
  intro e he
  simp only [setColor, List.mem_cons, List.mem_singleton, List.not_mem_nil, or_false] at he
  rcases he with he | he | he <;> subst he <;> rfl

theorem totalMicros_setColor (r g b : Int) : totalMicros (setColor r g b) = 0 := by
  simp [totalMicros, setColor, eventMicros]

theorem totalMicros_winner_inner (x n : Nat) :
    totalMicros (winner_inner x n) = 2 * x * n := by
  induction n with
  | zero => simp [winner_inner, totalMicros]
  | succ n ih =>
    rw [winner_inner, totalMicros_append, ih]
    simp [totalMicros, eventMicros]
    ring

theorem totalMicros_winner_outer (x : Nat) :
    totalMicros (winner_outer x)
      = if x ≤ 70 then 0 else 3 * ((x : Int) * (x + 1) - 70 * 71) := by
  induction x with
  | zero => simp [winner_outer, totalMicros]
  | succ x ih =>
    rw [winner_outer]
    split_ifs with h1 h2
    · omega
    · rw [totalMicros_append, ih, totalMicros_winner_inner]
      split_ifs with h3
      · have : x = 70 := by omega
        subst this
        norm_num
      · push_cast
        ring
    · simp [totalMicros]
    · omega

theorem totalMicros_winner_sound : totalMicros winner_sound = 173340 := by
  rw [winner_sound, totalMicros_winner_outer]
  norm_num

theorem winnerBody_quiet : ∀ e ∈ winnerBody, isUnlockWrite e = false := by
  intro e he
  simp only [winnerBody, List.mem_append] at he
  rcases he with (((((((he | he) | he) | he) | he) | he) | he) | he)
  all_goals first
    | exact setColor_quiet _ _ _ e he
    | exact winner_outer_quiet _ e he

theorem totalMicros_winnerBody : totalMicros winnerBody = 693360 := by
  simp only [winnerBody, totalMicros_append, totalMicros_setColor, totalMicros_winner_sound]
  norm_num

theorem play_winner_shape :
    play_winner = Event.digitalWrite UNLOCK_PIN HIGH
      :: (winnerBody ++ [Event.delay 15000, Event.digitalWrite UNLOCK_PIN LOW]) := by
  simp [play_winner, winnerBody, List.append_assoc]

theorem holdMicros_unlock_write (level v : Bool) (es : List Event) :
    holdMicros level (Event.digitalWrite UNLOCK_PIN v :: es) = holdMicros v es := by
  simp [holdMicros]

theorem holdMicros_play_winner : holdMicros LOW play_winner = 15693360 := by
  rw [play_winner_shape, holdMicros_unlock_write,
    holdMicros_quiet _ _ _ winnerBody_quiet, totalMicros_winnerBody]
  simp [holdMicros, HIGH, eventMicros, UNLOCK_PIN]

/-! ### Claims about the output engine -/

/-- C4 (tone-colour table): for each of the four colours and every duration,
`toner` first writes the colour's RGB triple of the table, then runs
`buzz_sound`, every event of which is a buzzer write or a delay of exactly the
colour's half-period of the table, and ends by writing (0,0,0) to the LED; the
table is injective on the four colours. -/
theorem toner_tone_color_table (d : Int) :
    (∀ c ∈ colors,
      toner c d
          = setColor (toneDescriptor c).1.1 (toneDescriptor c).1.2.1 (toneDescriptor c).1.2.2
            ++ buzz_sound d (toneDescriptor c).2 ++ setColor 0 0 0
        ∧ ∀ e ∈ buzz_sound d (toneDescriptor c).2,
            e = Event.digitalWrite BUZZER LOW ∨ e = Event.digitalWrite BUZZER HIGH
              ∨ e = Event.delayMicroseconds (toneDescriptor c).2)
    ∧ (∀ c1 ∈ colors, ∀ c2 ∈ colors, toneDescriptor c1 = toneDescriptor c2 → c1 = c2) := by
  refine ⟨?_, ?_⟩
  · intro c hc
    refine ⟨?_, buzz_loop_events _ _ _⟩
    simp only [colors, List.mem_cons, List.mem_singleton, List.not_mem_nil, or_false] at hc
    rcases hc with hc | hc | hc | hc <;> subst hc <;>
      simp [toner, toneDescriptor, CHOICE_RED, CHOICE_GREEN, CHOICE_BLUE, CHOICE_WHITE]
  · intro c1 h1 c2 h2
    simp only [colors, List.mem_cons, List.mem_singleton, List.not_mem_nil, or_false] at h1 h2
    rcases h1 with h1 | h1 | h1 | h1 <;> rcases h2 with h2 | h2 | h2 | h2 <;>
      subst h1 <;> subst h2 <;>
      simp [toneDescriptor, CHOICE_RED, CHOICE_GREEN, CHOICE_BLUE, CHOICE_WHITE]

/-- C9 (tone accuracy): for a duration `d >= 0` and a half-period `h >= 1` with
`2*h` in `int` range, `buzz_sound d h` consists of `n` full toggle cycles with
`|n - 1000*d/(2*h)| <= 1`; and `toner(BLUE, 851)` emits `n` cycles of
half-period 851 with `499 <= n <= 501`. -/
theorem buzz_sound_tone_accuracy (d h : Int) (hd : 0 ≤ d) (hh : 1 ≤ h)
    (_hint : 2 * h ≤ 32767) :
    (∃ n : Nat, buzz_sound d h = (List.replicate n (toggleCycle h)).flatten
      ∧ |(n : ℚ) - (1000 * (d : ℚ)) / (2 * (h : ℚ))| ≤ 1)
    ∧ (∃ n : Nat, toner CHOICE_BLUE 851
          = setColor 0 0 255 ++ (List.replicate n (toggleCycle 851)).flatten
            ++ setColor 0 0 0
        ∧ 499 ≤ n ∧ n ≤ 501) := by
  constructor
  · obtain ⟨k, hk, h1, h2, _⟩ := buzz_sound_cycles d h hd hh
    refine ⟨k, hk, ?_⟩
    have hP : (0 : ℚ) < 2 * (h : ℚ) := by
      have : (1 : ℚ) ≤ (h : ℚ) := by exact_mod_cast hh
      linarith
    have hq : (1000 * (d : ℚ)) / (2 * (h : ℚ)) * (2 * (h : ℚ)) = 1000 * (d : ℚ) :=
      div_mul_cancel₀ _ (ne_of_gt hP)
    have h1q : (k : ℚ) * (2 * (h : ℚ)) ≤ 1000 * (d : ℚ) := by
      have : ((k : Int) * (2 * h) : ℚ) ≤ ((d * 1000 : Int) : ℚ) := by exact_mod_cast h1
      push_cast at this
      linarith
    have h2q : 1000 * (d : ℚ) ≤ ((k : ℚ) + 1) * (2 * (h : ℚ)) := by
      have : ((d * 1000 : Int) : ℚ) ≤ ((((k : Int) + 1) * (2 * h) : Int) : ℚ) := by
        exact_mod_cast h2
      push_cast at this
      linarith
    rw [abs_le]
    constructor
    · have : (1000 * (d : ℚ)) / (2 * (h : ℚ)) ≤ (k : ℚ) + 1 := by
        apply le_of_mul_le_mul_right _ hP
        rw [hq]
        exact h2q
      linarith
    · have : (k : ℚ) ≤ (1000 * (d : ℚ)) / (2 * (h : ℚ)) := by
        apply le_of_mul_le_mul_right _ hP
        rw [hq]
        exact h1q
      linarith
  · obtain ⟨k, hk, h1, h2, h3⟩ := buzz_sound_cycles 851 851 (by norm_num) (by norm_num)
    refine ⟨k, ?_, ?_, ?_⟩
    · simp [toner, CHOICE_RED, CHOICE_GREEN, CHOICE_BLUE, CHOICE_WHITE, hk]
    · omega
    · omega

/-- Witness for C9: a playback tone, `d = 150` ms at the RED half-period 1136. -/
theorem buzz_sound_tone_accuracy_witness :
    (0 : Int) ≤ 150 ∧ (1 : Int) ≤ 1136 ∧ (2 : Int) * 1136 ≤ 32767
    ∧ (∃ n : Nat, buzz_sound 150 1136 = (List.replicate n (toggleCycle 1136)).flatten
        ∧ |(n : ℚ) - (1000 * ((150 : Int) : ℚ)) / (2 * ((1136 : Int) : ℚ))| ≤ 1) :=
  ⟨by decide, by decide, by decide,
    (buzz_sound_tone_accuracy 150 1136 (by decide) (by decide) (by decide)).1⟩

/-- C10, as stated, fails: the delays executed in `play_winner` while the
unlock pin is HIGH do not add up to 15000 ms. -/
theorem play_winner_hold_not_15000 : ¬ (holdMicros LOW play_winner = 15000 * 1000) := by
  rw [holdMicros_play_winner]
  norm_num

/-- C10, amended: `play_winner` writes the unlock pin HIGH first and LOW last;
in between it runs the four winner cycles, which never write the unlock pin and
whose delays add up to 693360 microseconds, and then one `delay(15000)`; so the
pin is held HIGH for 15000 ms plus 693360 microseconds. -/
theorem play_winner_hold :
    play_winner = [Event.digitalWrite UNLOCK_PIN HIGH] ++ winnerBody
        ++ [Event.delay 15000, Event.digitalWrite UNLOCK_PIN LOW]
    ∧ (∀ e ∈ winnerBody, isUnlockWrite e = false)
    ∧ totalMicros winnerBody = 693360
    ∧ holdMicros LOW play_winner = 15000 * 1000 + 693360 := by
  refine ⟨?_, winnerBody_quiet, totalMicros_winnerBody, ?_⟩
  · rw [play_winner_shape]
    simp
  · rw [holdMicros_play_winner]
    norm_num

/-! ### Input engine -/

theorem withinEntryTime_iff (s t : Nat) :
    withinEntryTime (toULong t) (toLong (toULong s)) = true
      ↔ toULong ((t : Int) - (s : Int)) < ENTRY_TIME_LIMIT := by
  simp only [withinEntryTime, toULong, toLong, ENTRY_TIME_LIMIT, decide_eq_true_eq]
  omega

theorem Polls.refl (w : World) : Polls w w [] :=
  ⟨rfl, rfl, rfl, rfl, ⟨0, rfl⟩, ⟨0, rfl⟩, by simp⟩

theorem Polls.trans {w1 w2 w3 : World} {s1 s2 : List Event}
    (h1 : Polls w1 w2 s1) (h2 : Polls w2 w3 s2) : Polls w1 w3 (s1 ++ s2) := by
  obtain ⟨a1, ha1⟩ := h1.clock
  obtain ⟨a2, ha2⟩ := h2.clock
  obtain ⟨b1, hb1⟩ := h1.keypad
  obtain ⟨b2, hb2⟩ := h2.keypad
  refine ⟨h2.gameBoard.trans h1.gameBoard, h2.gameRound.trans h1.gameRound,
    h2.prng.trans h1.prng, h2.unlockButton.trans h1.unlockButton,
    ⟨a2 + a1, ?_⟩, ⟨b2 + b1, ?_⟩, ?_⟩
  · rw [ha2, ha1]
    funext n
    simp [Nat.add_assoc]
  · rw [hb2, hb1]
    funext n
    simp [Nat.add_assoc]
  · rw [h2.trace, h1.trace, List.append_assoc]

theorem Polls.of_emit (w : World) (es : List Event) : Polls w (w.emit es) es :=
  ⟨rfl, rfl, rfl, rfl, ⟨0, rfl⟩, ⟨0, rfl⟩, rfl⟩

theorem Polls.millis (w : World) : Polls w w.millis.2 [Event.millis w.millis.1] :=
  ⟨rfl, rfl, rfl, rfl, ⟨1, rfl⟩, ⟨0, rfl⟩, rfl⟩

theorem Polls.getKey (w : World) : Polls w w.getKey.2 [Event.getKey w.getKey.1] :=
  ⟨rfl, rfl, rfl, rfl, ⟨0, rfl⟩, ⟨1, rfl⟩, rfl⟩

theorem Polls.clockAdvances {w1 w2 : World} {seg : List Event} (h : Polls w1 w2 seg)
    (hc : ClockAdvances w1.clock) : ClockAdvances w2.clock := by
  obtain ⟨a, ha⟩ := h.clock
  intro n
  obtain ⟨m, hm, hle⟩ := hc (n + a)
  refine ⟨m - a, by omega, ?_⟩
  rw [ha]
  have : m - a + a = m := by omega
  simpa [this] using hle

theorem Polls.keysReleased {w1 w2 : World} {seg : List Event} (h : Polls w1 w2 seg)
    (hk : KeysReleased w1.keypad) : KeysReleased w2.keypad := by
  obtain ⟨b, hb⟩ := h.keypad
  intro n
  obtain ⟨m, hm, hz⟩ := hk (n + b)
  refine ⟨m - b, by omega, ?_⟩
  rw [hb]
  have : m - b + b = m := by omega
  simpa [this] using hz

theorem toner_isWaitEvent (c d : Int) : ∀ e ∈ toner c d, isWaitEvent e = true := by
  have hs : ∀ r g b : Int, ∀ e ∈ setColor r g b, isWaitEvent e = true := by
    intro r g b e he
    simp only [setColor, List.mem_cons, List.mem_singleton, List.not_mem_nil, or_false] at he
    rcases he with he | he | he <;> subst he <;> rfl
  have hb : ∀ h : Int, ∀ e ∈ buzz_sound d h, isWaitEvent e = true := by
    intro h e he
    rcases buzz_loop_events _ _ _ e he with he | he | he <;> subst he <;>
      simp [isWaitEvent]
  intro e he
  rw [toner] at he
  rcases List.mem_append.mp he with he | he
  · split_ifs at he
    all_goals first
      | (rcases List.mem_append.mp he with he | he
         · exact hs _ _ _ e he
         · exact hb _ e he)
      | simp at he
  · exact hs _ _ _ e he

/-- The release loop only polls the keypad. -/
theorem release_loop_polls (fuel : Nat) (w : World) :
    ∃ seg, Polls w (release_loop fuel w).world seg
      ∧ ∀ e ∈ seg, ∃ k, e = Event.getKey k := by
  induction fuel generalizing w with
  | zero => exact ⟨[], by simpa [release_loop, Result.world] using Polls.refl w, by simp⟩
  | succ fuel ih =>
    rw [release_loop]
    split_ifs
    · obtain ⟨seg, hp, hs⟩ := ih w.getKey.2
      refine ⟨[Event.getKey w.getKey.1] ++ seg, (Polls.getKey w).trans hp, ?_⟩
      intro e he
      rcases List.mem_append.mp he with he | he
      · exact ⟨_, by simpa using he⟩
      · exact hs e he
    · exact ⟨[Event.getKey w.getKey.1], by simpa [Result.world] using Polls.getKey w,
        fun e he => ⟨_, by simpa using he⟩⟩

theorem wait_loop_timeout (fuel0 : Nat) (startTime : Int) (fuel : Nat) (w : World)
    (ht : withinEntryTime w.millis.1 startTime = false) :
    wait_loop fuel0 startTime (fuel + 1) w
      = Result.ret CHOICE_NONE (w.millis.2.emit [Event.waitReturn CHOICE_NONE]) := by
  simp [wait_loop, ht]

theorem wait_loop_no_key (fuel0 : Nat) (startTime : Int) (fuel : Nat) (w : World)
    (ht : withinEntryTime w.millis.1 startTime = true)
    (hk : w.millis.2.getKey.1 = CHOICE_NONE) :
    wait_loop fuel0 startTime (fuel + 1) w
      = wait_loop fuel0 startTime fuel w.millis.2.getKey.2 := by
  simp [wait_loop, ht, hk]

theorem wait_loop_key (fuel0 : Nat) (startTime : Int) (fuel : Nat) (w : World)
    (ht : withinEntryTime w.millis.1 startTime = true)
    (hk : w.millis.2.getKey.1 ≠ CHOICE_NONE) :
    wait_loop fuel0 startTime (fuel + 1) w
      = match release_loop fuel0
          ((w.millis.2.getKey.2.emit [Event.printlnChar w.millis.2.getKey.1]).emit
            (toner w.millis.2.getKey.1 150)) with
        | Result.outOfFuel w4 => Result.outOfFuel w4
        | Result.ret _ w4 =>
          Result.ret w.millis.2.getKey.1
            ((w4.emit [Event.delay 10]).emit [Event.waitReturn w.millis.2.getKey.1]) := by
  simp [wait_loop, ht, hk]

/-- The wait loop: whatever the fuel, the world reached differs from the
initial one by clock and keypad reads only, and the events emitted are events
of the input engine followed, if the loop returned, by the return marker. -/
theorem wait_loop_polls (fuel0 : Nat) (startTime : Int) (fuel : Nat) (w : World) :
    ∃ body, Polls w (wait_loop fuel0 startTime fuel w).world
        (body ++ returnMark (wait_loop fuel0 startTime fuel w))
      ∧ ∀ e ∈ body, isWaitEvent e = true := by
  induction fuel generalizing w with
  | zero => exact ⟨[], by simpa [wait_loop, Result.world, returnMark] using Polls.refl w, by simp⟩
  | succ fuel ih =>
    by_cases ht : withinEntryTime w.millis.1 startTime = true
    · by_cases hk : w.millis.2.getKey.1 = CHOICE_NONE
      · -- no key: next iteration
        rw [wait_loop_no_key _ _ _ _ ht hk]
        obtain ⟨body, hp, hs⟩ := ih w.millis.2.getKey.2
        refine ⟨[Event.millis w.millis.1] ++ [Event.getKey w.millis.2.getKey.1] ++ body, ?_, ?_⟩
        · have := ((Polls.millis w).trans (Polls.getKey w.millis.2)).trans hp
          simpa [List.append_assoc] using this
        · intro e he
          simp only [List.mem_append, List.mem_singleton] at he
          rcases he with (he | he) | he
          · subst he; rfl
          · subst he; rfl
          · exact hs e he
      · -- a key was seen
        rw [wait_loop_key _ _ _ _ ht hk]
        obtain ⟨seg, hp, hs⟩ := release_loop_polls fuel0
          ((w.millis.2.getKey.2.emit [Event.printlnChar w.millis.2.getKey.1]).emit
            (toner w.millis.2.getKey.1 150))
        have hpre := (((Polls.millis w).trans (Polls.getKey w.millis.2)).trans
          (Polls.of_emit w.millis.2.getKey.2 [Event.printlnChar w.millis.2.getKey.1])).trans
          (Polls.of_emit (w.millis.2.getKey.2.emit [Event.printlnChar w.millis.2.getKey.1])
            (toner w.millis.2.getKey.1 150))
        have hbody : ∀ e ∈ [Event.millis w.millis.1] ++ [Event.getKey w.millis.2.getKey.1]
            ++ [Event.printlnChar w.millis.2.getKey.1] ++ toner w.millis.2.getKey.1 150 ++ seg,
            isWaitEvent e = true := by
          intro e he
          simp only [List.mem_append, List.mem_singleton] at he
          rcases he with (((he | he) | he) | he) | he
          · subst he; rfl
          · subst he; rfl
          · subst he; rfl
          · exact toner_isWaitEvent _ _ e he
          · obtain ⟨k, hk⟩ := hs e he
            subst hk; rfl
        cases hr : release_loop fuel0
          ((w.millis.2.getKey.2.emit [Event.printlnChar w.millis.2.getKey.1]).emit
            (toner w.millis.2.getKey.1 150)) with
        | outOfFuel w4 =>
          rw [hr] at hp
          refine ⟨_, ?_, hbody⟩
          simpa [Result.world, returnMark] using hpre.trans hp
        | ret u w4 =>
          rw [hr] at hp
          refine ⟨[Event.millis w.millis.1] ++ [Event.getKey w.millis.2.getKey.1]
            ++ [Event.printlnChar w.millis.2.getKey.1] ++ toner w.millis.2.getKey.1 150 ++ seg
            ++ [Event.delay 10], ?_, ?_⟩
          · simp only [Result.world, returnMark] at hp ⊢
            exact ((hpre.trans hp).trans (Polls.of_emit w4 [Event.delay 10])).trans
              (Polls.of_emit (w4.emit [Event.delay 10]) [Event.waitReturn w.millis.2.getKey.1])
          · intro e he
            rcases List.mem_append.mp he with he | he
            · exact hbody e he
            · have : e = Event.delay 10 := by simpa using he
              subst this; rfl
    · -- timed out
      rw [wait_loop_timeout _ _ _ _ (by simpa using ht)]
      refine ⟨[Event.millis w.millis.1], ?_, ?_⟩
      · simp only [Result.world, returnMark]
        exact (Polls.millis w).trans (Polls.of_emit w.millis.2 [Event.waitReturn CHOICE_NONE])
      · intro e he
        have : e = Event.millis w.millis.1 := by simpa using he
        subst this; rfl

theorem wait_for_button_polls (fuel : Nat) (w : World) :
    ∃ body, Polls w (wait_for_button fuel w).world
        (body ++ returnMark (wait_for_button fuel w))
      ∧ ∀ e ∈ body, isWaitEvent e = true := by
  obtain ⟨body, hp, hs⟩ := wait_loop_polls fuel (toLong w.millis.1) fuel w.millis.2
  refine ⟨[Event.millis w.millis.1] ++ body, ?_, ?_⟩
  · have := (Polls.millis w).trans hp
    simpa [wait_for_button, List.append_assoc] using this
  · intro e he
    rcases List.mem_append.mp he with he | he
    · have : e = Event.millis w.millis.1 := by simpa using he
      subst this; rfl
    · exact hs e he

theorem withinEntryTime_false_iff (s t : Nat) :
    withinEntryTime (toULong t) (toLong (toULong s)) = false
      ↔ ENTRY_TIME_LIMIT ≤ toULong ((t : Int) - (s : Int)) := by
  rw [← Bool.not_eq_true, withinEntryTime_iff]
  omega

/-- The wait loop when no key is pressed before the first expired reading:
it returns `CHOICE_NONE` having only read the clock and polled the keypad. -/
theorem wait_loop_silent (startTime : Int) (j : Nat) (w : World)
    (hwin : ∀ i < j, withinEntryTime (toULong (w.clock i)) startTime = true)
    (hexp : withinEntryTime (toULong (w.clock j)) startTime = false)
    (hkeys : ∀ i < j, w.keypad i = CHOICE_NONE) :
    ∃ w' seg, (∀ fuel0 fuel, j + 1 ≤ fuel →
        wait_loop fuel0 startTime fuel w = Result.ret CHOICE_NONE w')
      ∧ w'.trace = w.trace ++ seg ++ [Event.waitReturn CHOICE_NONE]
      ∧ ∀ e ∈ seg, (∃ t, e = Event.millis t) ∨ e = Event.getKey CHOICE_NONE := by
  induction j generalizing w with
  | zero =>
    refine ⟨w.millis.2.emit [Event.waitReturn CHOICE_NONE], [Event.millis w.millis.1],
      ?_, rfl, ?_⟩
    · intro fuel0 fuel hf
      obtain ⟨f, rfl⟩ : ∃ f, fuel = f + 1 := ⟨fuel - 1, by omega⟩
      exact wait_loop_timeout _ _ _ _ hexp
    · intro e he
      exact Or.inl ⟨_, by simpa using he⟩
  | succ j ih =>
    have h0 : withinEntryTime w.millis.1 startTime = true := hwin 0 (by omega)
    have k0 : w.millis.2.getKey.1 = CHOICE_NONE := hkeys 0 (by omega)
    obtain ⟨w', seg, hret, htr, hev⟩ := ih w.millis.2.getKey.2
      (fun i hi => hwin (i + 1) (by omega)) hexp (fun i hi => hkeys (i + 1) (by omega))
    refine ⟨w', [Event.millis w.millis.1, Event.getKey CHOICE_NONE] ++ seg, ?_, ?_, ?_⟩
    · intro fuel0 fuel hf
      obtain ⟨f, rfl⟩ : ∃ f, fuel = f + 1 := ⟨fuel - 1, by omega⟩
      rw [wait_loop_no_key _ _ _ _ h0 k0]
      exact hret fuel0 f (by omega)
    · rw [htr]
      have : w.millis.2.getKey.2.trace
          = w.trace ++ [Event.millis w.millis.1, Event.getKey CHOICE_NONE] := by
        show (w.trace ++ [Event.millis w.millis.1]) ++ [Event.getKey (w.keypad 0)] = _
        rw [show w.keypad 0 = CHOICE_NONE from k0]
        simp
      rw [this]
      simp [List.append_assoc]
    · intro e he
      rcases List.mem_append.mp he with he | he
      · simp only [List.mem_cons, List.mem_singleton, List.not_mem_nil, or_false] at he
        rcases he with he | he
        · exact Or.inl ⟨_, he⟩
        · exact Or.inr he
      · exact hev e he

/-! ### Claims about the input engine -/

/-- C6 (wrap-safety): `wait_for_button` stores the first clock reading in the
signed `startTime` and runs the wait loop with it; for a start reading `s` and a
later reading `t`, the loop condition equals `((t - s) mod 2^32) < 3000`; hence
for every true elapsed time `e < 3000` the condition holds at the reading
`s + e` taken modulo `2^32`, wrapped or not, and the loop, seeing no key, goes
on to its next iteration instead of timing out.  Example: start 1000 ms before
the wrap, reading 500 ms after it. -/
theorem wait_for_button_wrap_safe (s t : Nat) :
    (∀ fuel w, wait_for_button fuel w
        = wait_loop fuel (toLong (toULong (w.clock 0))) fuel w.millis.2)
    ∧ withinEntryTime (toULong t) (toLong (toULong s))
        = decide (((t : Int) - (s : Int)) % 2 ^ 32 < 3000)
    ∧ (∀ e : Nat, e < 3000 →
        withinEntryTime (toULong ((s + e : Nat) : Int)) (toLong (toULong s)) = true)
    ∧ (∀ fuel0 fuel w, w.clock 0 = t → ((t : Int) - (s : Int)) % 2 ^ 32 < 3000 →
        w.keypad 0 = CHOICE_NONE →
        wait_loop fuel0 (toLong (toULong s)) (fuel + 1) w
          = wait_loop fuel0 (toLong (toULong s)) fuel w.millis.2.getKey.2)
    ∧ withinEntryTime (toULong 500) (toLong (toULong 4294966296)) = true := by
  refine ⟨fun _ _ => rfl, ?_, ?_, ?_, by decide⟩
  · simp only [withinEntryTime, toULong, toLong, ENTRY_TIME_LIMIT]
    rw [decide_eq_decide]
    omega
  · intro e he
    rw [withinEntryTime_iff]
    simp only [toULong, ENTRY_TIME_LIMIT]
    omega
  · intro fuel0 fuel w hw ht hk
    apply wait_loop_no_key
    · show withinEntryTime (toULong (w.clock 0)) _ = true
      rw [hw, withinEntryTime_iff]
      exact ht
    · exact hk

/-- C7 (timeout is silent): whatever the first clock reading, if the `j`
readings after it are less than 3000 ms past it (modulo `2^32`), the next one is
not, and the `j` keypad polls made in between return `CHOICE_NONE`, then
`wait_for_button` returns `CHOICE_NONE` (for every fuel of at least `j + 1`),
and before returning it has only read the clock and polled the keypad: no LED
write, no buzzer write, no delay. -/
theorem wait_for_button_timeout_silent (w : World) (j : Nat)
    (hwin : ∀ i < j,
      toULong ((w.clock (i + 1) : Int) - (w.clock 0 : Int)) < ENTRY_TIME_LIMIT)
    (hexp : ENTRY_TIME_LIMIT ≤ toULong ((w.clock (j + 1) : Int) - (w.clock 0 : Int)))
    (hkeys : ∀ i < j, w.keypad i = CHOICE_NONE) :
    ∃ w' seg, (∀ fuel, j + 1 ≤ fuel → wait_for_button fuel w = Result.ret CHOICE_NONE w')
      ∧ w'.trace = w.trace ++ seg ++ [Event.waitReturn CHOICE_NONE]
      ∧ (∀ e ∈ seg, (∃ t, e = Event.millis t) ∨ e = Event.getKey CHOICE_NONE)
      ∧ (∀ e ∈ seg, isOutput e = false) := by
  obtain ⟨w', seg, hret, htr, hev⟩ :=
    wait_loop_silent (toLong w.millis.1) j w.millis.2
      (fun i hi => (withinEntryTime_iff _ _).mpr (hwin i hi))
      ((withinEntryTime_false_iff _ _).mpr hexp) hkeys
  have hall : ∀ e ∈ [Event.millis w.millis.1] ++ seg,
      (∃ t, e = Event.millis t) ∨ e = Event.getKey CHOICE_NONE := by
    intro e he
    rcases List.mem_append.mp he with he | he
    · exact Or.inl ⟨_, by simpa using he⟩
    · exact hev e he
  refine ⟨w', [Event.millis w.millis.1] ++ seg, ?_, ?_, hall, ?_⟩
  · intro fuel hf
    exact hret fuel fuel hf
  · rw [htr]
    show (w.trace ++ [Event.millis w.millis.1]) ++ seg ++ _ = _
    simp [List.append_assoc]
  · intro e he
    rcases hall e he with ⟨t, rfl⟩ | rfl <;> rfl

/-- Witness for C7: the idle world, whose clock wraps during the wait; two
polls fall inside the window. -/
theorem wait_for_button_timeout_silent_witness :
    (∀ i < 2, toULong ((idleWorld.clock (i + 1) : Int) - (idleWorld.clock 0 : Int))
        < ENTRY_TIME_LIMIT)
    ∧ ENTRY_TIME_LIMIT ≤ toULong ((idleWorld.clock (2 + 1) : Int) - (idleWorld.clock 0 : Int))
    ∧ (∀ i < 2, idleWorld.keypad i = CHOICE_NONE)
    ∧ ∃ w' seg, (∀ fuel, 2 + 1 ≤ fuel →
          wait_for_button fuel idleWorld = Result.ret CHOICE_NONE w')
        ∧ w'.trace = idleWorld.trace ++ seg ++ [Event.waitReturn CHOICE_NONE]
        ∧ (∀ e ∈ seg, (∃ t, e = Event.millis t) ∨ e = Event.getKey CHOICE_NONE)
        ∧ (∀ e ∈ seg, isOutput e = false) :=
  ⟨by decide, by decide, by decide,
    wait_for_button_timeout_silent idleWorld 2 (by decide) (by decide) (by decide)⟩

set_option maxRecDepth 100000 in
/-- C8, the code at the failing input: `'1'` (code 49) is a key of the matrix
and not a colour key; in `strayGame` the call of `wait_for_button` returns 49 as
the player's choice and `play_memory` returns false, while the same game without
that tap (`cleanGame`) is won. -/
theorem stray_key_loses :
    49 ∈ keys.flatten ∧ 49 ∉ colors
    ∧ (wait_for_button 8 strayGame).valueOf = some 49
    ∧ (play_memory 8 strayGame).valueOf = some false
    ∧ (play_memory 8 cleanGame).valueOf = some true := by
  refine ⟨by decide, by decide, by decide, by decide, by decide⟩

theorem waitResults_append (a b : List Event) :
    waitResults (a ++ b) = waitResults a ++ waitResults b := by
  induction a with
  | nil => rfl
  | cons e a ih => cases e <;> simp [waitResults, ih]

theorem waitResults_of_isWaitEvent (a : List Event) (h : ∀ e ∈ a, isWaitEvent e = true) :
    waitResults a = [] := by
  induction a with
  | nil => rfl
  | cons e a ih =>
    have he := h e (List.mem_cons_self _ _)
    have ih1 := ih (fun x hx => h x (List.mem_cons_of_mem _ hx))
    cases e <;> simp_all [waitResults, isWaitEvent]

theorem release_loop_returns (w : World) (m : Nat) (hm : w.keypad m = CHOICE_NONE) :
    ∃ w', ∀ fuel, m + 1 ≤ fuel → release_loop fuel w = Result.ret () w' := by
  induction m generalizing w with
  | zero =>
    refine ⟨w.getKey.2, fun fuel hf => ?_⟩
    obtain ⟨f, rfl⟩ : ∃ f, fuel = f + 1 := ⟨fuel - 1, by omega⟩
    have : w.getKey.1 = CHOICE_NONE := hm
    simp [release_loop, this]
  | succ m ih =>
    by_cases h0 : w.getKey.1 = CHOICE_NONE
    · refine ⟨w.getKey.2, fun fuel hf => ?_⟩
      obtain ⟨f, rfl⟩ : ∃ f, fuel = f + 1 := ⟨fuel - 1, by omega⟩
      simp [release_loop, h0]
    · obtain ⟨w', hw'⟩ := ih w.getKey.2 hm
      refine ⟨w', fun fuel hf => ?_⟩
      obtain ⟨f, rfl⟩ : ∃ f, fuel = f + 1 := ⟨fuel - 1, by omega⟩
      rw [release_loop, if_pos h0]
      exact hw' f (by omega)

theorem wait_loop_returns (startTime : Int) (j : Nat) (w : World)
    (hexp : withinEntryTime (toULong (w.clock j)) startTime = false)
    (hk : KeysReleased w.keypad) :
    ∃ N c w', ∀ fuel0 fuel, N ≤ fuel0 → N ≤ fuel →
      wait_loop fuel0 startTime fuel w = Result.ret c w' := by
  induction j generalizing w with
  | zero =>
    refine ⟨1, CHOICE_NONE, w.millis.2.emit [Event.waitReturn CHOICE_NONE],
      fun fuel0 fuel _ hf => ?_⟩
    obtain ⟨f, rfl⟩ : ∃ f, fuel = f + 1 := ⟨fuel - 1, by omega⟩
    exact wait_loop_timeout _ _ _ _ hexp
  | succ j ih =>
    by_cases ht : withinEntryTime w.millis.1 startTime = true
    · by_cases h0 : w.millis.2.getKey.1 = CHOICE_NONE
      · obtain ⟨N, c, w', h⟩ := ih w.millis.2.getKey.2 hexp
          ((Polls.millis w).trans (Polls.getKey w.millis.2) |>.keysReleased hk)
        refine ⟨N + 1, c, w', fun fuel0 fuel h0' hf => ?_⟩
        obtain ⟨f, rfl⟩ : ∃ f, fuel = f + 1 := ⟨fuel - 1, by omega⟩
        rw [wait_loop_no_key _ _ _ _ ht h0]
        exact h fuel0 f (by omega) (by omega)
      · have hk3 : KeysReleased
            ((w.millis.2.getKey.2.emit [Event.printlnChar w.millis.2.getKey.1]).emit
              (toner w.millis.2.getKey.1 150)).keypad :=
          (Polls.millis w).trans (Polls.getKey w.millis.2) |>.keysReleased hk
        obtain ⟨m, -, hm⟩ := hk3 0
        obtain ⟨w4, h4⟩ := release_loop_returns _ m hm
        refine ⟨m + 1, w.millis.2.getKey.1,
          (w4.emit [Event.delay 10]).emit [Event.waitReturn w.millis.2.getKey.1],
          fun fuel0 fuel h0' hf => ?_⟩
        obtain ⟨f, rfl⟩ : ∃ f, fuel = f + 1 := ⟨fuel - 1, by omega⟩
        rw [wait_loop_key _ _ _ _ ht h0, h4 fuel0 h0']
    · refine ⟨1, CHOICE_NONE, w.millis.2.emit [Event.waitReturn CHOICE_NONE],
        fun fuel0 fuel _ hf => ?_⟩
      obtain ⟨f, rfl⟩ : ∃ f, fuel = f + 1 := ⟨fuel - 1, by omega⟩
      exact wait_loop_timeout _ _ _ _ (by simpa using ht)

theorem wait_for_button_returns (w : World) (hc : ClockAdvances w.clock)
    (hk : KeysReleased w.keypad) :
    ∃ N c w', ∀ fuel, N ≤ fuel → wait_for_button fuel w = Result.ret c w' := by
  obtain ⟨m, hm, hle⟩ := hc 0
  obtain ⟨j, rfl⟩ : ∃ j, m = j + 1 := ⟨m - 1, by omega⟩
  obtain ⟨N, c, w', h⟩ := wait_loop_returns (toLong w.millis.1) j w.millis.2
    ((withinEntryTime_false_iff _ _).mpr hle) ((Polls.millis w).keysReleased hk)
  exact ⟨N, c, w', fun fuel hf => h fuel fuel hf hf⟩

theorem boardSlice_zero (w : World) (i : Nat) : boardSlice w i 0 = [] := rfl

theorem boardSlice_succ (w : World) (i n : Nat) :
    boardSlice w i (n + 1) = w.gameBoard i :: boardSlice w (i + 1) n := by
  simp [boardSlice, List.range'_succ]

theorem boardSlice_congr {w1 w2 : World} (h : w2.gameBoard = w1.gameBoard) (i n : Nat) :
    boardSlice w2 i n = boardSlice w1 i n := by
  simp [boardSlice, h]

theorem echo_loop_spec (fuel0 fuel i : Nat) (w : World) (hg : w.gameRound < 256)
    (hi : i ≤ w.gameRound) :
    ∃ seg, Polls w (echo_loop fuel0 fuel i w).world seg
      ∧ (∀ e ∈ seg, isWaitEvent e = true ∨ ∃ c, e = Event.waitReturn c)
      ∧ (∀ w', echo_loop fuel0 fuel i w = Result.ret true w' →
          waitResults seg = boardSlice w i (w.gameRound - i))
      ∧ (∀ w', echo_loop fuel0 fuel i w = Result.ret false w' →
          ∃ j c body, i ≤ j ∧ j < w.gameRound ∧ seg = body ++ [Event.waitReturn c]
            ∧ waitResults body = boardSlice w i (j - i)
            ∧ (c = CHOICE_NONE ∨ c ≠ w.gameBoard j)) := by
  induction fuel generalizing i w with
  | zero =>
    refine ⟨[], by simpa [echo_loop, Result.world] using Polls.refl w, by simp, ?_, ?_⟩
    · intro w' h; simp [echo_loop] at h
    · intro w' h; simp [echo_loop] at h
  | succ fuel ih =>
    rw [echo_loop]
    by_cases hlt : i < w.gameRound
    · simp only [hlt, if_true]
      obtain ⟨body, hp, hb⟩ := wait_for_button_polls fuel0 w
      cases hw : wait_for_button fuel0 w with
      | outOfFuel w1 =>
        rw [hw] at hp
        simp only [Result.world, returnMark, List.append_nil] at hp ⊢
        refine ⟨body, hp, fun e he => Or.inl (hb e he), ?_, ?_⟩
        · intro w' h; simp at h
        · intro w' h; simp at h
      | ret c w1 =>
        rw [hw] at hp
        simp only [Result.world, returnMark] at hp ⊢
        have halpha : ∀ e ∈ body ++ [Event.waitReturn c],
            isWaitEvent e = true ∨ ∃ c, e = Event.waitReturn c := by
          intro e he
          rcases List.mem_append.mp he with he | he
          · exact Or.inl (hb e he)
          · exact Or.inr ⟨c, by simpa using he⟩
        by_cases hc : c = CHOICE_NONE
        · rw [if_pos hc]
          refine ⟨body ++ [Event.waitReturn c], hp, halpha, ?_, ?_⟩
          · intro w' h; simp at h
          · intro w' _
            refine ⟨i, c, body, le_refl _, hlt, rfl, ?_, Or.inl hc⟩
            rw [waitResults_of_isWaitEvent _ hb]
            simp [boardSlice]
        · rw [if_neg hc]
          by_cases hne : c ≠ w1.gameBoard i
          · rw [if_pos hne]
            refine ⟨body ++ [Event.waitReturn c], hp, halpha, ?_, ?_⟩
            · intro w' h; simp at h
            · intro w' _
              refine ⟨i, c, body, le_refl _, hlt, rfl, ?_, Or.inr ?_⟩
              · rw [waitResults_of_isWaitEvent _ hb]
                simp [boardSlice]
              · rw [← hp.gameBoard]; exact hne
          · rw [if_neg hne]
            have hceq : c = w.gameBoard i := by
              rw [← hp.gameBoard]
              exact not_not.mp hne
            have hmod : (i + 1) % 256 = i + 1 := Nat.mod_eq_of_lt (by omega)
            rw [hmod]
            obtain ⟨seg, hp2, ha2, ht2, hf2⟩ :=
              ih (i + 1) w1 (by rw [hp.gameRound]; exact hg) (by rw [hp.gameRound]; omega)
            refine ⟨(body ++ [Event.waitReturn c]) ++ seg, hp.trans hp2, ?_, ?_, ?_⟩
            · intro e he
              rcases List.mem_append.mp he with he | he
              · exact halpha e he
              · exact ha2 e he
            · intro w' h
              rw [waitResults_append, waitResults_append, waitResults_of_isWaitEvent _ hb,
                ht2 w' h, hp.gameRound, boardSlice_congr hp.gameBoard]
              have : w.gameRound - i = (w.gameRound - (i + 1)) + 1 := by omega
              rw [this, boardSlice_succ, hceq]
              simp [waitResults]
            · intro w' h
              obtain ⟨j, c', body', hj1, hj2, hseg, hres, hcc⟩ := hf2 w' h
              rw [hp.gameRound] at hj2
              refine ⟨j, c', (body ++ [Event.waitReturn c]) ++ body', by omega, hj2, ?_, ?_, ?_⟩
              · rw [hseg]; simp [List.append_assoc]
              · rw [waitResults_append, waitResults_append, waitResults_of_isWaitEvent _ hb,
                  hres, boardSlice_congr hp.gameBoard]
                have : j - i = (j - (i + 1)) + 1 := by omega
                rw [this, boardSlice_succ, hceq]
                simp [waitResults]
              · rw [← hp.gameBoard]; exact hcc
    · simp only [hlt, if_false]
      refine ⟨[], by simpa [Result.world] using Polls.refl w, by simp, ?_, ?_⟩
      · intro w' _
        have : w.gameRound - i = 0 := by omega
        rw [this]
        rfl
      · intro w' h; simp at h

theorem storedChoice_ne_none (d : Int) : storedChoice d ≠ CHOICE_NONE := by
  simp only [storedChoice, toByte, toChar, choiceOf, CHOICE_NONE, CHOICE_RED, CHOICE_GREEN,
    CHOICE_BLUE, CHOICE_WHITE]
  split_ifs <;> omega

theorem isWaitEvent_quiet (e : Event) (h : isWaitEvent e = true) : isUnlockWrite e = false := by
  cases e <;>
    simp_all [isWaitEvent, isUnlockWrite, BUZZER, UNLOCK_PIN, LED_RED, LED_GREEN, LED_BLUE]
  omega

theorem playback_cons (c : Int) (s : List Int) :
    playback (c :: s) = toner (toChar c) 150 ++ [Event.delay 150] ++ playback s := by
  simp [playback, List.flatMap_cons]

theorem playMoves_loop_eq (w : World) (hg : w.gameRound < 256) (n i : Nat)
    (hn : w.gameRound - i ≤ n) :
    playMoves_loop w n i = playback (boardSlice w i (w.gameRound - i)) := by
  induction n generalizing i with
  | zero =>
    have : w.gameRound - i = 0 := by omega
    rw [this]
    rfl
  | succ n ih =>
    rw [playMoves_loop]
    split_ifs with hlt
    · have hmod : (i + 1) % 256 = i + 1 := Nat.mod_eq_of_lt (by omega)
      have hs : w.gameRound - i = (w.gameRound - (i + 1)) + 1 := by omega
      rw [hmod, ih (i + 1) (by omega), hs, boardSlice_succ, playback_cons]
    · have : w.gameRound - i = 0 := by omega
      rw [this]
      rfl

theorem GameInv.boardSlice {P : Nat → Int} {k : Nat} {w : World} (h : GameInv P k w) :
    boardSlice w 0 k = sequenceOf P k := by
  simp only [SimonSays.boardSlice, sequenceOf, List.range_eq_range']
  apply List.map_congr_left
  intro i hi
  exact h.gameBoard i (by simpa using hi)

theorem playMoves_eq {P : Nat → Int} {k : Nat} {w : World} (h : GameInv P k w)
    (hk : k < 256) : playMoves w = w.emit (playback (sequenceOf P k)) := by
  have hg : w.gameRound < 256 := by rw [h.gameRound]; exact hk
  rw [playMoves, playMoves_loop_eq w hg _ 0 (by omega), Nat.sub_zero, h.gameRound,
    h.boardSlice]

theorem GameInv.after_emit {P : Nat → Int} {k : Nat} {w : World} (h : GameInv P k w)
    (es : List Event) : GameInv P k (w.emit es) :=
  ⟨h.gameRound, h.gameBoard, h.prng⟩

theorem GameInv.polls {P : Nat → Int} {k : Nat} {w w' : World} {seg : List Event}
    (h : GameInv P k w) (hp : Polls w w' seg) : GameInv P k w' :=
  ⟨hp.gameRound.trans h.gameRound, fun i hi => by rw [hp.gameBoard]; exact h.gameBoard i hi,
    hp.prng.trans h.prng⟩

theorem add_to_moves_inv {P : Nat → Int} {k : Nat} {w : World} (h : GameInv P k w)
    (hk : k < 255) :
    GameInv P (k + 1) (add_to_moves w)
      ∧ (add_to_moves w).trace = w.trace ++ [Event.random (P k)]
      ∧ (add_to_moves w).clock = w.clock ∧ (add_to_moves w).keypad = w.keypad
      ∧ (add_to_moves w).unlockButton = w.unlockButton := by
  have hp0 : w.prng 0 = P k := by rw [h.prng]; simp
  refine ⟨⟨?_, ?_, ?_⟩, ?_, rfl, rfl, rfl⟩
  · show (w.gameRound + 1) % 256 = k + 1
    rw [h.gameRound]
    exact Nat.mod_eq_of_lt (by omega)
  · intro i hi
    show Function.update w.gameBoard w.gameRound (toByte (choiceOf (toChar (w.prng 0)))) i = _
    rw [h.gameRound, hp0]
    by_cases hik : i = k
    · subst hik
      simp [storedChoice]
    · rw [Function.update_noteq hik]
      exact h.gameBoard i (by omega)
  · show (fun n => w.prng (n + 1)) = _
    rw [h.prng]
    funext n
    simp [Nat.add_assoc, Nat.add_comm 1 k]
  · show w.trace ++ [Event.random (w.prng 0)] = _
    rw [hp0]

theorem play_loop_spec (fuel0 fuel : Nat) (P : Nat → Int) (k : Nat) (w : World)
    (hinv : GameInv P k w) (hk : k ≤ ROUNDS_TO_WIN) (b : Bool) (w' : World)
    (h : play_loop fuel0 fuel w = Result.ret b w') :
    ∃ rounds, w'.trace = w.trace ++ gameEvents P k rounds
      ∧ RoundsValid P k rounds b
      ∧ GameInv P (k + rounds.length) w'
      ∧ (∃ a, w'.clock = fun n => w.clock (n + a))
      ∧ (∃ a, w'.keypad = fun n => w.keypad (n + a))
      ∧ w'.unlockButton = w.unlockButton := by
  induction fuel generalizing k w with
  | zero => simp [play_loop] at h
  | succ fuel ih =>
    rw [play_loop] at h
    by_cases hlt : w.gameRound < ROUNDS_TO_WIN
    · rw [if_pos hlt] at h
      have hk7 : k < 7 := by rw [← hinv.gameRound]; exact hlt
      obtain ⟨hinv1, htr1, hc1, hk1, hu1⟩ := add_to_moves_inv hinv (by omega)
      have hpm := playMoves_eq hinv1 (by omega)
      have hinv2 : GameInv P (k + 1) (playMoves (add_to_moves w)) := by
        rw [hpm]; exact hinv1.after_emit _
      have htr2 : (playMoves (add_to_moves w)).trace
          = w.trace ++ [Event.random (P k)] ++ playback (sequenceOf P (k + 1)) := by
        rw [hpm]
        show (add_to_moves w).trace ++ _ = _
        rw [htr1]
      have hc2 : (playMoves (add_to_moves w)).clock = w.clock := by rw [hpm]; exact hc1
      have hk2 : (playMoves (add_to_moves w)).keypad = w.keypad := by rw [hpm]; exact hk1
      have hu2 : (playMoves (add_to_moves w)).unlockButton = w.unlockButton := by
        rw [hpm]; exact hu1
      obtain ⟨seg, hp, halpha, hT, hF⟩ := echo_loop_spec fuel0 fuel0 0
        (playMoves (add_to_moves w)) (by rw [hinv2.gameRound]; omega) (Nat.zero_le _)
      rw [hinv2.gameRound, Nat.sub_zero, hinv2.boardSlice] at hT
      cases he : echo_loop fuel0 fuel0 0 (playMoves (add_to_moves w)) with
      | outOfFuel w1 => rw [he] at h; simp at h
      | ret b1 w1 =>
        rw [he] at h hp
        simp only [Result.world] at hp
        obtain ⟨a1, ha1⟩ := hp.clock
        obtain ⟨a2, ha2⟩ := hp.keypad
        cases b1 with
        | false =>
          simp only [Result.ret.injEq] at h
          obtain ⟨hb, hw⟩ := h
          subst hb; subst hw
          obtain ⟨j, c, body, -, hj, hseg, hres, hcc⟩ := hF w1 he
          rw [hinv2.gameRound] at hj
          refine ⟨[(seg, false)], ?_, ?_, hinv2.polls hp, ⟨a1, by rw [ha1, hc2]⟩,
            ⟨a2, by rw [ha2, hk2]⟩, hp.unlockButton.trans hu2⟩
          · rw [hp.trace, htr2]
            simp [gameEvents, roundEvents, List.append_assoc]
          · refine ⟨hk7, ⟨halpha, fun h => by simp at h, fun _ => ?_⟩, fun h => by simp at h,
              fun _ => ⟨rfl, rfl⟩⟩
            refine ⟨j, c, body, hj, hseg, ?_, ?_⟩
            · rw [hres, Nat.sub_zero]
              simp only [SimonSays.boardSlice, sequenceOf, List.range_eq_range']
              apply List.map_congr_left
              intro i hi
              exact hinv2.gameBoard i (by simp at hi; omega)
            · rcases hcc with hcc | hcc
              · rw [hcc]; exact (storedChoice_ne_none _).symm
              · rw [hinv2.gameBoard j hj] at hcc; exact hcc
        | true =>
          simp only at h
          obtain ⟨rounds, htr, hval, hinv', ⟨a3, ha3⟩, ⟨a4, ha4⟩, hu'⟩ :=
            ih (k + 1) (w1.emit [Event.delay 1000]) ((hinv2.polls hp).after_emit _)
              (by simp only [ROUNDS_TO_WIN]; omega) h
          refine ⟨(seg, true) :: rounds, ?_, ?_, ?_, ⟨a3 + a1, ?_⟩, ⟨a4 + a2, ?_⟩, ?_⟩
          · rw [htr]
            show (w1.trace ++ [Event.delay 1000]) ++ _ = _
            rw [hp.trace, htr2]
            simp [gameEvents, roundEvents, List.append_assoc]
          · exact ⟨hk7, ⟨halpha, fun _ => hT w1 he, fun h => by simp at h⟩, fun _ => hval,
              fun h => by simp at h⟩
          · have : k + ((seg, true) :: rounds).length = k + 1 + rounds.length := by
              simp; omega
            rw [this]; exact hinv'
          · rw [ha3]
            show (fun n => w1.clock (n + a3)) = _
            rw [ha1, hc2]
            funext n; simp [Nat.add_assoc]
          · rw [ha4]
            show (fun n => w1.keypad (n + a4)) = _
            rw [ha2, hk2]
            funext n; simp [Nat.add_assoc]
          · rw [hu']
            exact hp.unlockButton.trans hu2
    · rw [if_neg hlt] at h
      simp only [Result.ret.injEq] at h
      obtain ⟨hb, hw⟩ := h
      subst hb; subst hw
      have hk7 : 7 ≤ k := by
        rw [← hinv.gameRound]
        simpa [ROUNDS_TO_WIN] using hlt
      refine ⟨[], by simp [gameEvents], ?_, by simpa using hinv, ⟨0, rfl⟩, ⟨0, rfl⟩, rfl⟩
      exact ⟨rfl, by simp only [ROUNDS_TO_WIN] at hk ⊢; omega⟩

theorem playMoves_loop_quiet (w : World) (n i : Nat) :
    ∀ e ∈ playMoves_loop w n i, isUnlockWrite e = false := by
  induction n generalizing i with
  | zero => simp [playMoves_loop]
  | succ n ih =>
    intro e he
    rw [playMoves_loop] at he
    split_ifs at he
    · simp only [List.mem_append, List.mem_singleton] at he
      rcases he with (he | he) | he
      · exact isWaitEvent_quiet e (toner_isWaitEvent _ _ e he)
      · subst he; rfl
      · exact ih _ e he
    · simp at he

/-- Whatever the fuel, the round loop of `play_memory` only appends events to
the trace, none of which writes the unlock pin. -/
theorem play_loop_quiet (fuel0 fuel : Nat) (w : World) :
    ∃ seg, (play_loop fuel0 fuel w).world.trace = w.trace ++ seg
      ∧ ∀ e ∈ seg, isUnlockWrite e = false := by
  induction fuel generalizing w with
  | zero => exact ⟨[], by simp [play_loop, Result.world], by simp⟩
  | succ fuel ih =>
    rw [play_loop]
    by_cases hlt : w.gameRound < ROUNDS_TO_WIN
    · rw [if_pos hlt]
      have hg : (playMoves (add_to_moves w)).gameRound < 256 :=
        Nat.mod_lt _ (by norm_num)
      obtain ⟨seg, hp, halpha, -, -⟩ := echo_loop_spec fuel0 fuel0 0
        (playMoves (add_to_moves w)) hg (Nat.zero_le _)
      have htr2 : (playMoves (add_to_moves w)).trace
          = w.trace ++ ([Event.random (w.prng 0)]
              ++ playMoves_loop (add_to_moves w) (add_to_moves w).gameRound 0) := by
        show (w.trace ++ [Event.random (w.prng 0)]) ++ _ = _
        rw [List.append_assoc]
      have hq : ∀ e ∈ [Event.random (w.prng 0)]
          ++ playMoves_loop (add_to_moves w) (add_to_moves w).gameRound 0 ++ seg,
          isUnlockWrite e = false := by
        intro e he
        simp only [List.mem_append, List.mem_singleton] at he
        rcases he with (he | he) | he
        · subst he; rfl
        · exact playMoves_loop_quiet _ _ _ e he
        · rcases halpha e he with h | ⟨c, rfl⟩
          · exact isWaitEvent_quiet e h
          · rfl
      cases he : echo_loop fuel0 fuel0 0 (playMoves (add_to_moves w)) with
      | outOfFuel w1 =>
        rw [he] at hp
        simp only [Result.world] at hp ⊢
        exact ⟨_, by rw [hp.trace, htr2, List.append_assoc], hq⟩
      | ret b1 w1 =>
        rw [he] at hp
        simp only [Result.world] at hp
        cases b1 with
        | false =>
          simp only [Result.world]
          exact ⟨_, by rw [hp.trace, htr2, List.append_assoc], hq⟩
        | true =>
          simp only
          obtain ⟨seg2, htr, hq2⟩ := ih (w1.emit [Event.delay 1000])
          refine ⟨[Event.random (w.prng 0)]
            ++ playMoves_loop (add_to_moves w) (add_to_moves w).gameRound 0 ++ seg
            ++ [Event.delay 1000] ++ seg2, ?_, ?_⟩
          · rw [htr]
            show (w1.trace ++ [Event.delay 1000]) ++ _ = _
            rw [hp.trace, htr2]
            simp [List.append_assoc]
          · intro e he
            simp only [List.mem_append, List.mem_singleton] at he
            rcases he with (he | he) | he
            · exact hq e (by simp only [List.mem_append, List.mem_singleton]; exact he)
            · subst he; rfl
            · exact hq2 e he
    · rw [if_neg hlt]
      exact ⟨[], by simp [Result.world], by simp⟩

theorem echo_loop_returns (n : Nat) (i : Nat) (w : World) (hg : w.gameRound < 256)
    (hn : w.gameRound - i ≤ n) (hc : ClockAdvances w.clock) (hk : KeysReleased w.keypad) :
    ∃ N b w', ∀ fuel0 fuel, N ≤ fuel0 → N ≤ fuel →
      echo_loop fuel0 fuel i w = Result.ret b w' := by
  induction n generalizing i w with
  | zero =>
    refine ⟨1, true, w, fun fuel0 fuel _ hf => ?_⟩
    obtain ⟨f, rfl⟩ : ∃ f, fuel = f + 1 := ⟨fuel - 1, by omega⟩
    rw [echo_loop, if_neg (by omega)]
  | succ n ih =>
    by_cases hlt : i < w.gameRound
    · obtain ⟨N1, c, w1, h1⟩ := wait_for_button_returns w hc hk
      obtain ⟨body, hp, -⟩ := wait_for_button_polls N1 w
      rw [h1 N1 (le_refl _)] at hp
      simp only [Result.world] at hp
      by_cases hc0 : c = CHOICE_NONE
      · refine ⟨N1 + 1, false, w1, fun fuel0 fuel h0 hf => ?_⟩
        obtain ⟨f, rfl⟩ : ∃ f, fuel = f + 1 := ⟨fuel - 1, by omega⟩
        rw [echo_loop, if_pos hlt, h1 fuel0 (by omega)]
        simp only
        rw [if_pos hc0]
      · by_cases hne : c ≠ w1.gameBoard i
        · refine ⟨N1 + 1, false, w1, fun fuel0 fuel h0 hf => ?_⟩
          obtain ⟨f, rfl⟩ : ∃ f, fuel = f + 1 := ⟨fuel - 1, by omega⟩
          rw [echo_loop, if_pos hlt, h1 fuel0 (by omega)]
          simp only
          rw [if_neg hc0, if_pos hne]
        · obtain ⟨N2, b, w', h2⟩ := ih ((i + 1) % 256) w1 (by rw [hp.gameRound]; exact hg)
            (by rw [hp.gameRound, Nat.mod_eq_of_lt (by omega)]; omega)
            (hp.clockAdvances hc) (hp.keysReleased hk)
          refine ⟨max N1 N2 + 1, b, w', fun fuel0 fuel h0 hf => ?_⟩
          obtain ⟨f, rfl⟩ : ∃ f, fuel = f + 1 := ⟨fuel - 1, by omega⟩
          rw [echo_loop, if_pos hlt, h1 fuel0 (by omega)]
          simp only
          rw [if_neg hc0, if_neg hne]
          exact h2 fuel0 f (by omega) (by omega)
    · refine ⟨1, true, w, fun fuel0 fuel _ hf => ?_⟩
      obtain ⟨f, rfl⟩ : ∃ f, fuel = f + 1 := ⟨fuel - 1, by omega⟩
      rw [echo_loop, if_neg hlt]

theorem play_loop_returns (n : Nat) (w : World) (hn : ROUNDS_TO_WIN - w.gameRound ≤ n)
    (hc : ClockAdvances w.clock) (hk : KeysReleased w.keypad) :
    ∃ N b w', ∀ fuel0 fuel, N ≤ fuel0 → N ≤ fuel →
      play_loop fuel0 fuel w = Result.ret b w' := by
  induction n generalizing w with
  | zero =>
    refine ⟨1, true, w, fun fuel0 fuel _ hf => ?_⟩
    obtain ⟨f, rfl⟩ : ∃ f, fuel = f + 1 := ⟨fuel - 1, by omega⟩
    rw [play_loop, if_neg (by omega)]
  | succ n ih =>
    by_cases hlt : w.gameRound < ROUNDS_TO_WIN
    · have hlt7 : w.gameRound < 7 := hlt
      have hgr : (playMoves (add_to_moves w)).gameRound = w.gameRound + 1 := by
        show (w.gameRound + 1) % 256 = _
        exact Nat.mod_eq_of_lt (by omega)
      obtain ⟨N1, b1, w1, h1⟩ := echo_loop_returns (w.gameRound + 1) 0
        (playMoves (add_to_moves w)) (by rw [hgr]; omega) (by rw [hgr]; omega) hc hk
      obtain ⟨seg, hp, -⟩ := echo_loop_spec N1 N1 0 (playMoves (add_to_moves w))
        (by rw [hgr]; omega) (Nat.zero_le _)
      rw [h1 N1 N1 (le_refl _) (le_refl _)] at hp
      simp only [Result.world] at hp
      cases b1 with
      | false =>
        refine ⟨N1 + 1, false, w1, fun fuel0 fuel h0 hf => ?_⟩
        obtain ⟨f, rfl⟩ : ∃ f, fuel = f + 1 := ⟨fuel - 1, by omega⟩
        rw [play_loop, if_pos hlt, h1 fuel0 fuel0 (by omega) (by omega)]
      | true =>
        obtain ⟨N2, b, w', h2⟩ := ih (w1.emit [Event.delay 1000])
          (by show ROUNDS_TO_WIN - w1.gameRound ≤ n
              rw [hp.gameRound, hgr]; simp only [ROUNDS_TO_WIN] at hn ⊢; omega)
          (hp.clockAdvances hc) (hp.keysReleased hk)
        refine ⟨max N1 N2 + 1, b, w', fun fuel0 fuel h0 hf => ?_⟩
        obtain ⟨f, rfl⟩ : ∃ f, fuel = f + 1 := ⟨fuel - 1, by omega⟩
        rw [play_loop, if_pos hlt, h1 fuel0 fuel0 (by omega) (by omega)]
        exact h2 fuel0 f (by omega) (by omega)
    · refine ⟨1, true, w, fun fuel0 fuel _ hf => ?_⟩
      obtain ⟨f, rfl⟩ : ∃ f, fuel = f + 1 := ⟨fuel - 1, by omega⟩
      rw [play_loop, if_neg hlt]

theorem play_memory_eq_play_loop (fuel : Nat) (w : World) :
    play_memory fuel w = play_loop fuel fuel (gameStart w) := by
  simp [play_memory, gameStart, World.emit, World.millis, List.append_assoc]

theorem ClockAdvances.clock_shift {clock : Nat → Nat} (h : ClockAdvances clock) (a : Nat) :
    ClockAdvances (fun n => clock (n + a)) := by
  intro n
  obtain ⟨m, hm, hle⟩ := h (n + a)
  refine ⟨m - a, by omega, ?_⟩
  have : m - a + a = m := by omega
  simpa [this] using hle

theorem KeysReleased.keys_shift {keypad : Nat → Int} (h : KeysReleased keypad) (a : Nat) :
    KeysReleased (fun n => keypad (n + a)) := by
  intro n
  obtain ⟨m, hm, hz⟩ := h (n + a)
  refine ⟨m - a, by omega, ?_⟩
  have : m - a + a = m := by omega
  simpa [this] using hz

theorem gameStart_inv (w : World) : GameInv w.prng 0 (gameStart w) :=
  ⟨rfl, fun i hi => absurd hi (Nat.not_lt_zero i), rfl⟩

/-- A game played in a world whose clock advances and whose keys are released
returns, with the same result for every sufficient fuel; its events are the
prologue followed by well-formed rounds, none of which writes the unlock pin. -/
theorem play_memory_run (w : World) (hc : ClockAdvances w.clock)
    (hk : KeysReleased w.keypad) :
    ∃ N b w' rounds, (∀ fuel, N ≤ fuel → play_memory fuel w = Result.ret b w')
      ∧ w'.trace = w.trace ++ [Event.println "play_memory",
          Event.millis (toULong (w.clock 0)), Event.randomSeed (toULong (w.clock 0))]
          ++ gameEvents w.prng 0 rounds
      ∧ RoundsValid w.prng 0 rounds b
      ∧ GameInv w.prng rounds.length w'
      ∧ (∀ e ∈ gameEvents w.prng 0 rounds, isUnlockWrite e = false)
      ∧ (∃ a, w'.clock = fun n => w.clock (n + a))
      ∧ (∃ a, w'.keypad = fun n => w.keypad (n + a))
      ∧ w'.unlockButton = w.unlockButton := by
  obtain ⟨N, b, w', hret⟩ := play_loop_returns 7 (gameStart w) (by simp [ROUNDS_TO_WIN])
    (hc.clock_shift 1) hk
  obtain ⟨rounds, htr, hval, hinv, ⟨a, ha⟩, hkp, hu⟩ := play_loop_spec N N w.prng 0
    (gameStart w) (gameStart_inv w) (Nat.zero_le _) b w' (hret N N (le_refl _) (le_refl _))
  obtain ⟨seg, hq1, hq2⟩ := play_loop_quiet N N (gameStart w)
  rw [hret N N (le_refl _) (le_refl _)] at hq1
  simp only [Result.world] at hq1
  have hseg : seg = gameEvents w.prng 0 rounds :=
    List.append_cancel_left (hq1.symm.trans htr)
  refine ⟨N, b, w', rounds, fun fuel hf => ?_, ?_, hval, by simpa using hinv, ?_, ⟨a + 1, ?_⟩,
    hkp, hu⟩
  · rw [play_memory_eq_play_loop]
    exact hret fuel fuel hf hf
  · rw [htr]
    rfl
  · rw [← hseg]
    exact hq2
  · rw [ha]
    funext n
    show w.clock (n + a + 1) = _
    rfl

theorem waitResults_nil_of (es : List Event) (h : ∀ e ∈ es, ∀ c, e ≠ Event.waitReturn c) :
    waitResults es = [] := by
  induction es with
  | nil => rfl
  | cons e es ih =>
    have he := h e (List.mem_cons_self _ _)
    have ih1 := ih (fun x hx => h x (List.mem_cons_of_mem _ hx))
    cases e <;> simp_all [waitResults]

theorem waitResults_playback (s : List Int) : waitResults (playback s) = [] := by
  apply waitResults_nil_of
  intro e he c hc
  subst hc
  simp only [playback, List.mem_flatMap, List.mem_append, List.mem_singleton] at he
  obtain ⟨x, -, hx | hx⟩ := he
  · have := toner_isWaitEvent _ _ _ hx
    simp [isWaitEvent] at this
  · simp at hx

theorem waitResults_roundEvents (P : Nat → Int) (k : Nat) (echo : List Event) (ok : Bool) :
    waitResults (roundEvents P k echo ok) = waitResults echo := by
  simp only [roundEvents, waitResults_append, waitResults_playback]
  cases ok <;> simp [waitResults]

theorem sequenceOf_length (P : Nat → Int) (k : Nat) : (sequenceOf P k).length = k := by
  simp [sequenceOf]

theorem sequenceOf_succ (P : Nat → Int) (k : Nat) :
    sequenceOf P (k + 1) = sequenceOf P k ++ [storedChoice (P k)] := by
  simp [sequenceOf, List.range_succ]

theorem sequenceOf_getElem? (P : Nat → Int) (k j : Nat) (hj : j < k) :
    (sequenceOf P k)[j]? = some (storedChoice (P j)) := by
  simp [sequenceOf, List.getElem?_map, List.getElem?_range hj]

theorem perfectEcho_succ (P : Nat → Int) (k n : Nat) :
    perfectEcho P k (n + 1) = sequenceOf P (k + 1) ++ perfectEcho P (k + 1) n := by
  simp [perfectEcho, List.range'_succ, List.flatMap_cons]

theorem rounds_won (P : Nat → Int) (k : Nat) (rounds : List (List Event × Bool))
    (h : RoundsValid P k rounds true) :
    waitResults (gameEvents P k rounds) = perfectEcho P k (ROUNDS_TO_WIN - k)
      ∧ k + rounds.length = ROUNDS_TO_WIN := by
  induction rounds generalizing k with
  | nil =>
    obtain ⟨-, hk⟩ := h
    subst hk
    simp [gameEvents, waitResults, perfectEcho]
  | cons r rest ih =>
    obtain ⟨hk, hecho, hT, hF⟩ := h
    have hr : r.2 = true := by
      cases hr : r.2 with
      | true => rfl
      | false => exact absurd (hF hr).2 (by simp)
    obtain ⟨ih1, ih2⟩ := ih (k + 1) (hT hr)
    have hs : ROUNDS_TO_WIN - k = (ROUNDS_TO_WIN - (k + 1)) + 1 := by omega
    refine ⟨?_, ?_⟩
    · rw [gameEvents, waitResults_append, waitResults_roundEvents, hecho.2.1 hr, ih1, hs,
        perfectEcho_succ]
    · simp only [List.length_cons]
      omega

theorem rounds_lost (P : Nat → Int) (k : Nat) (rounds : List (List Event × Bool))
    (h : RoundsValid P k rounds false) :
    waitResults (gameEvents P k rounds) ≠ perfectEcho P k (ROUNDS_TO_WIN - k)
      ∧ rounds ≠ [] ∧ k + rounds.length ≤ ROUNDS_TO_WIN
      ∧ ∃ body c, gameEvents P k rounds = body ++ [Event.waitReturn c] := by
  induction rounds generalizing k with
  | nil => exact absurd h.1 (by simp)
  | cons r rest ih =>
    obtain ⟨hk, hecho, hT, hF⟩ := h
    have hs : ROUNDS_TO_WIN - k = (ROUNDS_TO_WIN - (k + 1)) + 1 := by omega
    cases hr : r.2 with
    | true =>
      obtain ⟨ih1, -, ih3, body, c, ih4⟩ := ih (k + 1) (hT hr)
      refine ⟨?_, by simp, by simp only [List.length_cons]; omega,
        roundEvents P k r.1 r.2 ++ body, c, ?_⟩
      · rw [gameEvents, waitResults_append, waitResults_roundEvents, hecho.2.1 hr, hs,
          perfectEcho_succ]
        intro heq
        exact ih1 (List.append_cancel_left heq)
      · rw [gameEvents, ih4, List.append_assoc]
    | false =>
      obtain ⟨hrest, -⟩ := hF hr
      subst hrest
      obtain ⟨j, c, body, hj, hseg, hres, hcc⟩ := hecho.2.2 hr
      refine ⟨?_, by simp, by simp only [List.length_cons, List.length_nil]; omega,
        [Event.random (P k)] ++ playback (sequenceOf P (k + 1)) ++ body, c, ?_⟩
      · rw [gameEvents, gameEvents, List.append_nil, waitResults_roundEvents, hseg,
          waitResults_append, hres, hs, perfectEcho_succ]
        intro heq
        have h1 : (sequenceOf P j ++ waitResults [Event.waitReturn c])[j]? = some c := by
          rw [List.getElem?_append_right (by rw [sequenceOf_length])]
          simp [sequenceOf_length, waitResults]
        have h2 : (sequenceOf P (k + 1) ++ perfectEcho P (k + 1) (ROUNDS_TO_WIN - (k + 1)))[j]?
            = some (storedChoice (P j)) := by
          rw [List.getElem?_append_left (by rw [sequenceOf_length]; exact hj)]
          exact sequenceOf_getElem? P (k + 1) j hj
        rw [heq, h2] at h1
        exact hcc (Option.some.inj h1).symm
      · rw [gameEvents, gameEvents, List.append_nil, roundEvents, hr, hseg]
        simp [List.append_assoc]

theorem storedChoice_of_draw (d : Int) (h : d = 0 ∨ d = 1 ∨ d = 2 ∨ d = 3) :
    storedChoice d = choiceOf d := by
  rcases h with h | h | h | h <;> subst h <;> decide

theorem perfectEcho_eq_winningEcho (P : Nat → Int)
    (h : ∀ n, P n = 0 ∨ P n = 1 ∨ P n = 2 ∨ P n = 3) :
    perfectEcho P 0 ROUNDS_TO_WIN = winningEcho P := by
  simp only [perfectEcho, winningEcho, sequenceOf, ← List.range_eq_range']
  congr 1
  funext k
  apply List.map_congr_left
  intro i _
  exact storedChoice_of_draw _ (h i)

theorem perfectEcho_ne_none (P : Nat → Int) (k n : Nat) :
    ∀ c ∈ perfectEcho P k n, c ≠ CHOICE_NONE := by
  intro c hc
  simp only [perfectEcho, sequenceOf, List.mem_flatMap, List.mem_map] at hc
  obtain ⟨j, -, i, -, rfl⟩ := hc
  exact storedChoice_ne_none _

theorem buzz_sound_quiet (d h : Int) : ∀ e ∈ buzz_sound d h, isUnlockWrite e = false := by
  intro e he
  rcases buzz_loop_events _ _ _ e he with he | he | he <;> subst he <;>
    simp [isUnlockWrite, BUZZER, UNLOCK_PIN]

theorem play_loser_quiet : ∀ e ∈ play_loser, isUnlockWrite e = false := by
  intro e he
  simp only [play_loser, List.mem_append, List.mem_singleton] at he
  rcases he with ((((((((he | he) | he) | he) | he) | he) | he) | he) | he) | he
  all_goals first
    | exact setColor_quiet _ _ _ e he
    | exact buzz_sound_quiet _ _ e he
    | (subst he; rfl)

theorem cleanGame_clock : ClockAdvances cleanGame.clock := by
  intro n
  refine ⟨n + 3, by omega, ?_⟩
  simp only [cleanGame, toULong, ENTRY_TIME_LIMIT]
  push_cast
  omega

theorem cleanGame_keys : KeysReleased cleanGame.keypad := by
  intro n
  refine ⟨2 * n + 1, by omega, ?_⟩
  have : (2 * n + 1) % 2 ≠ 0 := by omega
  simp [cleanGame, this]

theorem idleWorld_clock : ClockAdvances idleWorld.clock := by
  intro n
  refine ⟨n + 3, by omega, ?_⟩
  simp only [idleWorld, toULong, ENTRY_TIME_LIMIT]
  push_cast
  omega

theorem idleWorld_keys : KeysReleased idleWorld.keypad :=
  fun n => ⟨n, le_refl _, rfl⟩

/-- C1 (echo fidelity): for draws in {0,1,2,3}, in a world whose clock advances
and whose keys are released (so that every call of `wait_for_button` returns),
`play_memory` returns, and it returns true if and only if the values returned
by its calls of `wait_for_button`, in order, are the first element, then the
first two elements, ..., then the first seven elements of the sequence drawn;
in every other case it returns false.  After a won game the first seven cells
of `gameBoard` hold that sequence. -/
theorem play_memory_echo_fidelity (w : World)
    (hdraws : ∀ n, w.prng n = 0 ∨ w.prng n = 1 ∨ w.prng n = 2 ∨ w.prng n = 3)
    (hc : ClockAdvances w.clock) (hk : KeysReleased w.keypad) :
    ∃ N b w' seg, (∀ fuel, N ≤ fuel → play_memory fuel w = Result.ret b w')
      ∧ w'.trace = w.trace ++ seg
      ∧ (b = true ↔ waitResults seg = winningEcho w.prng)
      ∧ (b = false ↔ waitResults seg ≠ winningEcho w.prng)
      ∧ (b = true → ∀ i < ROUNDS_TO_WIN, w'.gameBoard i = choiceOf (w.prng i)) := by
  obtain ⟨N, b, w', rounds, hret, htr, hval, hinv, -, -, -, -⟩ := play_memory_run w hc hk
  have hres : waitResults ([Event.println "play_memory", Event.millis (toULong (w.clock 0)),
      Event.randomSeed (toULong (w.clock 0))] ++ gameEvents w.prng 0 rounds)
      = waitResults (gameEvents w.prng 0 rounds) := by
    rw [waitResults_append]
    rfl
  have hiff : b = true ↔ waitResults ([Event.println "play_memory",
      Event.millis (toULong (w.clock 0)), Event.randomSeed (toULong (w.clock 0))]
      ++ gameEvents w.prng 0 rounds) = winningEcho w.prng := by
    rw [hres, ← perfectEcho_eq_winningEcho _ hdraws]
    cases b with
    | true => exact ⟨fun _ => (rounds_won _ _ _ hval).1, fun _ => rfl⟩
    | false =>
      exact ⟨fun h => by simp at h, fun h => absurd h (rounds_lost _ _ _ hval).1⟩
  refine ⟨N, b, w', _, hret, by rw [htr, List.append_assoc], hiff, ?_, ?_⟩
  · rw [Ne, ← hiff]
    cases b <;> simp
  · intro hb i hi
    subst hb
    have hlen := (rounds_won _ _ _ hval).2
    rw [Nat.zero_add] at hlen
    rw [hlen] at hinv
    rw [hinv.gameBoard i hi]
    exact storedChoice_of_draw _ (hdraws i)

set_option maxRecDepth 100000 in
/-- Witness for C1: the game `cleanGame`, which is won. -/
theorem play_memory_echo_fidelity_witness :
    (∀ n, cleanGame.prng n = 0 ∨ cleanGame.prng n = 1 ∨ cleanGame.prng n = 2
        ∨ cleanGame.prng n = 3)
    ∧ ClockAdvances cleanGame.clock ∧ KeysReleased cleanGame.keypad
    ∧ (play_memory 8 cleanGame).valueOf = some true
    ∧ ∃ N b w' seg, (∀ fuel, N ≤ fuel → play_memory fuel cleanGame = Result.ret b w')
      ∧ w'.trace = cleanGame.trace ++ seg
      ∧ (b = true ↔ waitResults seg = winningEcho cleanGame.prng)
      ∧ (b = false ↔ waitResults seg ≠ winningEcho cleanGame.prng)
      ∧ (b = true → ∀ i < ROUNDS_TO_WIN, w'.gameBoard i = choiceOf (cleanGame.prng i)) :=
  ⟨fun _ => Or.inl rfl, cleanGame_clock, cleanGame_keys, by decide,
    play_memory_echo_fidelity cleanGame (fun _ => Or.inl rfl) cleanGame_clock cleanGame_keys⟩

theorem game_phase_eq (fuel : Nat) (w : World) :
    game_phase fuel w
      = match play_memory fuel (gamePrelude w) with
        | Result.outOfFuel w2 => Result.outOfFuel w2
        | Result.ret true w2 => Result.ret () (w2.emit play_winner)
        | Result.ret false w2 => Result.ret () (w2.emit play_loser) := rfl

theorem loop_eq (fuel : Nat) (w0 w : World) (h : attractMode fuel w0 = Result.ret () w) :
    loop fuel w0 = game_phase fuel w := by
  rw [loop, h]

/-- An event that does not write the unlock pin is neither a `digitalWrite`
nor an `analogWrite` on `UNLOCK_PIN`. -/
theorem not_unlock_write (e : Event) (h : isUnlockWrite e = false) (v : Bool) (a : Int) :
    e ≠ Event.digitalWrite UNLOCK_PIN v ∧ e ≠ Event.analogWrite UNLOCK_PIN a := by
  constructor <;> (rintro rfl; simp [isUnlockWrite] at h)

/-- C2 (timeout causes loss): let `attractMode` have returned in `w` and let the
clock advance and the keys be released from there on.  Then the call of
`play_memory` made by `loop()` returns, and if one of its calls of
`wait_for_button` returned `CHOICE_NONE` (at whatever slot), then it returns
false, `loop()` finishes by running `play_loser` (its events are exactly what
follows the game, so `play_winner` is not run), and no event from the start of
`play_memory` to the end of the iteration writes the unlock pin, by
`digitalWrite` or by `analogWrite`: the LED pins and the buzzer pin, which are
the pins these events write, all differ from the unlock pin.  `play_winner`
would have written it HIGH. -/
theorem timeout_causes_loss (w : World) (hc : ClockAdvances w.clock)
    (hk : KeysReleased w.keypad) :
    ∃ N b w' seg,
      (∀ fuel, N ≤ fuel → play_memory fuel (gamePrelude w) = Result.ret b w')
      ∧ w'.trace = (gamePrelude w).trace ++ seg
      ∧ (CHOICE_NONE ∈ waitResults seg →
          b = false
          ∧ (∀ fuel, N ≤ fuel → game_phase fuel w = Result.ret () (w'.emit play_loser))
          ∧ (∀ fuel w0, N ≤ fuel → attractMode fuel w0 = Result.ret () w →
              loop fuel w0 = Result.ret () (w'.emit play_loser))
          ∧ (w'.emit play_loser).trace = (gamePrelude w).trace ++ (seg ++ play_loser)
          ∧ (∀ e ∈ seg ++ play_loser, isUnlockWrite e = false)
          ∧ (∀ e ∈ seg ++ play_loser, ∀ (v : Bool) (a : Int),
              e ≠ Event.digitalWrite UNLOCK_PIN v ∧ e ≠ Event.analogWrite UNLOCK_PIN a)
          ∧ (LED_RED ≠ UNLOCK_PIN ∧ LED_GREEN ≠ UNLOCK_PIN ∧ LED_BLUE ≠ UNLOCK_PIN
              ∧ BUZZER ≠ UNLOCK_PIN)
          ∧ Event.digitalWrite UNLOCK_PIN HIGH ∈ play_winner) := by
  obtain ⟨N, b, w', rounds, hret, htr, hval, -, hq, -, -, -⟩ :=
    play_memory_run (gamePrelude w) hc hk
  refine ⟨N, b, w', _, hret, by rw [htr, List.append_assoc], ?_⟩
  intro hnone
  have hres : waitResults ([Event.println "play_memory",
      Event.millis (toULong ((gamePrelude w).clock 0)),
      Event.randomSeed (toULong ((gamePrelude w).clock 0))]
      ++ gameEvents (gamePrelude w).prng 0 rounds)
      = waitResults (gameEvents (gamePrelude w).prng 0 rounds) := by
    rw [waitResults_append]
    rfl
  rw [hres] at hnone
  have hb : b = false := by
    cases b with
    | false => rfl
    | true =>
      rw [(rounds_won _ _ _ hval).1] at hnone
      exact absurd rfl (perfectEcho_ne_none _ _ _ _ hnone)
  subst hb
  have hgp : ∀ fuel, N ≤ fuel → game_phase fuel w = Result.ret () (w'.emit play_loser) := by
    intro fuel hf
    rw [game_phase_eq, hret fuel hf]
  have hquiet : ∀ e ∈ [Event.println "play_memory",
      Event.millis (toULong ((gamePrelude w).clock 0)),
      Event.randomSeed (toULong ((gamePrelude w).clock 0))]
      ++ gameEvents (gamePrelude w).prng 0 rounds ++ play_loser, isUnlockWrite e = false := by
    intro e he
    simp only [List.mem_append] at he
    rcases he with (he | he) | he
    · simp only [List.mem_cons, List.mem_singleton, List.not_mem_nil, or_false] at he
      rcases he with he | he | he <;> subst he <;> rfl
    · exact hq e he
    · exact play_loser_quiet e he
  refine ⟨rfl, hgp, ?_, ?_, hquiet, fun e he v a => not_unlock_write e (hquiet e he) v a,
    by decide, ?_⟩
  · intro fuel w0 hf hat
    rw [loop_eq fuel w0 w hat]
    exact hgp fuel hf
  · show w'.trace ++ play_loser = _
    rw [htr]
    simp [List.append_assoc]
  · simp [play_winner]

theorem count_delay_playback (s : List Int) :
    List.count (Event.delay 150) (playback s) = s.length := by
  induction s with
  | nil => rfl
  | cons c s ih =>
    have hnot : Event.delay 150 ∉ toner (toChar c) 150 := by
      intro h
      have := toner_isWaitEvent _ _ _ h
      simp [isWaitEvent] at this
    rw [playback_cons, List.count_append, List.count_append, ih,
      List.count_eq_zero_of_not_mem hnot]
    simp
    omega

theorem rounds_length (P : Nat → Int) (rounds : List (List Event × Bool)) (b : Bool)
    (h : RoundsValid P 0 rounds b) : 1 ≤ rounds.length ∧ rounds.length ≤ ROUNDS_TO_WIN := by
  cases rounds with
  | nil => exact absurd h.2 (by simp [ROUNDS_TO_WIN])
  | cons r rest =>
    refine ⟨by simp, ?_⟩
    cases b with
    | true => have := (rounds_won P 0 _ h).2; omega
    | false => have := (rounds_lost P 0 _ h).2.2.1; omega

/-- C5 (sequence monotonic growth): a game played in a world whose clock
advances and whose keys are released returns after `m` rounds, `1 <= m <= 7`,
and its events are the prologue followed by the rounds `k = 1..m`, round `k`
being: the draw, the playback of the first `k` elements of the sequence drawn,
the echo phase and, after a matched echo, the pause.  The sequence of round `k`
has exactly `k` elements, so does its playback (one tone and one gap per
element, in order), and the sequence of round `k + 1` is that of round `k`
followed by the new element.  `playMoves` plays the first `gameRound` cells;
`add_to_moves` increments `gameRound` and changes no other cell; in a game
that has made `k < 7` draws, `add_to_moves` sets `gameRound` to `k + 1` and
`playMoves` then plays the first `k + 1` elements of the sequence. -/
theorem sequence_monotonic_growth (w : World) (hc : ClockAdvances w.clock)
    (hk : KeysReleased w.keypad) :
    ∃ N b w' rounds, (∀ fuel, N ≤ fuel → play_memory fuel w = Result.ret b w')
      ∧ w'.trace = w.trace ++ [Event.println "play_memory",
          Event.millis (toULong (w.clock 0)), Event.randomSeed (toULong (w.clock 0))]
          ++ gameEvents w.prng 0 rounds
      ∧ RoundsValid w.prng 0 rounds b
      ∧ 1 ≤ rounds.length ∧ rounds.length ≤ ROUNDS_TO_WIN ∧ w'.gameRound = rounds.length
      ∧ (∀ k, (sequenceOf w.prng k).length = k)
      ∧ (∀ k, sequenceOf w.prng (k + 1) = sequenceOf w.prng k ++ [storedChoice (w.prng k)])
      ∧ (∀ k, List.count (Event.delay 150) (playback (sequenceOf w.prng k)) = k)
      ∧ (∀ s : List Int, playback s
          = s.flatMap (fun c => toner (toChar c) 150 ++ [Event.delay 150]))
      ∧ (∀ v : World, v.gameRound < 256 →
          playMoves v = v.emit (playback (boardSlice v 0 v.gameRound)))
      ∧ (∀ v : World, (add_to_moves v).gameRound = (v.gameRound + 1) % 256
          ∧ ∀ i, i ≠ v.gameRound → (add_to_moves v).gameBoard i = v.gameBoard i)
      ∧ (∀ (k : Nat) (v : World), GameInv w.prng k v → k < ROUNDS_TO_WIN →
          (add_to_moves v).gameRound = k + 1
          ∧ playMoves (add_to_moves v)
              = (add_to_moves v).emit (playback (sequenceOf w.prng (k + 1)))
          ∧ GameInv w.prng (k + 1) (playMoves (add_to_moves v))) := by
  obtain ⟨N, b, w', rounds, hret, htr, hval, hinv, -, -, -, -⟩ := play_memory_run w hc hk
  refine ⟨N, b, w', rounds, hret, htr, hval, (rounds_length _ _ _ hval).1,
    (rounds_length _ _ _ hval).2, hinv.gameRound, sequenceOf_length _, sequenceOf_succ _,
    ?_, fun _ => rfl, ?_, ?_, ?_⟩
  · intro k
    rw [count_delay_playback, sequenceOf_length]
  · intro v hv
    rw [playMoves, playMoves_loop_eq v hv _ 0 (by omega), Nat.sub_zero]
  · intro v
    refine ⟨rfl, fun i hi => ?_⟩
    show Function.update v.gameBoard v.gameRound _ i = _
    exact Function.update_noteq hi _ _
  · intro k v hv hk7
    have hk255 : k < 255 := by simp only [ROUNDS_TO_WIN] at hk7; omega
    obtain ⟨hinv1, -⟩ := add_to_moves_inv hv hk255
    have hpm := playMoves_eq hinv1 (by omega)
    exact ⟨hinv1.gameRound, hpm, by rw [hpm]; exact hinv1.after_emit _⟩

/-- Witness for C5: the game `cleanGame`. -/
theorem sequence_monotonic_growth_witness :
    ClockAdvances cleanGame.clock ∧ KeysReleased cleanGame.keypad
    ∧ ∃ N b w' rounds,
      (∀ fuel, N ≤ fuel → play_memory fuel cleanGame = Result.ret b w')
      ∧ w'.trace = cleanGame.trace ++ [Event.println "play_memory",
          Event.millis (toULong (cleanGame.clock 0)),
          Event.randomSeed (toULong (cleanGame.clock 0))]
          ++ gameEvents cleanGame.prng 0 rounds
      ∧ RoundsValid cleanGame.prng 0 rounds b
      ∧ 1 ≤ rounds.length ∧ rounds.length ≤ ROUNDS_TO_WIN := by
  obtain ⟨N, b, w', rounds, h1, h2, h3, h4, h5, -⟩ :=
    sequence_monotonic_growth cleanGame cleanGame_clock cleanGame_keys
  exact ⟨cleanGame_clock, cleanGame_keys, N, b, w', rounds, h1, h2, h3, h4, h5⟩

theorem unlockAfter_append (level : Bool) (a b : List Event) :
    unlockAfter level (a ++ b) = unlockAfter (unlockAfter level a) b := by
  induction a generalizing level with
  | nil => rfl
  | cons e a ih =>
    cases e with
    | digitalWrite pin v =>
      simp only [List.cons_append, unlockAfter]
      split_ifs <;> exact ih _
    | analogWrite pin v =>
      simp only [List.cons_append, unlockAfter]
      split_ifs <;> exact ih _
    | _ =>
      simp only [List.cons_append, unlockAfter]
      exact ih _

theorem unlockAfter_quiet (level : Bool) (a : List Event) (h : Quiet a) :
    unlockAfter level a = level := by
  induction a with
  | nil => rfl
  | cons e a ih =>
    have he := h e (List.mem_cons_self _ _)
    have ih1 := ih (fun x hx => h x (List.mem_cons_of_mem _ hx))
    cases e <;> simp_all [unlockAfter, isUnlockWrite]

theorem unlockAfter_write (level v : Bool) (es : List Event) :
    unlockAfter level (Event.digitalWrite UNLOCK_PIN v :: es) = unlockAfter v es := by
  simp [unlockAfter]

theorem unlockAfter_play_winner (level : Bool) : unlockAfter level play_winner = LOW := by
  rw [play_winner_shape, unlockAfter_write, unlockAfter_append,
    unlockAfter_quiet _ _ winnerBody_quiet]
  simp [unlockAfter, LOW]

theorem manualUnlock_shape :
    manualUnlock = Event.digitalWrite UNLOCK_PIN HIGH
      :: (setColor 0 255 0 ++ [Event.delay 7000, Event.digitalWrite UNLOCK_PIN LOW]
          ++ setColor 0 0 0) := by
  simp [manualUnlock]

theorem unlockAfter_manualUnlock (level : Bool) : unlockAfter level manualUnlock = LOW := by
  rw [manualUnlock_shape, unlockAfter_write, unlockAfter_append, unlockAfter_append,
    unlockAfter_quiet _ _ (setColor_quiet _ _ _), unlockAfter_quiet _ _ (setColor_quiet _ _ _)]
  simp [unlockAfter, LOW]

theorem unlockAfter_setup (level : Bool) : unlockAfter level setup = LOW := by
  simp [setup, unlockAfter, UNLOCK_PIN, LED_RED, LED_GREEN, LED_BLUE, BUZZER, UNLOCK_BUTTON]

theorem UnlockBlocks.blocks_append {a b : List Event} (ha : UnlockBlocks a) (hb : UnlockBlocks b) :
    UnlockBlocks (a ++ b) := by
  induction hb with
  | nil => simpa using ha
  | quiet es e _ he ih => rw [← List.append_assoc]; exact UnlockBlocks.quiet _ _ ih he
  | win es _ ih => rw [← List.append_assoc]; exact UnlockBlocks.win _ ih
  | manual es _ ih => rw [← List.append_assoc]; exact UnlockBlocks.manual _ ih

theorem UnlockBlocks.of_quiet (seg : List Event) (h : Quiet seg) : UnlockBlocks seg := by
  induction seg using List.reverseRecOn with
  | nil => exact UnlockBlocks.nil
  | append_singleton es e ih =>
    exact UnlockBlocks.quiet es e (ih (fun x hx => h x (List.mem_append_left _ hx)))
      (h e (by simp))

theorem UnlockBlocks.level_low {es : List Event} (h : UnlockBlocks es) :
    unlockAfter LOW es = LOW := by
  induction h with
  | nil => rfl
  | quiet es e _ he ih =>
    rw [unlockAfter_append, ih]
    exact unlockAfter_quiet _ _ (fun x hx => by simp at hx; subst hx; exact he)
  | win es _ ih => rw [unlockAfter_append, unlockAfter_play_winner]
  | manual es _ ih => rw [unlockAfter_append, unlockAfter_manualUnlock]

/-- If the pin is HIGH after the events `a`, none of which is an `analogWrite`
on it, then it was HIGH before them or one of them wrote it HIGH. -/
theorem unlockAfter_high (level : Bool) (a : List Event)
    (hna : ∀ v, Event.analogWrite UNLOCK_PIN v ∉ a) (h : unlockAfter level a = HIGH) :
    level = HIGH ∨ Event.digitalWrite UNLOCK_PIN HIGH ∈ a := by
  induction a generalizing level with
  | nil => exact Or.inl h
  | cons e a ih =>
    have hna1 : ∀ v, Event.analogWrite UNLOCK_PIN v ∉ a :=
      fun v hv => hna v (List.mem_cons_of_mem _ hv)
    cases e with
    | digitalWrite pin v =>
      simp only [unlockAfter] at h
      split_ifs at h with hp
      · rcases ih v hna1 h with hv | hv
        · subst hp; subst hv
          exact Or.inr (List.mem_cons_self _ _)
        · exact Or.inr (List.mem_cons_of_mem _ hv)
      · rcases ih level hna1 h with hv | hv
        · exact Or.inl hv
        · exact Or.inr (List.mem_cons_of_mem _ hv)
    | analogWrite pin v =>
      simp only [unlockAfter] at h
      split_ifs at h with hp
      · subst hp
        exact absurd (List.mem_cons_self _ _) (hna v)
      · rcases ih level hna1 h with hv | hv
        · exact Or.inl hv
        · exact Or.inr (List.mem_cons_of_mem _ hv)
    | _ =>
      simp only [unlockAfter] at h
      rcases ih level hna1 h with hv | hv
      · exact Or.inl hv
      · exact Or.inr (List.mem_cons_of_mem _ hv)

/-- If the pin is LOW after the events `a`, none of which is an `analogWrite`
on it, then it was LOW before them or one of them wrote it LOW. -/
theorem unlockAfter_low (level : Bool) (a : List Event)
    (hna : ∀ v, Event.analogWrite UNLOCK_PIN v ∉ a) (h : unlockAfter level a = LOW) :
    level = LOW ∨ Event.digitalWrite UNLOCK_PIN LOW ∈ a := by
  induction a generalizing level with
  | nil => exact Or.inl h
  | cons e a ih =>
    have hna1 : ∀ v, Event.analogWrite UNLOCK_PIN v ∉ a :=
      fun v hv => hna v (List.mem_cons_of_mem _ hv)
    cases e with
    | digitalWrite pin v =>
      simp only [unlockAfter] at h
      split_ifs at h with hp
      · rcases ih v hna1 h with hv | hv
        · subst hp; subst hv
          exact Or.inr (List.mem_cons_self _ _)
        · exact Or.inr (List.mem_cons_of_mem _ hv)
      · rcases ih level hna1 h with hv | hv
        · exact Or.inl hv
        · exact Or.inr (List.mem_cons_of_mem _ hv)
    | analogWrite pin v =>
      simp only [unlockAfter] at h
      split_ifs at h with hp
      · subst hp
        exact absurd (List.mem_cons_self _ _) (hna v)
      · rcases ih level hna1 h with hv | hv
        · exact Or.inl hv
        · exact Or.inr (List.mem_cons_of_mem _ hv)
    | _ =>
      simp only [unlockAfter] at h
      rcases ih level hna1 h with hv | hv
      · exact Or.inl hv
      · exact Or.inr (List.mem_cons_of_mem _ hv)

/-- Neither `play_winner` nor `manualUnlock` makes an `analogWrite` on the
unlock pin: their LED writes go to the three LED pins. -/
theorem unlock_blocks_no_analog (blk : List Event)
    (hblk : blk = play_winner ∨ blk = manualUnlock) :
    ∀ v, Event.analogWrite UNLOCK_PIN v ∉ blk := by
  intro v hv
  have hq : ∀ seg : List Event, Quiet seg → Event.analogWrite UNLOCK_PIN v ∉ seg := by
    intro seg hs hmem
    have := hs _ hmem
    simp [isUnlockWrite] at this
  have hd : ∀ (ms : Int) (lv : Bool),
      Event.analogWrite UNLOCK_PIN v ∉ [Event.delay ms, Event.digitalWrite UNLOCK_PIN lv] := by
    intro ms lv hmem
    simp at hmem
  rcases hblk with h | h <;> subst h
  · rw [play_winner_shape] at hv
    rcases List.mem_cons.mp hv with hv | hv
    · cases hv
    · rcases List.mem_append.mp hv with hv | hv
      · exact hq _ winnerBody_quiet hv
      · exact hd _ _ hv
  · rw [manualUnlock_shape] at hv
    rcases List.mem_cons.mp hv with hv | hv
    · cases hv
    · rcases List.mem_append.mp hv with hv | hv
      · rcases List.mem_append.mp hv with hv | hv
        · exact hq _ (setColor_quiet _ _ _) hv
        · exact hd _ _ hv
      · exact hq _ (setColor_quiet _ _ _) hv

theorem inside_of_split (es blk pre post : List Event) (hes : UnlockBlocks es)
    (hblk : blk = play_winner ∨ blk = manualUnlock) (a : List Event)
    (hpre : pre = es ++ a) (hsplit : blk = a ++ post)
    (hhigh : unlockAfter LOW pre = HIGH) : InsideUnlockBlock pre post := by
  have hlow : unlockAfter LOW blk = LOW := by
    rcases hblk with h | h <;> subst h
    · exact unlockAfter_play_winner _
    · exact unlockAfter_manualUnlock _
  have hna := unlock_blocks_no_analog blk hblk
  rw [hsplit] at hna
  rw [hpre, unlockAfter_append, hes.level_low] at hhigh
  have h1 : Event.digitalWrite UNLOCK_PIN HIGH ∈ a := by
    rcases unlockAfter_high _ _ (fun v hv => hna v (List.mem_append_left _ hv)) hhigh
      with h | h
    · exact absurd h (by simp [LOW, HIGH])
    · exact h
  have h2 : Event.digitalWrite UNLOCK_PIN LOW ∈ post := by
    rw [hsplit, unlockAfter_append, hhigh] at hlow
    rcases unlockAfter_low _ _ (fun v hv => hna v (List.mem_append_right _ hv)) hlow
      with h | h
    · exact absurd h (by simp [LOW, HIGH])
    · exact h
  exact ⟨es, a, post, [], hpre, by simp, by rw [← hsplit]; exact hblk, h1, h2⟩

theorem InsideUnlockBlock.extend {pre post : List Event} (h : InsideUnlockBlock pre post)
    (more : List Event) : InsideUnlockBlock pre (post ++ more) := by
  obtain ⟨pre0, done, todo, post0, h1, h2, h3, h4, h5⟩ := h
  exact ⟨pre0, done, todo, post0 ++ more, h1, by rw [h2, List.append_assoc], h3, h4, h5⟩

/-- In a list made of blocks, the unlock pin is HIGH only inside a block. -/
theorem UnlockBlocks.high_inside {tr : List Event} (h : UnlockBlocks tr) :
    ∀ pre post, tr = pre ++ post → unlockAfter LOW pre = HIGH → InsideUnlockBlock pre post := by
  induction h with
  | nil =>
    intro pre post hsplit hhigh
    have : pre = [] := (List.append_eq_nil.mp hsplit.symm).1
    subst this
    exact absurd hhigh (by simp [unlockAfter, LOW, HIGH])
  | quiet es e hes he ih =>
    intro pre post hsplit hhigh
    rcases List.append_eq_append_iff.mp hsplit with ⟨a, hpre, hblk⟩ | ⟨c, hes', hpost⟩
    · -- `pre` reaches into the single quiet event
      exfalso
      rw [hpre, unlockAfter_append, hes.level_low] at hhigh
      have hq : Quiet a := by
        intro x hx
        have : x ∈ [e] := by rw [hblk]; exact List.mem_append_left _ hx
        simp at this
        subst this
        exact he
      rw [unlockAfter_quiet _ _ hq] at hhigh
      exact absurd hhigh (by simp [LOW, HIGH])
    · rw [hpost]
      exact (ih pre c hes' hhigh).extend _
  | win es hes ih =>
    intro pre post hsplit hhigh
    rcases List.append_eq_append_iff.mp hsplit with ⟨a, hpre, hblk⟩ | ⟨c, hes', hpost⟩
    · exact inside_of_split es play_winner pre post hes (Or.inl rfl) a hpre hblk hhigh
    · rw [hpost]
      exact (ih pre c hes' hhigh).extend _
  | manual es hes ih =>
    intro pre post hsplit hhigh
    rcases List.append_eq_append_iff.mp hsplit with ⟨a, hpre, hblk⟩ | ⟨c, hes', hpost⟩
    · exact inside_of_split es manualUnlock pre post hes (Or.inr rfl) a hpre hblk hhigh
    · rw [hpost]
      exact (ih pre c hes' hhigh).extend _

theorem Quiet.quiet_append {a b : List Event} (ha : Quiet a) (hb : Quiet b) : Quiet (a ++ b) := by
  intro e he
  rcases List.mem_append.mp he with he | he
  · exact ha e he
  · exact hb e he

theorem toner_quiet (c d : Int) : Quiet (toner c d) :=
  fun e he => isWaitEvent_quiet e (toner_isWaitEvent c d e he)

theorem wait_for_button_quiet (fuel : Nat) (w : World) :
    ∃ seg, (wait_for_button fuel w).world.trace = w.trace ++ seg ∧ Quiet seg := by
  obtain ⟨body, hp, hb⟩ := wait_for_button_polls fuel w
  refine ⟨_, hp.trace, ?_⟩
  apply Quiet.quiet_append (fun e he => isWaitEvent_quiet e (hb e he))
  intro e he
  cases hr : wait_for_button fuel w with
  | outOfFuel w1 => rw [hr] at he; simp [returnMark] at he
  | ret c w1 =>
    rw [hr] at he
    simp only [returnMark, List.mem_singleton] at he
    subst he; rfl

theorem play_memory_quiet (fuel : Nat) (w : World) :
    ∃ seg, (play_memory fuel w).world.trace = w.trace ++ seg ∧ Quiet seg := by
  obtain ⟨seg, htr, hq⟩ := play_loop_quiet fuel fuel (gameStart w)
  refine ⟨[Event.println "play_memory", Event.millis (toULong (w.clock 0)),
    Event.randomSeed (toULong (w.clock 0))] ++ seg, ?_, ?_⟩
  · rw [play_memory_eq_play_loop, htr]
    show (w.trace ++ _) ++ seg = _
    rw [List.append_assoc]
  · apply Quiet.quiet_append _ hq
    intro e he
    simp only [List.mem_cons, List.mem_singleton, List.not_mem_nil, or_false] at he
    rcases he with he | he | he <;> subst he <;> rfl

theorem attract_loop_key (fuel : Nat) (w : World)
    (hk : (w.getKey.2.emit [Event.delay 10]).getKey.1 ≠ CHOICE_NONE) :
    attract_loop (fuel + 1) w = Result.ret () (w.getKey.2.emit [Event.delay 10]).getKey.2 := by
  simp [attract_loop, hk]

theorem attract_loop_no_key (fuel : Nat) (w : World)
    (hk : (w.getKey.2.emit [Event.delay 10]).getKey.1 = CHOICE_NONE) :
    attract_loop (fuel + 1) w
      = attract_loop fuel
          ((if (w.getKey.2.emit [Event.delay 10]).getKey.2.digitalRead.1 = LOW
            then (w.getKey.2.emit [Event.delay 10]).getKey.2.digitalRead.2.emit manualUnlock
            else (w.getKey.2.emit [Event.delay 10]).getKey.2.digitalRead.2).emit
            [Event.idle]) := by
  simp [attract_loop, hk]

/-- Whatever the fuel, the attract loop writes the unlock pin only through
whole runs of `manualUnlock`. -/
theorem attract_loop_blocks (fuel : Nat) (w : World) :
    ∃ seg, (attract_loop fuel w).world.trace = w.trace ++ seg ∧ UnlockBlocks seg := by
  induction fuel generalizing w with
  | zero => exact ⟨[], by simp [attract_loop, Result.world], UnlockBlocks.nil⟩
  | succ fuel ih =>
    have hq3 : Quiet [Event.getKey (w.keypad 0), Event.delay 10,
        Event.getKey (w.keypad 1)] := by
      intro e he
      simp only [List.mem_cons, List.mem_singleton, List.not_mem_nil, or_false] at he
      rcases he with he | he | he <;> subst he <;> rfl
    by_cases hk : (w.getKey.2.emit [Event.delay 10]).getKey.1 = CHOICE_NONE
    · rw [attract_loop_no_key _ _ hk]
      obtain ⟨seg, htr, hb⟩ := ih
        ((if (w.getKey.2.emit [Event.delay 10]).getKey.2.digitalRead.1 = LOW
          then (w.getKey.2.emit [Event.delay 10]).getKey.2.digitalRead.2.emit manualUnlock
          else (w.getKey.2.emit [Event.delay 10]).getKey.2.digitalRead.2).emit [Event.idle])
      have hq4 : Quiet [Event.getKey (w.keypad 0), Event.delay 10,
          Event.getKey (w.keypad 1), Event.digitalRead UNLOCK_BUTTON (w.unlockButton 0)] := by
        intro e he
        simp only [List.mem_cons, List.mem_singleton, List.not_mem_nil, or_false] at he
        rcases he with he | he | he | he <;> subst he <;> rfl
      have hidle : UnlockBlocks [Event.idle] :=
        UnlockBlocks.of_quiet _ (fun e he => by simp at he; subst he; rfl)
      by_cases hbtn : (w.getKey.2.emit [Event.delay 10]).getKey.2.digitalRead.1 = LOW
      · rw [if_pos hbtn] at htr ⊢
        refine ⟨[Event.getKey (w.keypad 0), Event.delay 10, Event.getKey (w.keypad 1),
          Event.digitalRead UNLOCK_BUTTON (w.unlockButton 0)] ++ manualUnlock
          ++ [Event.idle] ++ seg, ?_, ?_⟩
        · rw [htr]
          simp [World.emit, World.getKey, World.digitalRead, List.append_assoc]
        · exact (((UnlockBlocks.of_quiet _ hq4).blocks_append
            (by simpa using UnlockBlocks.manual [] UnlockBlocks.nil)).blocks_append hidle).blocks_append hb
      · rw [if_neg hbtn] at htr ⊢
        refine ⟨[Event.getKey (w.keypad 0), Event.delay 10, Event.getKey (w.keypad 1),
          Event.digitalRead UNLOCK_BUTTON (w.unlockButton 0)] ++ [Event.idle] ++ seg, ?_, ?_⟩
        · rw [htr]
          simp [World.emit, World.getKey, World.digitalRead, List.append_assoc]
        · exact ((UnlockBlocks.of_quiet _ hq4).blocks_append hidle).blocks_append hb
    · rw [attract_loop_key _ _ hk]
      refine ⟨[Event.getKey (w.keypad 0), Event.delay 10, Event.getKey (w.keypad 1)], ?_,
        UnlockBlocks.of_quiet _ hq3⟩
      simp [Result.world, World.emit, World.getKey, List.append_assoc]

theorem attractMode_blocks (fuel : Nat) (w : World) :
    ∃ seg, (attractMode fuel w).world.trace = w.trace ++ seg ∧ UnlockBlocks seg := by
  obtain ⟨seg, htr, hb⟩ := attract_loop_blocks fuel
    ((w.emit [Event.println "attractMode"]).emit (setColor 0 0 0))
  refine ⟨[Event.println "attractMode"] ++ setColor 0 0 0 ++ seg, ?_, ?_⟩
  · rw [attractMode, htr]
    simp [World.emit, List.append_assoc]
  · refine (UnlockBlocks.of_quiet _ (Quiet.quiet_append ?_ (setColor_quiet _ _ _))).blocks_append hb
    intro e he
    simp at he
    subst he; rfl

theorem game_phase_blocks (fuel : Nat) (w : World) :
    ∃ seg, (game_phase fuel w).world.trace = w.trace ++ seg ∧ UnlockBlocks seg := by
  obtain ⟨seg, htr, hq⟩ := play_memory_quiet fuel (gamePrelude w)
  have hpre : (gamePrelude w).trace
      = w.trace ++ ([Event.println "Game mode"] ++ setColor 0 0 0 ++ [Event.delay 200]) := by
    simp [gamePrelude, World.emit, List.append_assoc]
  have hqpre : Quiet ([Event.println "Game mode"] ++ setColor 0 0 0 ++ [Event.delay 200]) := by
    refine Quiet.quiet_append (Quiet.quiet_append ?_ (setColor_quiet _ _ _)) ?_
    · intro e he; simp at he; subst he; rfl
    · intro e he; simp at he; subst he; rfl
  have hb : UnlockBlocks
      ([Event.println "Game mode"] ++ setColor 0 0 0 ++ [Event.delay 200] ++ seg) :=
    UnlockBlocks.of_quiet _ (hqpre.quiet_append hq)
  rw [game_phase_eq]
  cases hr : play_memory fuel (gamePrelude w) with
  | outOfFuel w2 =>
    rw [hr] at htr
    simp only [Result.world] at htr ⊢
    exact ⟨_, by rw [htr, hpre, List.append_assoc], hb⟩
  | ret b w2 =>
    rw [hr] at htr
    simp only [Result.world] at htr
    cases b with
    | true =>
      refine ⟨[Event.println "Game mode"] ++ setColor 0 0 0 ++ [Event.delay 200] ++ seg
        ++ play_winner, ?_, UnlockBlocks.win _ hb⟩
      show w2.trace ++ play_winner = _
      rw [htr, hpre]
      simp [List.append_assoc]
    | false =>
      refine ⟨[Event.println "Game mode"] ++ setColor 0 0 0 ++ [Event.delay 200] ++ seg
        ++ play_loser, ?_, hb.blocks_append (UnlockBlocks.of_quiet _ play_loser_quiet)⟩
      show w2.trace ++ play_loser = _
      rw [htr, hpre]
      simp [List.append_assoc]

theorem loop_blocks (fuel : Nat) (w : World) :
    ∃ seg, (loop fuel w).world.trace = w.trace ++ seg ∧ UnlockBlocks seg := by
  obtain ⟨seg, htr, hb⟩ := attractMode_blocks fuel w
  rw [loop]
  cases hr : attractMode fuel w with
  | outOfFuel w1 =>
    rw [hr] at htr
    exact ⟨seg, htr, hb⟩
  | ret u w1 =>
    rw [hr] at htr
    simp only [Result.world] at htr
    obtain ⟨seg2, htr2, hb2⟩ := game_phase_blocks fuel w1
    exact ⟨seg ++ seg2, by simp only; rw [htr2, htr, List.append_assoc], hb.blocks_append hb2⟩

theorem run_blocks (fuel n : Nat) (w : World) :
    ∃ rest, (run fuel n w).world.trace = w.trace ++ setup ++ rest ∧ UnlockBlocks rest := by
  induction n with
  | zero => exact ⟨[], by simp [run, Result.world, World.emit], UnlockBlocks.nil⟩
  | succ n ih =>
    obtain ⟨rest, htr, hb⟩ := ih
    rw [run]
    cases hr : run fuel n w with
    | outOfFuel w1 =>
      rw [hr] at htr
      exact ⟨rest, htr, hb⟩
    | ret u w1 =>
      rw [hr] at htr
      simp only [Result.world] at htr
      obtain ⟨seg, htr2, hb2⟩ := loop_blocks fuel w1
      exact ⟨rest ++ seg, by simp only; rw [htr2, htr, List.append_assoc], hb.blocks_append hb2⟩

/-- C3 (unlock-line invariant).  A write of the unlock pin is a `digitalWrite`
or an `analogWrite` on `UNLOCK_PIN`, and the pin's level follows both; the LED
pins and the buzzer pin differ from the unlock pin.  Whatever the level `init`
of the unlock pin at
power-on: the pin is LOW after `setup`, after `play_winner` and after
`manualUnlock`; these two routines write it HIGH first and LOW later, with
nothing but events that leave it alone in between; `setColor`, `buzz_sound`,
`toner`, `winner_sound`, `play_loser`, `add_to_moves`, `playMoves`,
`wait_for_button` and `play_memory` never write it; and for every run of
`setup()` followed by up to `n` iterations of `loop()`, with whatever fuel
(so also for runs cut short), the events after `setup` are made of events that
do not write the pin and of whole runs of `play_winner` and `manualUnlock`, the
pin is LOW at the end, and at every point of the run at which it is HIGH the
run is inside one of these two routines, after its HIGH write and before its
LOW write. -/
theorem unlock_line_invariant (fuel n : Nat) (w : World) (init : Bool) :
    ((∀ (pin : Nat) (v : Bool), isUnlockWrite (Event.digitalWrite pin v) = true ↔ pin = UNLOCK_PIN)
      ∧ (∀ (pin : Nat) (a : Int),
          isUnlockWrite (Event.analogWrite pin a) = true ↔ pin = UNLOCK_PIN)
      ∧ (∀ (lv v : Bool) (es : List Event),
          unlockAfter lv (Event.digitalWrite UNLOCK_PIN v :: es) = unlockAfter v es)
      ∧ (∀ (lv : Bool) (a : Int) (es : List Event),
          unlockAfter lv (Event.analogWrite UNLOCK_PIN a :: es)
            = unlockAfter (decide (a ≠ 0)) es)
      ∧ LED_RED ≠ UNLOCK_PIN ∧ LED_GREEN ≠ UNLOCK_PIN ∧ LED_BLUE ≠ UNLOCK_PIN
      ∧ BUZZER ≠ UNLOCK_PIN)
    ∧ (unlockAfter init setup = LOW ∧ unlockAfter init play_winner = LOW
      ∧ unlockAfter init manualUnlock = LOW)
    ∧ (play_winner = [Event.digitalWrite UNLOCK_PIN HIGH]
          ++ (winnerBody ++ [Event.delay 15000]) ++ [Event.digitalWrite UNLOCK_PIN LOW]
        ∧ Quiet (winnerBody ++ [Event.delay 15000]))
    ∧ (manualUnlock = [Event.digitalWrite UNLOCK_PIN HIGH]
          ++ (setColor 0 255 0 ++ [Event.delay 7000]) ++ [Event.digitalWrite UNLOCK_PIN LOW]
          ++ setColor 0 0 0
        ∧ Quiet (setColor 0 255 0 ++ [Event.delay 7000]) ∧ Quiet (setColor 0 0 0))
    ∧ ((∀ r g b, Quiet (setColor r g b)) ∧ (∀ d h, Quiet (buzz_sound d h))
        ∧ (∀ c d, Quiet (toner c d)) ∧ Quiet winner_sound ∧ Quiet play_loser
        ∧ (∀ v, ∃ seg, (add_to_moves v).trace = v.trace ++ seg ∧ Quiet seg)
        ∧ (∀ v, ∃ seg, (playMoves v).trace = v.trace ++ seg ∧ Quiet seg)
        ∧ (∀ f v, ∃ seg, (wait_for_button f v).world.trace = v.trace ++ seg ∧ Quiet seg)
        ∧ (∀ f v, ∃ seg, (play_memory f v).world.trace = v.trace ++ seg ∧ Quiet seg))
    ∧ ∃ rest, (run fuel n w).world.trace = w.trace ++ setup ++ rest
        ∧ UnlockBlocks rest
        ∧ unlockAfter init (setup ++ rest) = LOW
        ∧ ∀ pre post, rest = pre ++ post → unlockAfter init (setup ++ pre) = HIGH →
            InsideUnlockBlock pre post := by
  have hdelay : ∀ ms : Int, Quiet [Event.delay ms] := by
    intro ms e he
    simp at he
    subst he; rfl
  refine ⟨⟨fun pin v => by simp [isUnlockWrite], fun pin a => by simp [isUnlockWrite],
      fun lv v es => unlockAfter_write lv v es, fun lv a es => by simp [unlockAfter],
      by decide, by decide, by decide, by decide⟩,
    ⟨unlockAfter_setup _, unlockAfter_play_winner _, unlockAfter_manualUnlock _⟩,
    ⟨?_, Quiet.quiet_append winnerBody_quiet (hdelay _)⟩,
    ⟨?_, Quiet.quiet_append (setColor_quiet _ _ _) (hdelay _), setColor_quiet _ _ _⟩,
    ⟨setColor_quiet, buzz_sound_quiet, toner_quiet, winner_outer_quiet _, play_loser_quiet,
      ?_, ?_, wait_for_button_quiet, play_memory_quiet⟩, ?_⟩
  · rw [play_winner_shape]
    simp
  · simp [manualUnlock]
  · intro v
    exact ⟨[Event.random (v.prng 0)], rfl, fun e he => by simp at he; subst he; rfl⟩
  · intro v
    exact ⟨playMoves_loop v v.gameRound 0, rfl, playMoves_loop_quiet _ _ _⟩
  · obtain ⟨rest, htr, hb⟩ := run_blocks fuel n w
    refine ⟨rest, htr, hb, ?_, ?_⟩
    · rw [unlockAfter_append, unlockAfter_setup]
      exact hb.level_low
    · intro pre post hsplit hhigh
      rw [unlockAfter_append, unlockAfter_setup] at hhigh
      exact hb.high_inside pre post hsplit hhigh

theorem winner_inner_three (x : Nat) :
    winner_inner x 3 = (List.replicate 3 x).flatMap winnerCycle := by
  simp [winner_inner, winnerCycle, List.replicate, List.flatMap_cons]

theorem winner_outer_periods (n : Nat) :
    winner_outer (70 + n)
      = ((List.range n).flatMap (fun i => List.replicate 3 (70 + n - i))).flatMap
          winnerCycle := by
  induction n with
  | zero => simp [winner_outer]
  | succ n ih =>
    have h1 : 70 + (n + 1) = (70 + n) + 1 := by omega
    rw [h1, winner_outer, if_pos (by omega), ih, winner_inner_three,
      List.range_succ_eq_map, List.flatMap_cons, List.flatMap_append, List.flatMap_map]
    congr 2
    apply List.flatMap_congr
    intro i _
    show List.replicate 3 (70 + n - i) = List.replicate 3 (70 + n + 1 - (i + 1))
    congr 1
    omega

theorem sweep_succ (n : Nat) :
    (List.range (n + 1)).flatMap (fun i => List.replicate 3 (70 + (n + 1) - i))
      = List.replicate 3 (70 + n + 1)
        ++ (List.range n).flatMap (fun i => List.replicate 3 (70 + n - i)) := by
  rw [List.range_succ_eq_map, List.flatMap_cons, List.flatMap_map]
  congr 1
  apply List.flatMap_congr
  intro i _
  show List.replicate 3 (70 + (n + 1) - (i + 1)) = List.replicate 3 (70 + n - i)
  congr 1
  omega

theorem sweep_sorted (n : Nat) :
    ((List.range n).flatMap (fun i => List.replicate 3 (70 + n - i))).Sorted (· ≥ ·)
      ∧ ∀ x ∈ (List.range n).flatMap (fun i => List.replicate 3 (70 + n - i)),
          70 < x ∧ x ≤ 70 + n := by
  induction n with
  | zero => simp
  | succ n ih =>
    rw [sweep_succ]
    refine ⟨?_, ?_⟩
    · rw [List.Sorted, List.pairwise_append]
      refine ⟨by simp [List.replicate], ih.1, ?_⟩
      intro a ha b hb
      have := (ih.2 b hb).2
      have ha' : a = 70 + n + 1 := List.eq_of_mem_replicate ha
      omega
    · intro x hx
      rcases List.mem_append.mp hx with hx | hx
      · have hx' : x = 70 + n + 1 := List.eq_of_mem_replicate hx
        omega
      · have := ih.2 x hx
        omega

theorem winnerHalfPeriods_eq :
    winnerHalfPeriods = (List.range 180).flatMap (fun i => List.replicate 3 (70 + 180 - i)) :=
  rfl

theorem winner_sound_periods : winner_sound = winnerHalfPeriods.flatMap winnerCycle := by
  rw [winnerHalfPeriods_eq, ← winner_outer_periods 180]
  rfl

theorem sweep_length (f : Nat → Nat) (n : Nat) :
    ((List.range n).flatMap (fun i => List.replicate 3 (f i))).length = 3 * n := by
  induction n with
  | zero => simp
  | succ n ih =>
    rw [List.range_succ, List.flatMap_append, List.length_append, ih]
    simp
    omega

theorem winnerHalfPeriods_length : winnerHalfPeriods.length = 540 :=
  sweep_length _ 180

theorem sweep_count (n x : Nat) :
    List.count x ((List.range n).flatMap (fun i => List.replicate 3 (70 + n - i)))
      = if 70 < x ∧ x ≤ 70 + n then 3 else 0 := by
  induction n with
  | zero =>
    have : ¬ (70 < x ∧ x ≤ 70 + 0) := by omega
    simp [this]
  | succ n ih =>
    rw [sweep_succ, List.count_append, ih, List.count_replicate]
    by_cases h1 : 70 + n + 1 = x
    · subst h1
      have c1 : ¬ (70 < 70 + n + 1 ∧ 70 + n + 1 ≤ 70 + n) := by omega
      have c2 : 70 < 70 + n + 1 ∧ 70 + n + 1 ≤ 70 + (n + 1) := by omega
      simp [c1, c2]
    · by_cases h2 : 70 < x ∧ x ≤ 70 + n
      · have c2 : 70 < x ∧ x ≤ 70 + (n + 1) := by omega
        simp [h1, h2, c2]
      · have c2 : ¬ (70 < x ∧ x ≤ 70 + (n + 1)) := by omega
        simp [h1, h2, c2]

/-- C15: `winner_sound` (a total function: its loops count down from 250 and up
to 3) emits the periods whose half-periods are `winnerHalfPeriods`, i.e.
250, 249, ..., 71, each three times: 540 periods, every half-period between 71
and 250 (so the 8-bit counter never wraps and 70 is not used), each value
exactly three times, in non-increasing order, starting with 250 and ending
with 71. -/
theorem winner_sound_540_periods :
    winner_sound = winnerHalfPeriods.flatMap winnerCycle
    ∧ winnerHalfPeriods.length = 540
    ∧ winnerHalfPeriods.Sorted (· ≥ ·)
    ∧ (∀ x ∈ winnerHalfPeriods, 71 ≤ x ∧ x ≤ 250 ∧ x < 256)
    ∧ (∀ x, 71 ≤ x → x ≤ 250 → List.count x winnerHalfPeriods = 3)
    ∧ List.count 70 winnerHalfPeriods = 0
    ∧ winnerHalfPeriods.head? = some 250
    ∧ winnerHalfPeriods.getLast? = some 71 := by
  refine ⟨winner_sound_periods, winnerHalfPeriods_length, ?_, ?_, ?_, ?_, ?_, ?_⟩
  · rw [winnerHalfPeriods_eq]
    exact (sweep_sorted 180).1
  · intro x hx
    rw [winnerHalfPeriods_eq] at hx
    have := (sweep_sorted 180).2 x hx
    omega
  · intro x h1 h2
    rw [winnerHalfPeriods_eq, sweep_count, if_pos (by omega)]
  · rw [winnerHalfPeriods_eq, sweep_count, if_neg (by omega)]
  · rw [winnerHalfPeriods_eq, sweep_succ]
    rfl
  · rw [winnerHalfPeriods, List.range_succ, List.flatMap_append]
    simp

theorem buzz_sound_loser : buzz_sound 255 1500 = (List.replicate 84 (toggleCycle 1500)).flatten := by
  obtain ⟨k, hk, h1, h2, h3⟩ := buzz_sound_cycles 255 1500 (by norm_num) (by norm_num)
  have h3' := h3 (by norm_num)
  have : k = 84 := by omega
  subst this
  exact hk

theorem play_loser_isLedOrBuzzer : ∀ e ∈ play_loser, isLedOrBuzzer e = true := by
  have hs : ∀ r g b : Int, ∀ e ∈ setColor r g b, isLedOrBuzzer e = true := by
    intro r g b e he
    simp only [setColor, List.mem_cons, List.mem_singleton, List.not_mem_nil, or_false] at he
    rcases he with he | he | he <;> subst he <;> simp [isLedOrBuzzer]
  have hb : ∀ d h : Int, ∀ e ∈ buzz_sound d h, isLedOrBuzzer e = true := by
    intro d h e he
    rcases buzz_loop_events _ _ _ e he with he | he | he <;> subst he <;>
      simp [isLedOrBuzzer]
  intro e he
  simp only [play_loser, List.mem_append, List.mem_singleton] at he
  rcases he with ((((((((he | he) | he) | he) | he) | he) | he) | he) | he) | he
  all_goals first
    | exact hs _ _ _ e he
    | exact hb _ _ e he
    | (subst he; rfl)

/-- C19: `play_loser` is, in this order: LED red (255,0,0) and a tone, LED
yellow (255,255,0) and a tone, LED cyan (0,255,255) and a tone, LED magenta
(255,0,255) and a tone, LED red (255,0,0) and `delay(3000)`; each tone is
`buzz_sound(255, 1500)`, which is 84 toggle cycles of half-period 1500 (the
same number in each tone); every event of it is a write to one of the three
LED pins, a write to the buzzer pin or a delay. -/
theorem play_loser_pattern :
    play_loser
      = setColor 255 0 0 ++ buzz_sound 255 1500
        ++ (setColor 255 255 0 ++ buzz_sound 255 1500)
        ++ (setColor 0 255 255 ++ buzz_sound 255 1500)
        ++ (setColor 255 0 255 ++ buzz_sound 255 1500)
        ++ (setColor 255 0 0 ++ [Event.delay 3000])
    ∧ buzz_sound 255 1500 = (List.replicate 84 (toggleCycle 1500)).flatten
    ∧ (∀ r g b : Int, setColor r g b
        = [Event.analogWrite LED_RED r, Event.analogWrite LED_GREEN g,
           Event.analogWrite LED_BLUE b])
    ∧ (∀ e ∈ play_loser, isLedOrBuzzer e = true)
    ∧ List.count (Event.delay 3000) play_loser = 1 := by
  refine ⟨by simp [play_loser, List.append_assoc], buzz_sound_loser, fun _ _ _ => rfl,
    play_loser_isLedOrBuzzer, ?_⟩
  have hb : List.count (Event.delay 3000) (buzz_sound 255 1500) = 0 := by
    apply List.count_eq_zero_of_not_mem
    intro h
    rcases buzz_loop_events _ _ _ _ h with h | h | h <;> simp at h
  simp [play_loser, List.count_append, hb, setColor]

/-- C14, the code at a failing input and in general.  `buzz_sound(255, 1500)`
(the tone of `play_loser`) has a budget of 255000 microseconds, which is 85
periods of 3000; it emits 84 periods and exits with a remaining budget of
3000, equal to `2*h`, not below it.  In general, for `d > 0` and `h >= 1`, the
loop emits `k` periods with `k = floor((1000*d - 1) / (2*h))` and exits with
the remaining budget `r = 1000*d - k*2*h` in the range `0 < r <= 2*h`: it stops
as soon as the remaining budget is at most `2*h`. -/
theorem buzz_sound_exit_condition :
    buzz_sound 255 1500 = (List.replicate 84 (toggleCycle 1500)).flatten
    ∧ (1000 * 255 : Int) / (2 * 1500) = 85
    ∧ (1000 * 255 : Int) - 84 * (2 * 1500) = 2 * 1500
    ∧ (∀ d h : Int, 0 < d → 1 ≤ h →
        ∃ k : Nat, buzz_sound d h = (List.replicate k (toggleCycle h)).flatten
          ∧ (k : Int) = (1000 * d - 1) / (2 * h)
          ∧ 0 < 1000 * d - k * (2 * h) ∧ 1000 * d - k * (2 * h) ≤ 2 * h)
    ∧ (∀ d h : Int, d ≤ 0 → 1 ≤ h → buzz_sound d h = []) := by
  refine ⟨buzz_sound_loser, by norm_num, by norm_num, ?_, ?_⟩
  · intro d h hd hh
    obtain ⟨k, hk, h1, h2, h3⟩ := buzz_sound_cycles d h (le_of_lt hd) hh
    have h3' := h3 hd
    have hP : (0 : Int) < 2 * h := by omega
    refine ⟨k, hk, ?_, by linarith, by linarith⟩
    apply le_antisymm
    · rw [Int.le_ediv_iff_mul_le hP]
      linarith
    · have : (1000 * d - 1) / (2 * h) < (k : Int) + 1 := by
        rw [Int.ediv_lt_iff_lt_mul hP]
        linarith
      omega
  · intro d h hd hh
    have : (d * 1000).toNat = 0 := by
      rw [Int.toNat_eq_zero]
      omega
    simp [buzz_sound, this, buzz_loop]

/-- The attract loop returns only right after a keypad scan that saw a key. -/
theorem attract_loop_returns_on_key (fuel : Nat) (w w' : World)
    (h : attract_loop fuel w = Result.ret () w') :
    ∃ pre k, w'.trace = w.trace ++ pre ++ [Event.getKey k] ∧ k ≠ CHOICE_NONE := by
  induction fuel generalizing w with
  | zero => simp [attract_loop] at h
  | succ fuel ih =>
    by_cases hk : (w.getKey.2.emit [Event.delay 10]).getKey.1 = CHOICE_NONE
    · rw [attract_loop_no_key _ _ hk] at h
      obtain ⟨pre, k, htr, hne⟩ := ih _ h
      obtain ⟨seg, hseg, -⟩ := attract_loop_blocks 1 w
      rw [attract_loop_no_key _ _ hk] at hseg
      simp only [attract_loop, Result.world] at hseg
      exact ⟨seg ++ pre, k, by rw [htr, hseg]; simp [List.append_assoc], hne⟩
    · rw [attract_loop_key _ _ hk] at h
      simp only [Result.ret.injEq, true_and] at h
      subst h
      exact ⟨[Event.getKey (w.keypad 0), Event.delay 10], w.keypad 1,
        by simp [World.emit, World.getKey, List.append_assoc], hk⟩

/-- C11 (manual unlock): in an iteration of the loop of `attractMode` in which
the second keypad scan returns `CHOICE_NONE` and the unlock button reads LOW,
the iteration emits, after its two scans, the delay and the button read,
exactly the events of `manualUnlock` (unlock pin HIGH, LED (0,255,0), delay
7000, unlock pin LOW, LED (0,0,0)), then idles and goes on with the next
iteration: it does not return.  `attractMode` returns only right after a
keypad scan that returned a key, so the unlock button starts no game. -/
theorem manual_unlock_from_attract (w : World) (hkey : w.keypad 1 = CHOICE_NONE)
    (hbtn : w.unlockButton 0 = LOW) :
    ∃ w', (∀ fuel, attract_loop (fuel + 1) w = attract_loop fuel w')
      ∧ attract_loop 1 w = Result.outOfFuel w'
      ∧ w'.trace = w.trace ++ [Event.getKey (w.keypad 0), Event.delay 10,
          Event.getKey CHOICE_NONE, Event.digitalRead UNLOCK_BUTTON LOW]
          ++ manualUnlock ++ [Event.idle]
      ∧ manualUnlock = [Event.digitalWrite UNLOCK_PIN HIGH,
          Event.analogWrite LED_RED 0, Event.analogWrite LED_GREEN 255,
          Event.analogWrite LED_BLUE 0, Event.delay 7000,
          Event.digitalWrite UNLOCK_PIN LOW,
          Event.analogWrite LED_RED 0, Event.analogWrite LED_GREEN 0,
          Event.analogWrite LED_BLUE 0]
      ∧ w'.keypad = (fun n => w.keypad (n + 2))
      ∧ w'.unlockButton = (fun n => w.unlockButton (n + 1))
      ∧ w'.clock = w.clock ∧ w'.prng = w.prng
      ∧ w'.gameBoard = w.gameBoard ∧ w'.gameRound = w.gameRound
      ∧ (∀ fuel v, attractMode fuel v
          = attract_loop fuel ((v.emit [Event.println "attractMode"]).emit (setColor 0 0 0)))
      ∧ (∀ fuel v v', attract_loop fuel v = Result.ret () v' →
          ∃ pre k, v'.trace = v.trace ++ pre ++ [Event.getKey k] ∧ k ≠ CHOICE_NONE) := by
  have hk : (w.getKey.2.emit [Event.delay 10]).getKey.1 = CHOICE_NONE := hkey
  have hb : (w.getKey.2.emit [Event.delay 10]).getKey.2.digitalRead.1 = LOW := hbtn
  have hstep : ∀ fuel, attract_loop (fuel + 1) w
      = attract_loop fuel
          (((w.getKey.2.emit [Event.delay 10]).getKey.2.digitalRead.2.emit manualUnlock).emit
            [Event.idle]) := by
    intro fuel
    rw [attract_loop_no_key _ _ hk, if_pos hb]
  refine ⟨_, hstep, ?_, ?_, rfl, rfl, rfl, rfl, rfl, rfl, rfl, fun _ _ => rfl,
    attract_loop_returns_on_key⟩
  · rw [hstep 0]
    rfl
  · have h1 : w.keypad 1 = CHOICE_NONE := hkey
    have h2 : w.unlockButton 0 = LOW := hbtn
    simp [World.emit, World.getKey, World.digitalRead, List.append_assoc, h1, h2]

/-- Witness for C11: the world `unlockHeld`. -/
theorem manual_unlock_from_attract_witness :
    unlockHeld.keypad 1 = CHOICE_NONE ∧ unlockHeld.unlockButton 0 = LOW
    ∧ ∃ w', (∀ fuel, attract_loop (fuel + 1) unlockHeld = attract_loop fuel w')
      ∧ attract_loop 1 unlockHeld = Result.outOfFuel w'
      ∧ w'.trace = unlockHeld.trace ++ [Event.getKey (unlockHeld.keypad 0), Event.delay 10,
          Event.getKey CHOICE_NONE, Event.digitalRead UNLOCK_BUTTON LOW]
          ++ manualUnlock ++ [Event.idle] := by
  obtain ⟨w', h1, h2, h3, -⟩ := manual_unlock_from_attract unlockHeld rfl rfl
  exact ⟨rfl, rfl, w', h1, h2, h3⟩

/-- The release loop when the key is held for `m` more polls: it returns after
`m + 1` polls, the last of which is the first to return `CHOICE_NONE`. -/
theorem release_loop_exact (w : World) (m : Nat)
    (hheld : ∀ i < m, w.keypad i ≠ CHOICE_NONE) (hrel : w.keypad m = CHOICE_NONE) :
    ∃ w', (∀ fuel, m + 1 ≤ fuel → release_loop fuel w = Result.ret () w')
      ∧ w'.trace = w.trace ++ (List.range m).map (fun i => Event.getKey (w.keypad i))
          ++ [Event.getKey CHOICE_NONE]
      ∧ w'.keypad = (fun n => w.keypad (n + (m + 1))) := by
  induction m generalizing w with
  | zero =>
    refine ⟨w.getKey.2, fun fuel hf => ?_, ?_, rfl⟩
    · obtain ⟨f, rfl⟩ : ∃ f, fuel = f + 1 := ⟨fuel - 1, by omega⟩
      have : w.getKey.1 = CHOICE_NONE := hrel
      simp [release_loop, this]
    · show w.trace ++ [Event.getKey (w.keypad 0)] = _
      rw [hrel]
      simp
  | succ m ih =>
    have h0 : w.getKey.1 ≠ CHOICE_NONE := hheld 0 (by omega)
    obtain ⟨w', hret, htr, hkp⟩ := ih w.getKey.2 (fun i hi => hheld (i + 1) (by omega)) hrel
    refine ⟨w', fun fuel hf => ?_, ?_, ?_⟩
    · obtain ⟨f, rfl⟩ : ∃ f, fuel = f + 1 := ⟨fuel - 1, by omega⟩
      rw [release_loop, if_pos h0]
      exact hret f (by omega)
    · rw [htr]
      show (w.trace ++ [Event.getKey (w.keypad 0)])
          ++ (List.range m).map (fun i => Event.getKey (w.keypad (i + 1))) ++ _ = _
      rw [List.range_succ_eq_map, List.map_cons, List.map_map]
      simp [List.append_assoc, Function.comp]
    · rw [hkp]
      funext n
      show w.keypad (n + (m + 1) + 1) = w.keypad (n + (m + 1 + 1))
      rfl

/-- The wait loop when, after `j` idle polls inside the window, a poll inside
the window returns the key `b`, which is then held for `m` more polls. -/
theorem wait_loop_capture (startTime : Int) (j m : Nat) (b : Int) (w : World)
    (hwin : ∀ i ≤ j, withinEntryTime (toULong (w.clock i)) startTime = true)
    (hidle : ∀ i < j, w.keypad i = CHOICE_NONE)
    (hkey : w.keypad j = b) (hb : b ≠ CHOICE_NONE)
    (hheld : ∀ i < m, w.keypad (j + 1 + i) ≠ CHOICE_NONE)
    (hrel : w.keypad (j + 1 + m) = CHOICE_NONE) :
    ∃ w' pre, (∀ fuel0 fuel, m + 1 ≤ fuel0 → j + 1 ≤ fuel →
        wait_loop fuel0 startTime fuel w = Result.ret b w')
      ∧ w'.trace = w.trace ++ pre ++ [Event.getKey b, Event.printlnChar b] ++ toner b 150
          ++ (List.range m).map (fun i => Event.getKey (w.keypad (j + 1 + i)))
          ++ [Event.getKey CHOICE_NONE, Event.delay 10, Event.waitReturn b]
      ∧ (∀ e ∈ pre, (∃ t, e = Event.millis t) ∨ e = Event.getKey CHOICE_NONE)
      ∧ w'.keypad = (fun n => w.keypad (n + (j + m + 2))) := by
  induction j generalizing w with
  | zero =>
    have ht : withinEntryTime w.millis.1 startTime = true := hwin 0 (le_refl _)
    have hk : w.millis.2.getKey.1 ≠ CHOICE_NONE := by
      show w.keypad 0 ≠ CHOICE_NONE
      rw [hkey]; exact hb
    have hkb : w.millis.2.getKey.1 = b := hkey
    obtain ⟨w4, hret, htr, hkp⟩ := release_loop_exact
      ((w.millis.2.getKey.2.emit [Event.printlnChar w.millis.2.getKey.1]).emit
        (toner w.millis.2.getKey.1 150)) m
      (fun i hi => by
        have := hheld i hi
        show w.keypad (i + 1) ≠ CHOICE_NONE
        rwa [show 0 + 1 + i = i + 1 by omega] at this)
      (by show w.keypad (m + 1) = CHOICE_NONE
          rwa [show 0 + 1 + m = m + 1 by omega] at hrel)
    refine ⟨(w4.emit [Event.delay 10]).emit [Event.waitReturn b], [Event.millis w.millis.1],
      fun fuel0 fuel h0 hf => ?_, ?_, ?_, ?_⟩
    · obtain ⟨f, rfl⟩ : ∃ f, fuel = f + 1 := ⟨fuel - 1, by omega⟩
      rw [wait_loop_key _ _ _ _ ht hk, hret fuel0 h0, hkb]
    · show (w4.trace ++ [Event.delay 10]) ++ [Event.waitReturn b] = _
      rw [htr]
      show (((((w.trace ++ [Event.millis w.millis.1]) ++ [Event.getKey (w.keypad 0)])
          ++ [Event.printlnChar (w.keypad 0)]) ++ toner (w.keypad 0) 150)
          ++ (List.range m).map (fun i => Event.getKey (w.keypad (i + 1)))
          ++ [Event.getKey CHOICE_NONE]) ++ [Event.delay 10] ++ [Event.waitReturn b] = _
      rw [show w.keypad 0 = b from hkey]
      have : (fun i => Event.getKey (w.keypad (i + 1)))
          = (fun i => Event.getKey (w.keypad (0 + 1 + i))) := by
        funext i
        rw [show 0 + 1 + i = i + 1 by omega]
      rw [this]
      simp [List.append_assoc]
    · intro e he
      exact Or.inl ⟨_, by simpa using he⟩
    · show w4.keypad = _
      rw [hkp]
      funext n
      show w.keypad (n + (m + 1) + 1) = w.keypad (n + (0 + m + 2))
      congr 1
      omega
  | succ j ih =>
    have ht : withinEntryTime w.millis.1 startTime = true := hwin 0 (by omega)
    have hk : w.millis.2.getKey.1 = CHOICE_NONE := hidle 0 (by omega)
    obtain ⟨w', pre, hret, htr, hpre, hkp⟩ := ih w.millis.2.getKey.2
      (fun i hi => hwin (i + 1) (by omega))
      (fun i hi => hidle (i + 1) (by omega))
      hkey
      (fun i hi => by
        have := hheld i hi
        show w.keypad (j + 1 + i + 1) ≠ CHOICE_NONE
        rwa [show j + 1 + 1 + i = j + 1 + i + 1 by omega] at this)
      (by show w.keypad (j + 1 + m + 1) = CHOICE_NONE
          rwa [show j + 1 + 1 + m = j + 1 + m + 1 by omega] at hrel)
    refine ⟨w', [Event.millis w.millis.1, Event.getKey CHOICE_NONE] ++ pre,
      fun fuel0 fuel h0 hf => ?_, ?_, ?_, ?_⟩
    · obtain ⟨f, rfl⟩ : ∃ f, fuel = f + 1 := ⟨fuel - 1, by omega⟩
      rw [wait_loop_no_key _ _ _ _ ht hk]
      exact hret fuel0 f h0 (by omega)
    · rw [htr]
      show ((w.trace ++ [Event.millis w.millis.1]) ++ [Event.getKey (w.keypad 0)]) ++ pre
          ++ _ ++ _ ++ (List.range m).map (fun i => Event.getKey (w.keypad (j + 1 + i + 1)))
          ++ _ = _
      rw [show w.keypad 0 = CHOICE_NONE from hk]
      have : (fun i => Event.getKey (w.keypad (j + 1 + i + 1)))
          = (fun i => Event.getKey (w.keypad (j + 1 + 1 + i))) := by
        funext i
        rw [show j + 1 + 1 + i = j + 1 + i + 1 by omega]
      rw [this]
      simp [List.append_assoc]
    · intro e he
      rcases List.mem_append.mp he with he | he
      · simp only [List.mem_cons, List.mem_singleton, List.not_mem_nil, or_false] at he
        rcases he with he | he
        · exact Or.inl ⟨_, he⟩
        · exact Or.inr he
      · exact hpre e he
    · rw [hkp]
      funext n
      show w.keypad (n + (j + m + 2) + 1) = w.keypad (n + (j + 1 + m + 2))
      congr 1
      omega

/-- C18 (button capture protocol): let the first `j` polls of a call of
`wait_for_button` return `CHOICE_NONE` and the next poll return a key `b`,
all made inside the wait window, and let the key be held for `m` more polls.
Then the call returns exactly `b` (for every sufficient fuel) and, from the
poll that saw `b` on, its events are, in this order: that poll, the serial
echo of `b`, `toner(b, 150)`, the `m` polls that still see a key (whatever
key: their results are not used), the poll that returns `CHOICE_NONE`, a delay
of 10 ms, the return of `b`.  Before that poll it only read the clock and
polled the idle keypad.  All `j + m + 2` polls are consumed. -/
theorem button_capture_protocol (w : World) (j m : Nat) (b : Int)
    (hwin : ∀ i ≤ j,
      toULong ((w.clock (i + 1) : Int) - (w.clock 0 : Int)) < ENTRY_TIME_LIMIT)
    (hidle : ∀ i < j, w.keypad i = CHOICE_NONE)
    (hkey : w.keypad j = b) (hb : b ≠ CHOICE_NONE)
    (hheld : ∀ i < m, w.keypad (j + 1 + i) ≠ CHOICE_NONE)
    (hrel : w.keypad (j + 1 + m) = CHOICE_NONE) :
    ∃ w' pre, (∀ fuel, j + 1 ≤ fuel → m + 1 ≤ fuel →
        wait_for_button fuel w = Result.ret b w')
      ∧ w'.trace = w.trace ++ pre ++ [Event.getKey b, Event.printlnChar b] ++ toner b 150
          ++ (List.range m).map (fun i => Event.getKey (w.keypad (j + 1 + i)))
          ++ [Event.getKey CHOICE_NONE, Event.delay 10, Event.waitReturn b]
      ∧ (∀ e ∈ pre, (∃ t, e = Event.millis t) ∨ e = Event.getKey CHOICE_NONE)
      ∧ w'.keypad = (fun n => w.keypad (n + (j + m + 2))) := by
  obtain ⟨w', pre, hret, htr, hpre, hkp⟩ :=
    wait_loop_capture (toLong w.millis.1) j m b w.millis.2
      (fun i hi => (withinEntryTime_iff _ _).mpr (hwin i hi)) hidle hkey hb hheld hrel
  refine ⟨w', [Event.millis w.millis.1] ++ pre, fun fuel h1 h2 => hret fuel fuel h2 h1,
    ?_, ?_, hkp⟩
  · rw [htr]
    show (w.trace ++ [Event.millis w.millis.1]) ++ pre ++ _ ++ _
        ++ (List.range m).map (fun i => Event.getKey (w.keypad (j + 1 + i))) ++ _ = _
    simp [List.append_assoc]
  · intro e he
    rcases List.mem_append.mp he with he | he
    · exact Or.inl ⟨_, by simpa using he⟩
    · exact hpre e he

/-- Witness for C18: the world `greenTap`: one idle poll, then `'9'` seen and
held for two more polls. -/
theorem button_capture_protocol_witness :
    (∀ i ≤ 1, toULong ((greenTap.clock (i + 1) : Int) - (greenTap.clock 0 : Int))
        < ENTRY_TIME_LIMIT)
    ∧ (∀ i < 1, greenTap.keypad i = CHOICE_NONE)
    ∧ greenTap.keypad 1 = CHOICE_GREEN ∧ CHOICE_GREEN ≠ CHOICE_NONE
    ∧ (∀ i < 2, greenTap.keypad (1 + 1 + i) ≠ CHOICE_NONE)
    ∧ greenTap.keypad (1 + 1 + 2) = CHOICE_NONE
    ∧ (wait_for_button 3 greenTap).valueOf = some CHOICE_GREEN
    ∧ ∃ w' pre, (∀ fuel, 1 + 1 ≤ fuel → 2 + 1 ≤ fuel →
          wait_for_button fuel greenTap = Result.ret CHOICE_GREEN w')
        ∧ w'.trace = greenTap.trace ++ pre
            ++ [Event.getKey CHOICE_GREEN, Event.printlnChar CHOICE_GREEN]
            ++ toner CHOICE_GREEN 150
            ++ (List.range 2).map (fun i => Event.getKey (greenTap.keypad (1 + 1 + i)))
            ++ [Event.getKey CHOICE_NONE, Event.delay 10, Event.waitReturn CHOICE_GREEN]
        ∧ (∀ e ∈ pre, (∃ t, e = Event.millis t) ∨ e = Event.getKey CHOICE_NONE)
        ∧ w'.keypad = (fun n => greenTap.keypad (n + (1 + 2 + 2))) :=
  ⟨by decide, by decide, by decide, by decide, by decide, by decide, by decide,
    button_capture_protocol greenTap 1 2 CHOICE_GREEN (by decide) (by decide) (by decide)
      (by decide) (by decide) (by decide)⟩

theorem SameRun.of_prefix {α : Type} {w1 w2 v1 v2 : World} {r1 r2 : Result α}
    (s : List Event) (h1 : v1.trace = w1.trace ++ s) (h2 : v2.trace = w2.trace ++ s)
    (h : SameRun v1 v2 r1 r2) : SameRun w1 w2 r1 r2 := by
  obtain ⟨hv, hs, seg, t1, t2⟩ := h
  exact ⟨hv, hs, s ++ seg, by rw [t1, h1, List.append_assoc],
    by rw [t2, h2, List.append_assoc]⟩

theorem SameRun.of_ret {α : Type} {w1 w2 v1 v2 : World} (a : α) (s : List Event)
    (hs : SameInputs v1 v2) (h1 : v1.trace = w1.trace ++ s) (h2 : v2.trace = w2.trace ++ s) :
    SameRun w1 w2 (Result.ret a v1) (Result.ret a v2) :=
  ⟨rfl, hs, s, h1, h2⟩

theorem SameRun.of_outOfFuel {α : Type} {w1 w2 v1 v2 : World} (s : List Event)
    (hs : SameInputs v1 v2) (h1 : v1.trace = w1.trace ++ s) (h2 : v2.trace = w2.trace ++ s) :
    SameRun w1 w2 (Result.outOfFuel v1 : Result α) (Result.outOfFuel v2) :=
  ⟨rfl, hs, s, h1, h2⟩

theorem SameInputs.after_millis {w1 w2 : World} (h : SameInputs w1 w2) :
    w1.millis.1 = w2.millis.1 ∧ SameInputs w1.millis.2 w2.millis.2 := by
  obtain ⟨hc, hk⟩ := h
  refine ⟨?_, ?_, hk⟩
  · show toULong (w1.clock 0) = toULong (w2.clock 0)
    rw [hc]
  · show (fun n => w1.clock (n + 1)) = fun n => w2.clock (n + 1)
    rw [hc]

theorem SameInputs.after_getKey {w1 w2 : World} (h : SameInputs w1 w2) :
    w1.getKey.1 = w2.getKey.1 ∧ SameInputs w1.getKey.2 w2.getKey.2 := by
  obtain ⟨hc, hk⟩ := h
  refine ⟨?_, hc, ?_⟩
  · show w1.keypad 0 = w2.keypad 0
    rw [hk]
  · show (fun n => w1.keypad (n + 1)) = fun n => w2.keypad (n + 1)
    rw [hk]

theorem SameInputs.after_emits {w1 w2 : World} (h : SameInputs w1 w2) (e1 e2 : List Event) :
    SameInputs (w1.emit e1) (w2.emit e2) := h

theorem release_loop_same (fuel : Nat) (w1 w2 : World) (h : SameInputs w1 w2) :
    SameRun w1 w2 (release_loop fuel w1) (release_loop fuel w2) := by
  induction fuel generalizing w1 w2 with
  | zero => exact SameRun.of_outOfFuel [] h (by simp) (by simp)
  | succ fuel ih =>
    obtain ⟨hk, hs⟩ := h.after_getKey
    rw [release_loop, release_loop, ← hk]
    by_cases h0 : w1.getKey.1 ≠ CHOICE_NONE
    · rw [if_pos h0, if_pos h0]
      exact SameRun.of_prefix [Event.getKey w1.getKey.1] rfl (by rw [hk]; rfl) (ih _ _ hs)
    · rw [if_neg h0, if_neg h0]
      exact SameRun.of_ret () [Event.getKey w1.getKey.1] hs rfl (by rw [hk]; rfl)

theorem wait_loop_same (fuel0 : Nat) (startTime : Int) (fuel : Nat) (w1 w2 : World)
    (h : SameInputs w1 w2) :
    SameRun w1 w2 (wait_loop fuel0 startTime fuel w1) (wait_loop fuel0 startTime fuel w2) := by
  induction fuel generalizing w1 w2 with
  | zero => exact SameRun.of_outOfFuel [] h (by simp) (by simp)
  | succ fuel ih =>
    obtain ⟨hm, hsm⟩ := h.after_millis
    obtain ⟨hk, hsk⟩ := hsm.after_getKey
    have tm1 : w1.millis.2.trace = w1.trace ++ [Event.millis w1.millis.1] := rfl
    have tm2 : w2.millis.2.trace = w2.trace ++ [Event.millis w1.millis.1] := by rw [hm]; rfl
    have tk1 : w1.millis.2.getKey.2.trace
        = w1.trace ++ [Event.millis w1.millis.1, Event.getKey w1.millis.2.getKey.1] := by
      show w1.millis.2.trace ++ _ = _
      rw [tm1, List.append_assoc]
      rfl
    have tk2 : w2.millis.2.getKey.2.trace
        = w2.trace ++ [Event.millis w1.millis.1, Event.getKey w1.millis.2.getKey.1] := by
      show w2.millis.2.trace ++ [Event.getKey w2.millis.2.getKey.1] = _
      rw [tm2, List.append_assoc, hk]
      rfl
    by_cases ht : withinEntryTime w1.millis.1 startTime = true
    · have ht2 : withinEntryTime w2.millis.1 startTime = true := by rw [← hm]; exact ht
      by_cases h0 : w1.millis.2.getKey.1 = CHOICE_NONE
      · have h02 : w2.millis.2.getKey.1 = CHOICE_NONE := by rw [← hk]; exact h0
        rw [wait_loop_no_key _ _ _ _ ht h0, wait_loop_no_key _ _ _ _ ht2 h02]
        exact SameRun.of_prefix _ tk1 tk2 (ih _ _ hsk)
      · have h02 : w2.millis.2.getKey.1 ≠ CHOICE_NONE := by rw [← hk]; exact h0
        rw [wait_loop_key _ _ _ _ ht h0, wait_loop_key _ _ _ _ ht2 h02, ← hk]
        have hrel := release_loop_same fuel0
          ((w1.millis.2.getKey.2.emit [Event.printlnChar w1.millis.2.getKey.1]).emit
            (toner w1.millis.2.getKey.1 150))
          ((w2.millis.2.getKey.2.emit [Event.printlnChar w1.millis.2.getKey.1]).emit
            (toner w1.millis.2.getKey.1 150))
          ((hsk.after_emits _ _).after_emits _ _)
        have tp1 : ((w1.millis.2.getKey.2.emit [Event.printlnChar w1.millis.2.getKey.1]).emit
            (toner w1.millis.2.getKey.1 150)).trace
            = w1.trace ++ ([Event.millis w1.millis.1, Event.getKey w1.millis.2.getKey.1,
                Event.printlnChar w1.millis.2.getKey.1] ++ toner w1.millis.2.getKey.1 150) := by
          show (w1.millis.2.getKey.2.trace ++ _) ++ _ = _
          rw [tk1]
          simp [List.append_assoc]
        have tp2 : ((w2.millis.2.getKey.2.emit [Event.printlnChar w1.millis.2.getKey.1]).emit
            (toner w1.millis.2.getKey.1 150)).trace
            = w2.trace ++ ([Event.millis w1.millis.1, Event.getKey w1.millis.2.getKey.1,
                Event.printlnChar w1.millis.2.getKey.1] ++ toner w1.millis.2.getKey.1 150) := by
          show (w2.millis.2.getKey.2.trace ++ _) ++ _ = _
          rw [tk2]
          simp [List.append_assoc]
        generalize release_loop fuel0
          ((w1.millis.2.getKey.2.emit [Event.printlnChar w1.millis.2.getKey.1]).emit
            (toner w1.millis.2.getKey.1 150)) = r1 at hrel ⊢
        generalize release_loop fuel0
          ((w2.millis.2.getKey.2.emit [Event.printlnChar w1.millis.2.getKey.1]).emit
            (toner w1.millis.2.getKey.1 150)) = r2 at hrel ⊢
        obtain ⟨hv, hs', seg, tr1, tr2⟩ := hrel
        rw [tp1] at tr1
        rw [tp2] at tr2
        cases r1 with
        | outOfFuel v1 =>
          cases r2 with
          | outOfFuel v2 =>
            simp only [Result.world] at hs' tr1 tr2
            exact SameRun.of_outOfFuel _ hs' (by rw [tr1, List.append_assoc])
              (by rw [tr2, List.append_assoc])
          | ret a2 v2 => simp [Result.valueOf] at hv
        | ret a1 v1 =>
          cases r2 with
          | outOfFuel v2 => simp [Result.valueOf] at hv
          | ret a2 v2 =>
            simp only [Result.world] at hs' tr1 tr2
            refine SameRun.of_ret w1.millis.2.getKey.1
              ([Event.millis w1.millis.1, Event.getKey w1.millis.2.getKey.1,
                Event.printlnChar w1.millis.2.getKey.1] ++ toner w1.millis.2.getKey.1 150 ++ seg
                ++ [Event.delay 10, Event.waitReturn w1.millis.2.getKey.1]) hs' ?_ ?_
            · show (v1.trace ++ _) ++ _ = _
              rw [tr1]
              simp [List.append_assoc]
            · show (v2.trace ++ _) ++ _ = _
              rw [tr2]
              simp [List.append_assoc]
    · have ht' : withinEntryTime w1.millis.1 startTime = false := by simpa using ht
      have ht2 : withinEntryTime w2.millis.1 startTime = false := by rw [← hm]; exact ht'
      rw [wait_loop_timeout _ _ _ _ ht', wait_loop_timeout _ _ _ _ ht2]
      refine SameRun.of_ret CHOICE_NONE
        [Event.millis w1.millis.1, Event.waitReturn CHOICE_NONE] hsm ?_ ?_
      · show w1.millis.2.trace ++ _ = _
        rw [tm1, List.append_assoc]
        rfl
      · show w2.millis.2.trace ++ _ = _
        rw [tm2, List.append_assoc]
        rfl

theorem wait_for_button_same (fuel : Nat) (w1 w2 : World) (h : SameInputs w1 w2) :
    SameRun w1 w2 (wait_for_button fuel w1) (wait_for_button fuel w2) := by
  obtain ⟨hm, hsm⟩ := h.after_millis
  rw [wait_for_button, wait_for_button, ← hm]
  exact SameRun.of_prefix [Event.millis w1.millis.1] rfl (by rw [hm]; rfl)
    (wait_loop_same fuel (toLong w1.millis.1) fuel _ _ hsm)

/-- Whatever the fuel, the echo loop leaves the game state, the generator and
the unlock-button stream as they are. -/
theorem echo_loop_frame (fuel0 fuel i : Nat) (w : World) :
    (echo_loop fuel0 fuel i w).world.gameBoard = w.gameBoard
      ∧ (echo_loop fuel0 fuel i w).world.gameRound = w.gameRound
      ∧ (echo_loop fuel0 fuel i w).world.prng = w.prng
      ∧ (echo_loop fuel0 fuel i w).world.unlockButton = w.unlockButton := by
  induction fuel generalizing i w with
  | zero => exact ⟨rfl, rfl, rfl, rfl⟩
  | succ fuel ih =>
    rw [echo_loop]
    by_cases hlt : i < w.gameRound
    · rw [if_pos hlt]
      obtain ⟨body, hp, -⟩ := wait_for_button_polls fuel0 w
      generalize wait_for_button fuel0 w = r at hp ⊢
      cases r with
      | outOfFuel v => exact ⟨hp.gameBoard, hp.gameRound, hp.prng, hp.unlockButton⟩
      | ret c v =>
        simp only [Result.world] at hp
        simp only
        by_cases hc : c = CHOICE_NONE
        · rw [if_pos hc]
          exact ⟨hp.gameBoard, hp.gameRound, hp.prng, hp.unlockButton⟩
        · rw [if_neg hc]
          by_cases hne : c ≠ v.gameBoard i
          · rw [if_pos hne]
            exact ⟨hp.gameBoard, hp.gameRound, hp.prng, hp.unlockButton⟩
          · rw [if_neg hne]
            obtain ⟨h1, h2, h3, h4⟩ := ih ((i + 1) % 256) v
            exact ⟨h1.trans hp.gameBoard, h2.trans hp.gameRound, h3.trans hp.prng,
              h4.trans hp.unlockButton⟩
    · rw [if_neg hlt]
      exact ⟨rfl, rfl, rfl, rfl⟩

/-- The echo loop reads `gameBoard` only below `gameRound`: two worlds with
the same inputs and the same round counter whose boards agree below it run
the loop the same way. -/
theorem echo_loop_same (fuel0 fuel i : Nat) (w1 w2 : World) (h : SameInputs w1 w2)
    (hg : w1.gameRound = w2.gameRound)
    (hb : ∀ j < w1.gameRound, w1.gameBoard j = w2.gameBoard j) :
    SameRun w1 w2 (echo_loop fuel0 fuel i w1) (echo_loop fuel0 fuel i w2) := by
  induction fuel generalizing i w1 w2 with
  | zero => exact SameRun.of_outOfFuel [] h (by simp) (by simp)
  | succ fuel ih =>
    rw [echo_loop, echo_loop, ← hg]
    by_cases hlt : i < w1.gameRound
    · rw [if_pos hlt, if_pos hlt]
      obtain ⟨body1, hp1, -⟩ := wait_for_button_polls fuel0 w1
      obtain ⟨body2, hp2, -⟩ := wait_for_button_polls fuel0 w2
      have hw := wait_for_button_same fuel0 w1 w2 h
      generalize wait_for_button fuel0 w1 = r1 at hp1 hw ⊢
      generalize wait_for_button fuel0 w2 = r2 at hp2 hw ⊢
      obtain ⟨hv, hs, seg, t1, t2⟩ := hw
      cases r1 with
      | outOfFuel v1 =>
        cases r2 with
        | outOfFuel v2 => exact SameRun.of_outOfFuel seg hs t1 t2
        | ret c2 v2 => simp [Result.valueOf] at hv
      | ret c1 v1 =>
        cases r2 with
        | outOfFuel v2 => simp [Result.valueOf] at hv
        | ret c2 v2 =>
          simp only [Result.valueOf, Option.some.injEq] at hv
          subst hv
          simp only [Result.world] at hs t1 t2 hp1 hp2
          simp only
          have hcell : v1.gameBoard i = v2.gameBoard i := by
            rw [hp1.gameBoard, hp2.gameBoard]
            exact hb i hlt
          rw [← hcell]
          by_cases hc : c1 = CHOICE_NONE
          · rw [if_pos hc, if_pos hc]
            exact SameRun.of_ret false seg hs t1 t2
          · rw [if_neg hc, if_neg hc]
            by_cases hne : c1 ≠ v1.gameBoard i
            · rw [if_pos hne, if_pos hne]
              exact SameRun.of_ret false seg hs t1 t2
            · rw [if_neg hne, if_neg hne]
              refine SameRun.of_prefix seg t1 t2 (ih _ v1 v2 hs ?_ ?_)
              · rw [hp1.gameRound, hp2.gameRound]; exact hg
              · intro j hj
                rw [hp1.gameRound] at hj
                rw [hp1.gameBoard, hp2.gameBoard]
                exact hb j hj
    · rw [if_neg hlt, if_neg hlt]
      exact SameRun.of_ret true [] h (by simp) (by simp)

/-- The playback loop reads `gameBoard` only below `gameRound`. -/
theorem playMoves_loop_same (w1 w2 : World) (n i : Nat)
    (hg : w1.gameRound = w2.gameRound)
    (hb : ∀ j < w1.gameRound, w1.gameBoard j = w2.gameBoard j) :
    playMoves_loop w1 n i = playMoves_loop w2 n i := by
  induction n generalizing i with
  | zero => rfl
  | succ n ih =>
    rw [playMoves_loop, playMoves_loop, ← hg]
    by_cases hlt : i < w1.gameRound
    · rw [if_pos hlt, if_pos hlt, hb i hlt, ih]
    · rw [if_neg hlt, if_neg hlt]

/-- The round loop of `play_memory` depends on the game state only through
`gameRound` and the cells of `gameBoard` below it: two worlds that agree on
those, on the generator and on the inputs run the loop the same way, and the
final states agree in the same sense. -/
theorem play_loop_same (fuel0 fuel : Nat) (w1 w2 : World) (h : SameInputs w1 w2)
    (hp : w1.prng = w2.prng) (hg : w1.gameRound = w2.gameRound)
    (hb : ∀ j < w1.gameRound, w1.gameBoard j = w2.gameBoard j) :
    SameRun w1 w2 (play_loop fuel0 fuel w1) (play_loop fuel0 fuel w2)
      ∧ (play_loop fuel0 fuel w1).world.gameRound = (play_loop fuel0 fuel w2).world.gameRound
      ∧ (∀ j < (play_loop fuel0 fuel w1).world.gameRound,
          (play_loop fuel0 fuel w1).world.gameBoard j
            = (play_loop fuel0 fuel w2).world.gameBoard j)
      ∧ (play_loop fuel0 fuel w1).world.prng = (play_loop fuel0 fuel w2).world.prng := by
  induction fuel generalizing w1 w2 with
  | zero => exact ⟨SameRun.of_outOfFuel [] h (by simp) (by simp), hg, hb, hp⟩
  | succ fuel ih =>
    rw [play_loop, play_loop, ← hg]
    by_cases hlt : w1.gameRound < ROUNDS_TO_WIN
    · rw [if_pos hlt, if_pos hlt]
      have hWs : SameInputs (playMoves (add_to_moves w1)) (playMoves (add_to_moves w2)) := h
      have hWg : (playMoves (add_to_moves w1)).gameRound
          = (playMoves (add_to_moves w2)).gameRound := by
        show (w1.gameRound + 1) % 256 = (w2.gameRound + 1) % 256
        rw [hg]
      have hWp : (playMoves (add_to_moves w1)).prng = (playMoves (add_to_moves w2)).prng := by
        show (fun n => w1.prng (n + 1)) = fun n => w2.prng (n + 1)
        rw [hp]
      have hWb : ∀ j < (playMoves (add_to_moves w1)).gameRound,
          (playMoves (add_to_moves w1)).gameBoard j
            = (playMoves (add_to_moves w2)).gameBoard j := by
        intro j hj
        have hj2 : j < (w1.gameRound + 1) % 256 := hj
        have hj3 : j ≤ w1.gameRound := by
          have := Nat.mod_le (w1.gameRound + 1) 256
          omega
        show Function.update w1.gameBoard w1.gameRound
              (toByte (choiceOf (toChar (w1.prng 0)))) j
            = Function.update w2.gameBoard w2.gameRound
              (toByte (choiceOf (toChar (w2.prng 0)))) j
        rw [← hg, ← hp]
        by_cases hje : j = w1.gameRound
        · subst hje
          rw [Function.update_same, Function.update_same]
        · rw [Function.update_noteq hje, Function.update_noteq hje]
          exact hb j (by omega)
      have ht1 : (playMoves (add_to_moves w1)).trace
          = w1.trace ++ ([Event.random (w1.prng 0)]
              ++ playMoves_loop (add_to_moves w1) (add_to_moves w1).gameRound 0) := by
        show (w1.trace ++ [Event.random (w1.prng 0)]) ++ _ = _
        rw [List.append_assoc]
      have ht2 : (playMoves (add_to_moves w2)).trace
          = w2.trace ++ ([Event.random (w1.prng 0)]
              ++ playMoves_loop (add_to_moves w1) (add_to_moves w1).gameRound 0) := by
        show (w2.trace ++ [Event.random (w2.prng 0)])
            ++ playMoves_loop (add_to_moves w2) (add_to_moves w2).gameRound 0 = _
        rw [List.append_assoc, ← hp,
          ← playMoves_loop_same (add_to_moves w1) (add_to_moves w2) _ 0 hWg hWb]
        have : (add_to_moves w2).gameRound = (add_to_moves w1).gameRound := hWg.symm
        rw [this]
      have he := echo_loop_same fuel0 fuel0 0 _ _ hWs hWg hWb
      obtain ⟨f1b, f1g, f1p, -⟩ := echo_loop_frame fuel0 fuel0 0 (playMoves (add_to_moves w1))
      obtain ⟨f2b, f2g, f2p, -⟩ := echo_loop_frame fuel0 fuel0 0 (playMoves (add_to_moves w2))
      generalize echo_loop fuel0 fuel0 0 (playMoves (add_to_moves w1)) = r1
        at he f1b f1g f1p ⊢
      generalize echo_loop fuel0 fuel0 0 (playMoves (add_to_moves w2)) = r2
        at he f2b f2g f2p ⊢
      have hfin : ∀ v1 v2 : World, v1.gameBoard = (playMoves (add_to_moves w1)).gameBoard →
          v1.gameRound = (playMoves (add_to_moves w1)).gameRound →
          v1.prng = (playMoves (add_to_moves w1)).prng →
          v2.gameBoard = (playMoves (add_to_moves w2)).gameBoard →
          v2.gameRound = (playMoves (add_to_moves w2)).gameRound →
          v2.prng = (playMoves (add_to_moves w2)).prng →
          v1.gameRound = v2.gameRound
            ∧ (∀ j < v1.gameRound, v1.gameBoard j = v2.gameBoard j)
            ∧ v1.prng = v2.prng := by
        intro v1 v2 a1 a2 a3 b1 b2 b3
        refine ⟨by rw [a2, b2]; exact hWg, ?_, by rw [a3, b3]; exact hWp⟩
        intro j hj
        rw [a2] at hj
        rw [a1, b1]
        exact hWb j hj
      obtain ⟨hv, hs, seg, t1, t2⟩ := he
      cases r1 with
      | outOfFuel v1 =>
        cases r2 with
        | outOfFuel v2 =>
          simp only [Result.world] at hs t1 t2 f1b f1g f1p f2b f2g f2p
          exact ⟨SameRun.of_prefix _ ht1 ht2 (SameRun.of_outOfFuel seg hs t1 t2),
            hfin v1 v2 f1b f1g f1p f2b f2g f2p⟩
        | ret c2 v2 => simp [Result.valueOf] at hv
      | ret c1 v1 =>
        cases r2 with
        | outOfFuel v2 => simp [Result.valueOf] at hv
        | ret c2 v2 =>
          simp only [Result.valueOf, Option.some.injEq] at hv
          subst hv
          simp only [Result.world] at hs t1 t2 f1b f1g f1p f2b f2g f2p
          obtain ⟨hfg, hfb, hfp⟩ := hfin v1 v2 f1b f1g f1p f2b f2g f2p
          cases c1 with
          | false =>
            exact ⟨SameRun.of_prefix _ ht1 ht2 (SameRun.of_ret false seg hs t1 t2),
              hfg, hfb, hfp⟩
          | true =>
            simp only
            obtain ⟨hr, hrest⟩ := ih (v1.emit [Event.delay 1000]) (v2.emit [Event.delay 1000])
              hs hfp hfg hfb
            refine ⟨SameRun.of_prefix _ ht1 ht2 (SameRun.of_prefix (seg ++ [Event.delay 1000])
              ?_ ?_ hr), hrest⟩
            · show v1.trace ++ [Event.delay 1000] = _
              rw [t1, List.append_assoc]
            · show v2.trace ++ [Event.delay 1000] = _
              rw [t2, List.append_assoc]
    · rw [if_neg hlt, if_neg hlt]
      exact ⟨SameRun.of_ret true [] h (by simp) (by simp), hg, hb, hp⟩

theorem toner_isLedOrBuzzer (c d : Int) : ∀ e ∈ toner c d, isLedOrBuzzer e = true := by
  have hs : ∀ r g b : Int, ∀ e ∈ setColor r g b, isLedOrBuzzer e = true := by
    intro r g b e he
    simp only [setColor, List.mem_cons, List.mem_singleton, List.not_mem_nil, or_false] at he
    rcases he with he | he | he <;> subst he <;> simp [isLedOrBuzzer]
  have hb : ∀ h : Int, ∀ e ∈ buzz_sound d h, isLedOrBuzzer e = true := by
    intro h e he
    rcases buzz_loop_events _ _ _ e he with he | he | he <;> subst he <;>
      simp [isLedOrBuzzer]
  intro e he
  rw [toner] at he
  rcases List.mem_append.mp he with he | he
  · split_ifs at he
    all_goals first
      | (rcases List.mem_append.mp he with he | he
         · exact hs _ _ _ e he
         · exact hb _ e he)
      | simp at he
  · exact hs _ _ _ e he

theorem playMoves_loop_isLedOrBuzzer (w : World) (n i : Nat) :
    ∀ e ∈ playMoves_loop w n i, isLedOrBuzzer e = true := by
  induction n generalizing i with
  | zero => simp [playMoves_loop]
  | succ n ih =>
    intro e he
    rw [playMoves_loop] at he
    split_ifs at he
    · simp only [List.mem_append, List.mem_singleton] at he
      rcases he with (he | he) | he
      · exact toner_isLedOrBuzzer _ _ e he
      · subst he; rfl
      · exact ih _ e he
    · simp at he

/-- C12: `playMoves` leaves the keypad stream (and the clock stream and the
game state) exactly as it found them; every event it emits, every event of
`toner` and every event of `buzz_sound` is a write to an LED pin or to the
buzzer pin or a delay, none of which is a keypad scan; the first key that a
scan returns after playback is the first key of the stream before playback;
and the verify phase entered after playback runs exactly as it would have run
had playback not happened: same verdict, same polls and events, same
remaining inputs. -/
theorem playMoves_ignores_input (w : World) :
    (playMoves w).keypad = w.keypad
      ∧ (playMoves w).clock = w.clock
      ∧ (playMoves w).gameBoard = w.gameBoard
      ∧ (playMoves w).gameRound = w.gameRound
      ∧ (playMoves w).trace = w.trace ++ playMoves_loop w w.gameRound 0
      ∧ (∀ e ∈ playMoves_loop w w.gameRound 0, isLedOrBuzzer e = true)
      ∧ (∀ c d : Int, ∀ e ∈ toner c d, isLedOrBuzzer e = true)
      ∧ (∀ d h : Int, ∀ e ∈ buzz_sound d h, isLedOrBuzzer e = true)
      ∧ (∀ c : Int, isLedOrBuzzer (Event.getKey c) = false)
      ∧ (playMoves w).getKey.1 = w.keypad 0
      ∧ (∀ fuel : Nat, SameRun (playMoves w) w (wait_for_button fuel (playMoves w))
          (wait_for_button fuel w))
      ∧ ∀ fuel0 fuel i : Nat, SameRun (playMoves w) w (echo_loop fuel0 fuel i (playMoves w))
          (echo_loop fuel0 fuel i w) := by
  refine ⟨rfl, rfl, rfl, rfl, rfl, playMoves_loop_isLedOrBuzzer _ _ _, toner_isLedOrBuzzer,
    ?_, fun _ => rfl, rfl, ?_, ?_⟩
  · intro d h e he
    rcases buzz_loop_events _ _ _ e he with he | he | he <;> subst he <;>
      simp [isLedOrBuzzer]
  · intro fuel
    exact wait_for_button_same fuel _ _ ⟨rfl, rfl⟩
  · intro fuel0 fuel i
    exact echo_loop_same fuel0 fuel i _ _ ⟨rfl, rfl⟩ rfl (fun _ _ => rfl)

theorem play_memory_same (fuel : Nat) (w1 w2 : World) (h : SameInputs w1 w2)
    (hp : w1.prng = w2.prng) :
    SameRun w1 w2 (play_memory fuel w1) (play_memory fuel w2)
      ∧ (play_memory fuel w1).world.gameRound = (play_memory fuel w2).world.gameRound
      ∧ (∀ j < (play_memory fuel w1).world.gameRound,
          (play_memory fuel w1).world.gameBoard j = (play_memory fuel w2).world.gameBoard j)
      ∧ (play_memory fuel w1).world.prng = (play_memory fuel w2).world.prng := by
  rw [play_memory_eq_play_loop, play_memory_eq_play_loop]
  have hs : SameInputs (gameStart w1) (gameStart w2) := by
    obtain ⟨hc, hk⟩ := h
    refine ⟨?_, hk⟩
    show (fun n => w1.clock (n + 1)) = fun n => w2.clock (n + 1)
    rw [hc]
  obtain ⟨hr, hrest⟩ := play_loop_same fuel fuel (gameStart w1) (gameStart w2) hs hp rfl
    (fun j hj => absurd hj (Nat.not_lt_zero j))
  refine ⟨SameRun.of_prefix [Event.println "play_memory", Event.millis (toULong (w1.clock 0)),
    Event.randomSeed (toULong (w1.clock 0))] rfl ?_ hr, hrest⟩
  show w2.trace ++ [Event.println "play_memory", Event.millis (toULong (w2.clock 0)),
    Event.randomSeed (toULong (w2.clock 0))] = _
  rw [h.1]

/-- C13: for every world and every other content `b` of `gameBoard` and `g` of
`gameRound`, `play_memory` run from the world and from the world with the game
state replaced (same generator draws, same clock and keypad streams) returns
the same result, appends the same events to the trace and consumes the same
inputs; the two runs end with the same `gameRound` and with boards that agree
on every cell below it, so no cell is read before the current game wrote it.
The round loop is entered with `gameRound = 0`. -/
theorem play_memory_stateless (fuel : Nat) (w : World) (b : Nat → Int) (g : Nat) :
    (play_memory fuel { w with gameBoard := b, gameRound := g }).valueOf
        = (play_memory fuel w).valueOf
      ∧ (play_memory fuel { w with gameBoard := b, gameRound := g }).world.trace
        = (play_memory fuel w).world.trace
      ∧ SameRun { w with gameBoard := b, gameRound := g } w
          (play_memory fuel { w with gameBoard := b, gameRound := g }) (play_memory fuel w)
      ∧ (play_memory fuel { w with gameBoard := b, gameRound := g }).world.gameRound
        = (play_memory fuel w).world.gameRound
      ∧ (∀ j < (play_memory fuel w).world.gameRound,
          (play_memory fuel { w with gameBoard := b, gameRound := g }).world.gameBoard j
            = (play_memory fuel w).world.gameBoard j)
      ∧ play_memory fuel { w with gameBoard := b, gameRound := g }
        = play_loop fuel fuel (gameStart { w with gameBoard := b, gameRound := g })
      ∧ (gameStart { w with gameBoard := b, gameRound := g }).gameRound = 0 := by
  obtain ⟨hr, hg, hb, -⟩ := play_memory_same fuel { w with gameBoard := b, gameRound := g } w
    ⟨rfl, rfl⟩ rfl
  refine ⟨hr.1, ?_, hr, hg, ?_, play_memory_eq_play_loop _ _, rfl⟩
  · obtain ⟨-, -, seg, t1, t2⟩ := hr
    rw [t1, t2]
  · intro j hj
    exact hb j (by rw [hg]; exact hj)

/-- Whatever the fuel and whatever the outcome (returned or interrupted), the
round loop entered with `k <= ROUNDS_TO_WIN` elements stored stops with `m`
elements stored, `k <= m <= ROUNDS_TO_WIN`, and has written no cell at or
above `m`. -/
theorem play_loop_inv (fuel0 fuel : Nat) (P : Nat → Int) (k : Nat) (w : World)
    (hinv : GameInv P k w) (hk : k ≤ ROUNDS_TO_WIN) :
    ∃ m, k ≤ m ∧ m ≤ ROUNDS_TO_WIN ∧ GameInv P m (play_loop fuel0 fuel w).world
      ∧ ∀ i, m ≤ i → (play_loop fuel0 fuel w).world.gameBoard i = w.gameBoard i := by
  induction fuel generalizing k w with
  | zero => exact ⟨k, le_refl k, hk, hinv, fun _ _ => rfl⟩
  | succ fuel ih =>
    rw [play_loop]
    by_cases hlt : w.gameRound < ROUNDS_TO_WIN
    · rw [if_pos hlt]
      have hk7 : k < 7 := by rw [← hinv.gameRound]; exact hlt
      obtain ⟨hinv1, -⟩ := add_to_moves_inv hinv (by omega)
      have hinv2 : GameInv P (k + 1) (playMoves (add_to_moves w)) := hinv1.after_emit _
      have hcell : ∀ i, k + 1 ≤ i → (playMoves (add_to_moves w)).gameBoard i = w.gameBoard i := by
        intro i hi
        show Function.update w.gameBoard w.gameRound _ i = _
        rw [hinv.gameRound]
        exact Function.update_noteq (by omega) _ _
      obtain ⟨fb, fg, fp, -⟩ := echo_loop_frame fuel0 fuel0 0 (playMoves (add_to_moves w))
      generalize echo_loop fuel0 fuel0 0 (playMoves (add_to_moves w)) = r at fb fg fp ⊢
      have hinv3 : GameInv P (k + 1) r.world :=
        ⟨fg.trans hinv2.gameRound, fun i hi => by rw [fb]; exact hinv2.gameBoard i hi,
          fp.trans hinv2.prng⟩
      have hcell3 : ∀ i, k + 1 ≤ i → r.world.gameBoard i = w.gameBoard i := by
        intro i hi
        rw [fb]
        exact hcell i hi
      have hk1 : k + 1 ≤ ROUNDS_TO_WIN := hk7
      cases r with
      | outOfFuel v => exact ⟨k + 1, by omega, hk1, hinv3, hcell3⟩
      | ret c v =>
        cases c with
        | false => exact ⟨k + 1, by omega, hk1, hinv3, hcell3⟩
        | true =>
          simp only [Result.world] at hinv3 hcell3
          obtain ⟨m, hm1, hm2, hm3, hm4⟩ := ih (k + 1) (v.emit [Event.delay 1000])
            (hinv3.after_emit _) hk1
          refine ⟨m, by omega, hm2, hm3, fun i hi => ?_⟩
          rw [hm4 i hi]
          exact hcell3 i (by omega)
    · rw [if_neg hlt]
      exact ⟨k, le_refl k, hk, hinv, fun _ _ => rfl⟩

theorem play_memory_inv (fuel : Nat) (w : World) :
    ∃ m, m ≤ ROUNDS_TO_WIN ∧ GameInv w.prng m (play_memory fuel w).world
      ∧ ∀ i, m ≤ i → (play_memory fuel w).world.gameBoard i = w.gameBoard i := by
  rw [play_memory_eq_play_loop]
  obtain ⟨m, -, hm, hinv, hcell⟩ := play_loop_inv fuel fuel w.prng 0 (gameStart w)
    (gameStart_inv w) (Nat.zero_le _)
  exact ⟨m, hm, hinv, hcell⟩

theorem choiceOf_mem_colors (d : Int) (h : d = 0 ∨ d = 1 ∨ d = 2 ∨ d = 3) :
    choiceOf d ∈ colors := by
  rcases h with h | h | h | h <;> subst h <;> decide

/-- C16: assume every draw of the generator is 0, 1, 2 or 3.  Then, whatever
the fuel of the round loop and of the input engine, that is, in every state in
which a game can be observed (returned or interrupted at any point), every cell
`gameBoard[i]` with `i < gameRound` holds the choice code of the draw `i`, which
is one of `CHOICE_RED`, `CHOICE_GREEN`, `CHOICE_BLUE`, `CHOICE_WHITE` and is not
`CHOICE_NONE`.  `add_to_moves` stores in cell `gameRound` the code of the next
draw, and the codes of the draws 0, 1, 2, 3 are RED, GREEN, BLUE, WHITE, four
distinct values. -/
theorem stored_elements_are_colors (w : World)
    (hdraws : ∀ n, w.prng n = 0 ∨ w.prng n = 1 ∨ w.prng n = 2 ∨ w.prng n = 3) :
    (∀ fuel0 fuel i : Nat, i < (play_loop fuel0 fuel (gameStart w)).world.gameRound →
        (play_loop fuel0 fuel (gameStart w)).world.gameBoard i = choiceOf (w.prng i)
          ∧ (play_loop fuel0 fuel (gameStart w)).world.gameBoard i ∈ colors
          ∧ (play_loop fuel0 fuel (gameStart w)).world.gameBoard i ≠ CHOICE_NONE)
      ∧ (∀ fuel i : Nat, i < (play_memory fuel w).world.gameRound →
          (play_memory fuel w).world.gameBoard i ∈ colors
            ∧ (play_memory fuel w).world.gameBoard i ≠ CHOICE_NONE)
      ∧ (∀ v : World, (add_to_moves v).gameBoard v.gameRound = storedChoice (v.prng 0))
      ∧ [0, 1, 2, 3].map storedChoice
          = [CHOICE_RED, CHOICE_GREEN, CHOICE_BLUE, CHOICE_WHITE]
      ∧ colors = [CHOICE_RED, CHOICE_GREEN, CHOICE_BLUE, CHOICE_WHITE]
      ∧ colors.Nodup := by
  have key : ∀ fuel0 fuel i : Nat, i < (play_loop fuel0 fuel (gameStart w)).world.gameRound →
        (play_loop fuel0 fuel (gameStart w)).world.gameBoard i = choiceOf (w.prng i)
          ∧ (play_loop fuel0 fuel (gameStart w)).world.gameBoard i ∈ colors
          ∧ (play_loop fuel0 fuel (gameStart w)).world.gameBoard i ≠ CHOICE_NONE := by
    intro fuel0 fuel i hi
    obtain ⟨m, -, -, hinv, -⟩ := play_loop_inv fuel0 fuel w.prng 0 (gameStart w)
      (gameStart_inv w) (Nat.zero_le _)
    rw [hinv.gameRound] at hi
    have hcell := hinv.gameBoard i hi
    rw [hcell]
    refine ⟨storedChoice_of_draw _ (hdraws i), ?_, storedChoice_ne_none _⟩
    rw [storedChoice_of_draw _ (hdraws i)]
    exact choiceOf_mem_colors _ (hdraws i)
  refine ⟨key, ?_, ?_, by decide, rfl, by decide⟩
  · intro fuel i hi
    rw [play_memory_eq_play_loop] at hi ⊢
    exact (key fuel fuel i hi).2
  · intro v
    show Function.update v.gameBoard v.gameRound _ v.gameRound = _
    rw [Function.update_same]
    rfl

theorem stored_elements_are_colors_witness :
    (∀ n, cleanGame.prng n = 0 ∨ cleanGame.prng n = 1 ∨ cleanGame.prng n = 2
        ∨ cleanGame.prng n = 3)
    ∧ (play_memory 40 cleanGame).world.gameRound = 7
    ∧ (∀ fuel i : Nat, i < (play_memory fuel cleanGame).world.gameRound →
          (play_memory fuel cleanGame).world.gameBoard i ∈ colors
            ∧ (play_memory fuel cleanGame).world.gameBoard i ≠ CHOICE_NONE) :=
  ⟨fun _ => Or.inl rfl, by decide,
    (stored_elements_are_colors cleanGame (fun _ => Or.inl rfl)).2.1⟩

theorem attract_loop_frame (fuel : Nat) (w : World) :
    (attract_loop fuel w).world.gameRound = w.gameRound
      ∧ (attract_loop fuel w).world.gameBoard = w.gameBoard := by
  induction fuel generalizing w with
  | zero => exact ⟨rfl, rfl⟩
  | succ fuel ih =>
    by_cases hk : (w.getKey.2.emit [Event.delay 10]).getKey.1 = CHOICE_NONE
    · rw [attract_loop_no_key _ _ hk]
      obtain ⟨h1, h2⟩ := ih
        ((if (w.getKey.2.emit [Event.delay 10]).getKey.2.digitalRead.1 = LOW
            then (w.getKey.2.emit [Event.delay 10]).getKey.2.digitalRead.2.emit manualUnlock
            else (w.getKey.2.emit [Event.delay 10]).getKey.2.digitalRead.2).emit
            [Event.idle])
      rw [h1, h2]
      split_ifs <;> exact ⟨rfl, rfl⟩
    · rw [attract_loop_key _ _ hk]
      exact ⟨rfl, rfl⟩

theorem game_phase_gameRound (fuel : Nat) (w : World) :
    (game_phase fuel w).world.gameRound ≤ ROUNDS_TO_WIN := by
  rw [game_phase_eq]
  obtain ⟨m, hm, hinv, -⟩ := play_memory_inv fuel (gamePrelude w)
  generalize play_memory fuel (gamePrelude w) = r at hinv ⊢
  have hg := hinv.gameRound
  cases r with
  | outOfFuel v => simp only [Result.world] at hg ⊢; omega
  | ret c v =>
    cases c <;> (simp only [Result.world] at hg ⊢; show v.gameRound ≤ _; omega)

theorem loop_gameRound (fuel : Nat) (w : World) (h : w.gameRound ≤ ROUNDS_TO_WIN) :
    (loop fuel w).world.gameRound ≤ ROUNDS_TO_WIN := by
  rw [loop]
  have hf := (attract_loop_frame fuel
    ((w.emit [Event.println "attractMode"]).emit (setColor 0 0 0))).1
  have ha : (attractMode fuel w).world.gameRound = w.gameRound := hf
  generalize attractMode fuel w = r at ha ⊢
  cases r with
  | outOfFuel v => simp only [Result.world] at ha ⊢; omega
  | ret u v => exact game_phase_gameRound fuel v

theorem run_gameRound (fuel n : Nat) (w : World) (h : w.gameRound ≤ ROUNDS_TO_WIN) :
    (run fuel n w).world.gameRound ≤ ROUNDS_TO_WIN := by
  induction n with
  | zero => exact h
  | succ n ih =>
    rw [run]
    generalize run fuel n w = r at ih ⊢
    cases r with
    | outOfFuel v => exact ih
    | ret u v => exact loop_gameRound fuel v ih

/-- C17: in every state in which a game can be observed (whatever the fuel of
the round loop and of the input engine, returned or interrupted),
`gameRound <= ROUNDS_TO_WIN = 7`, and the bound is kept by the whole sketch
when it starts within it; the game starts at 0; `add_to_moves` adds exactly one
to `gameRound` (below the wrap of the byte at 255) and writes the cell
`gameRound` only; the round loop calls it only while `gameRound < 7`, so no
cell of index 7 or more is ever written; the playback loop and the echo loop
read cells below `gameRound` only (their runs do not depend on the other
cells); and 7 is within the 32 cells of the array. -/
theorem gameRound_bounds_buffer_safe (w : World) :
    ROUNDS_TO_WIN = 7 ∧ gameBoardSize = 32 ∧ ROUNDS_TO_WIN ≤ gameBoardSize
      ∧ (gameStart w).gameRound = 0
      ∧ (∀ fuel0 fuel : Nat,
          (play_loop fuel0 fuel (gameStart w)).world.gameRound ≤ ROUNDS_TO_WIN)
      ∧ (∀ fuel : Nat, (play_memory fuel w).world.gameRound ≤ ROUNDS_TO_WIN)
      ∧ (∀ fuel n : Nat, w.gameRound ≤ ROUNDS_TO_WIN →
          (run fuel n w).world.gameRound ≤ ROUNDS_TO_WIN)
      ∧ (∀ v : World, v.gameRound < 255 → (add_to_moves v).gameRound = v.gameRound + 1)
      ∧ (∀ (v : World) (i : Nat), i ≠ v.gameRound →
          (add_to_moves v).gameBoard i = v.gameBoard i)
      ∧ (∀ (fuel0 fuel : Nat) (v : World), ¬ v.gameRound < ROUNDS_TO_WIN →
          play_loop fuel0 (fuel + 1) v = Result.ret true v)
      ∧ (∀ fuel0 fuel i : Nat, ROUNDS_TO_WIN ≤ i →
          (play_loop fuel0 fuel (gameStart w)).world.gameBoard i = w.gameBoard i)
      ∧ (∀ fuel i : Nat, ROUNDS_TO_WIN ≤ i →
          (play_memory fuel w).world.gameBoard i = w.gameBoard i)
      ∧ (∀ (v1 v2 : World) (n i : Nat), v1.gameRound = v2.gameRound →
          (∀ j < v1.gameRound, v1.gameBoard j = v2.gameBoard j) →
          playMoves_loop v1 n i = playMoves_loop v2 n i)
      ∧ (∀ (fuel0 fuel i : Nat) (v1 v2 : World), SameInputs v1 v2 →
          v1.gameRound = v2.gameRound →
          (∀ j < v1.gameRound, v1.gameBoard j = v2.gameBoard j) →
          SameRun v1 v2 (echo_loop fuel0 fuel i v1) (echo_loop fuel0 fuel i v2)) := by
  refine ⟨rfl, rfl, by decide, rfl, ?_, ?_, fun fuel n h => run_gameRound fuel n w h, ?_, ?_, ?_,
    ?_, ?_, fun v1 v2 n i hg hb => playMoves_loop_same v1 v2 n i hg hb,
    fun fuel0 fuel i v1 v2 h hg hb => echo_loop_same fuel0 fuel i v1 v2 h hg hb⟩
  · intro fuel0 fuel
    obtain ⟨m, -, hm, hinv, -⟩ := play_loop_inv fuel0 fuel w.prng 0 (gameStart w)
      (gameStart_inv w) (Nat.zero_le _)
    rw [hinv.gameRound]
    exact hm
  · intro fuel
    obtain ⟨m, hm, hinv, -⟩ := play_memory_inv fuel w
    rw [hinv.gameRound]
    exact hm
  · intro v hv
    show (v.gameRound + 1) % 256 = v.gameRound + 1
    exact Nat.mod_eq_of_lt (by omega)
  · intro v i hi
    show Function.update v.gameBoard v.gameRound _ i = _
    exact Function.update_noteq hi _ _
  · intro fuel0 fuel v hv
    rw [play_loop, if_neg hv]
  · intro fuel0 fuel i hi
    obtain ⟨m, -, hm, -, hcell⟩ := play_loop_inv fuel0 fuel w.prng 0 (gameStart w)
      (gameStart_inv w) (Nat.zero_le _)
    exact hcell i (by omega)
  · intro fuel i hi
    obtain ⟨m, hm, -, hcell⟩ := play_memory_inv fuel w
    exact hcell i (by omega)

theorem countP_isDraw_of_wait (es : List Event)
    (h : ∀ e ∈ es, isWaitEvent e = true ∨ ∃ c, e = Event.waitReturn c) :
    es.countP isDraw = 0 := by
  rw [List.countP_eq_zero]
  intro e he hd
  rcases h e he with h | ⟨c, rfl⟩
  · cases e <;> simp_all [isDraw, isWaitEvent]
  · simp [isDraw] at hd

theorem countP_isDraw_playback (s : List Int) : (playback s).countP isDraw = 0 := by
  rw [List.countP_eq_zero]
  intro e he hd
  simp only [playback, List.mem_flatMap, List.mem_append, List.mem_singleton] at he
  obtain ⟨x, -, hx | hx⟩ := he
  · have := toner_isWaitEvent _ _ _ hx
    cases e <;> simp_all [isDraw, isWaitEvent]
  · subst hx
    simp [isDraw] at hd

theorem countP_isDraw_roundEvents (P : Nat → Int) (k : Nat) (echo : List Event) (ok : Bool)
    (h : ∀ e ∈ echo, isWaitEvent e = true ∨ ∃ c, e = Event.waitReturn c) :
    (roundEvents P k echo ok).countP isDraw = 1 := by
  simp only [roundEvents, List.countP_append, countP_isDraw_playback,
    countP_isDraw_of_wait echo h]
  cases ok <;> simp [isDraw]

theorem countP_isDraw_gameEvents (P : Nat → Int) (k : Nat) (rounds : List (List Event × Bool))
    (b : Bool) (h : RoundsValid P k rounds b) :
    (gameEvents P k rounds).countP isDraw = rounds.length := by
  induction rounds generalizing k with
  | nil => rfl
  | cons r rest ih =>
    obtain ⟨-, hecho, hT, hF⟩ := h
    rw [gameEvents, List.countP_append, countP_isDraw_roundEvents P k r.1 r.2 hecho.1,
      List.length_cons]
    cases hr : r.2 with
    | true => rw [ih (k + 1) (hT hr)]; omega
    | false =>
      rw [(hF hr).1]
      simp [gameEvents]

theorem sequenceOf_split (P : Nat → Int) (j n : Nat) (h : j < n) :
    ∃ t, sequenceOf P n = sequenceOf P j ++ storedChoice (P j) :: t := by
  induction n with
  | zero => omega
  | succ n ih =>
    by_cases hj : j = n
    · subst hj
      exact ⟨[], sequenceOf_succ P j⟩
    · obtain ⟨t, ht⟩ := ih (by omega)
      exact ⟨t ++ [storedChoice (P n)], by rw [sequenceOf_succ, ht]; simp⟩

/-- A lost game ends with the return of the first call of `wait_for_button`
whose value is not the expected element: the values returned before it are a
prefix of the perfect echo, and it differs from the next element. -/
theorem rounds_lost_first (P : Nat → Int) (k : Nat) (rounds : List (List Event × Bool))
    (h : RoundsValid P k rounds false) :
    ∃ body c x rest, gameEvents P k rounds = body ++ [Event.waitReturn c]
      ∧ perfectEcho P k (ROUNDS_TO_WIN - k) = waitResults body ++ x :: rest ∧ c ≠ x := by
  induction rounds generalizing k with
  | nil => exact absurd h.1 (by simp)
  | cons r rest ih =>
    obtain ⟨hk, hecho, hT, hF⟩ := h
    have hs : ROUNDS_TO_WIN - k = (ROUNDS_TO_WIN - (k + 1)) + 1 := by omega
    cases hr : r.2 with
    | true =>
      obtain ⟨body, c, x, tl, h1, h2, h3⟩ := ih (k + 1) (hT hr)
      refine ⟨roundEvents P k r.1 true ++ body, c, x, tl, ?_, ?_, h3⟩
      · rw [gameEvents, h1, hr, List.append_assoc]
      · rw [hs, perfectEcho_succ, h2, waitResults_append, waitResults_roundEvents,
          hecho.2.1 hr, List.append_assoc]
    | false =>
      obtain ⟨j, c, body, hj, he, hb, hc⟩ := hecho.2.2 hr
      obtain ⟨t, ht⟩ := sequenceOf_split P j (k + 1) hj
      refine ⟨[Event.random (P k)] ++ playback (sequenceOf P (k + 1)) ++ body, c,
        storedChoice (P j), t ++ perfectEcho P (k + 1) (ROUNDS_TO_WIN - (k + 1)), ?_, ?_, hc⟩
      · rw [gameEvents, (hF hr).1, hr, roundEvents, he]
        simp [gameEvents, List.append_assoc]
      · rw [hs, perfectEcho_succ, ht, waitResults_append, waitResults_append,
          waitResults_playback, hb]
        simp [waitResults]

theorem perfectEcho_length (P : Nat → Int) :
    (perfectEcho P 0 ROUNDS_TO_WIN).length = 28 := by
  simp [perfectEcho, ROUNDS_TO_WIN, List.range', sequenceOf_length]

/-- C20: in a world whose clock advances and whose keys are released (so that
every call of `wait_for_button` returns), `play_memory` returns, with the same
result for every sufficient fuel.  Its events after the prologue hold at most
7 draws (one per call of `add_to_moves`, and `gameRound` ends equal to their
number, the generator being that many draws on) and at most 28 returns of
`wait_for_button`.  If it returns true there are exactly 7 draws and exactly 28
returns, the perfect echo.  If it returns false its last event is the return
of a call of `wait_for_button` whose value differs from the expected element
(a timeout returns `CHOICE_NONE`, which no element is), all returns before it
having matched: nothing is drawn, played or polled after it. -/
theorem play_memory_bounded_early_exit (w : World) (hc : ClockAdvances w.clock)
    (hk : KeysReleased w.keypad) :
    ∃ N b w' seg, (∀ fuel, N ≤ fuel → play_memory fuel w = Result.ret b w')
      ∧ w'.trace = w.trace ++ [Event.println "play_memory",
          Event.millis (toULong (w.clock 0)), Event.randomSeed (toULong (w.clock 0))] ++ seg
      ∧ seg.countP isDraw ≤ ROUNDS_TO_WIN
      ∧ w'.gameRound = seg.countP isDraw
      ∧ (w'.prng = fun n => w.prng (n + seg.countP isDraw))
      ∧ (waitResults seg).length ≤ 28
      ∧ (b = true → seg.countP isDraw = 7 ∧ (waitResults seg).length = 28
          ∧ waitResults seg = perfectEcho w.prng 0 ROUNDS_TO_WIN)
      ∧ (b = false → ∃ body c x rest, seg = body ++ [Event.waitReturn c]
          ∧ perfectEcho w.prng 0 ROUNDS_TO_WIN = waitResults body ++ x :: rest ∧ c ≠ x)
      ∧ ∀ c : Int, c ∈ perfectEcho w.prng 0 ROUNDS_TO_WIN → c ≠ CHOICE_NONE := by
  obtain ⟨N, b, w', rounds, hret, htr, hval, hinv, -, -, -, -⟩ := play_memory_run w hc hk
  have hcount := countP_isDraw_gameEvents w.prng 0 rounds b hval
  have hlen := (rounds_length w.prng rounds b hval).2
  have hwon : b = true → (waitResults (gameEvents w.prng 0 rounds)).length = 28
      ∧ waitResults (gameEvents w.prng 0 rounds) = perfectEcho w.prng 0 ROUNDS_TO_WIN
      ∧ rounds.length = 7 := by
    intro hb
    subst hb
    obtain ⟨h1, h2⟩ := rounds_won w.prng 0 rounds hval
    rw [Nat.sub_zero] at h1
    refine ⟨by rw [h1, perfectEcho_length], h1, ?_⟩
    simpa [ROUNDS_TO_WIN] using h2
  have hlost : b = false → ∃ body c x rest,
      gameEvents w.prng 0 rounds = body ++ [Event.waitReturn c]
      ∧ perfectEcho w.prng 0 ROUNDS_TO_WIN = waitResults body ++ x :: rest ∧ c ≠ x := by
    intro hb
    subst hb
    obtain ⟨body, c, x, rest, h1, h2, h3⟩ := rounds_lost_first w.prng 0 rounds hval
    rw [Nat.sub_zero] at h2
    exact ⟨body, c, x, rest, h1, h2, h3⟩
  refine ⟨N, b, w', gameEvents w.prng 0 rounds, hret, htr, by rw [hcount]; exact hlen,
    by rw [hcount]; exact hinv.gameRound, by rw [hcount]; exact hinv.prng, ?_, ?_, hlost,
    perfectEcho_ne_none _ _ _⟩
  · cases b with
    | true => exact le_of_eq (hwon rfl).1
    | false =>
      obtain ⟨body, c, x, rest, h1, h2, -⟩ := hlost rfl
      have hl := congrArg List.length h2
      rw [perfectEcho_length] at hl
      rw [h1, waitResults_append]
      simp only [List.length_append, List.length_cons, waitResults, List.length_nil] at hl ⊢
      omega
  · intro hb
    obtain ⟨h1, h2, h3⟩ := hwon hb
    exact ⟨by rw [hcount]; exact h3, h1, h2⟩

theorem play_memory_bounded_early_exit_witness :
    ClockAdvances cleanGame.clock ∧ KeysReleased cleanGame.keypad
    ∧ (play_memory 40 cleanGame).valueOf = some true
    ∧ ∃ N b w' seg, (∀ fuel, N ≤ fuel → play_memory fuel cleanGame = Result.ret b w')
      ∧ w'.trace = cleanGame.trace ++ [Event.println "play_memory",
          Event.millis (toULong (cleanGame.clock 0)),
          Event.randomSeed (toULong (cleanGame.clock 0))] ++ seg
      ∧ seg.countP isDraw ≤ ROUNDS_TO_WIN
      ∧ (waitResults seg).length ≤ 28 := by
  obtain ⟨N, b, w', seg, h1, h2, h3, -, -, h4, -⟩ :=
    play_memory_bounded_early_exit cleanGame cleanGame_clock cleanGame_keys
  exact ⟨cleanGame_clock, cleanGame_keys, by decide, N, b, w', seg, h1, h2, h3, h4⟩

/-- More fuel does not change a run that returned. -/
theorem release_loop_mono (n : Nat) : ∀ (m : Nat) (w v : World) (u : Unit), n ≤ m →
    release_loop n w = Result.ret u v → release_loop m w = Result.ret u v := by
  induction n with
  | zero => intro m w v u _ h; simp [release_loop] at h
  | succ n ih =>
    intro m w v u hm h
    obtain ⟨m', rfl⟩ : ∃ m', m = m' + 1 := ⟨m - 1, by omega⟩
    rw [release_loop] at h ⊢
    by_cases hk : w.getKey.1 ≠ CHOICE_NONE
    · rw [if_pos hk] at h ⊢
      exact ih m' _ _ _ (by omega) h
    · rw [if_neg hk] at h ⊢
      exact h

theorem wait_loop_mono (fuel0 fuel1 : Nat) (h0 : fuel0 ≤ fuel1) (startTime : Int) (n : Nat) :
    ∀ (m : Nat) (w v : World) (c : Int), n ≤ m →
      wait_loop fuel0 startTime n w = Result.ret c v →
      wait_loop fuel1 startTime m w = Result.ret c v := by
  induction n with
  | zero => intro m w v c _ h; simp [wait_loop] at h
  | succ n ih =>
    intro m w v c hm h
    obtain ⟨m', rfl⟩ : ∃ m', m = m' + 1 := ⟨m - 1, by omega⟩
    cases ht : withinEntryTime w.millis.1 startTime with
    | false =>
      rw [wait_loop_timeout _ _ _ _ ht] at h ⊢
      exact h
    | true =>
      by_cases hk : w.millis.2.getKey.1 = CHOICE_NONE
      · rw [wait_loop_no_key _ _ _ _ ht hk] at h ⊢
        exact ih m' _ _ _ (by omega) h
      · rw [wait_loop_key _ _ _ _ ht hk] at h ⊢
        cases hr : release_loop fuel0
            ((w.millis.2.getKey.2.emit [Event.printlnChar w.millis.2.getKey.1]).emit
              (toner w.millis.2.getKey.1 150)) with
        | outOfFuel w4 => rw [hr] at h; simp at h
        | ret u w4 =>
          rw [hr] at h
          rw [release_loop_mono fuel0 fuel1 _ _ _ h0 hr]
          exact h

theorem wait_for_button_mono (n m : Nat) (hm : n ≤ m) (w v : World) (c : Int)
    (h : wait_for_button n w = Result.ret c v) : wait_for_button m w = Result.ret c v :=
  wait_loop_mono n m hm _ n m _ _ _ hm h

theorem echo_loop_mono (fuel0 fuel1 : Nat) (h0 : fuel0 ≤ fuel1) (n : Nat) :
    ∀ (m i : Nat) (w v : World) (b : Bool), n ≤ m →
      echo_loop fuel0 n i w = Result.ret b v → echo_loop fuel1 m i w = Result.ret b v := by
  induction n with
  | zero => intro m i w v b _ h; simp [echo_loop] at h
  | succ n ih =>
    intro m i w v b hm h
    obtain ⟨m', rfl⟩ : ∃ m', m = m' + 1 := ⟨m - 1, by omega⟩
    rw [echo_loop] at h ⊢
    by_cases hlt : i < w.gameRound
    · rw [if_pos hlt] at h ⊢
      cases hr : wait_for_button fuel0 w with
      | outOfFuel w1 => rw [hr] at h; simp at h
      | ret c w1 =>
        rw [hr] at h
        rw [wait_for_button_mono fuel0 fuel1 h0 _ _ _ hr]
        simp only at h ⊢
        by_cases hc : c = CHOICE_NONE
        · rw [if_pos hc] at h ⊢
          exact h
        · rw [if_neg hc] at h ⊢
          by_cases hne : c ≠ w1.gameBoard i
          · rw [if_pos hne] at h ⊢
            exact h
          · rw [if_neg hne] at h ⊢
            exact ih m' _ _ _ _ (by omega) h
    · rw [if_neg hlt] at h ⊢
      exact h

theorem play_loop_mono (fuel0 fuel1 : Nat) (h0 : fuel0 ≤ fuel1) (n : Nat) :
    ∀ (m : Nat) (w v : World) (b : Bool), n ≤ m →
      play_loop fuel0 n w = Result.ret b v → play_loop fuel1 m w = Result.ret b v := by
  induction n with
  | zero => intro m w v b _ h; simp [play_loop] at h
  | succ n ih =>
    intro m w v b hm h
    obtain ⟨m', rfl⟩ : ∃ m', m = m' + 1 := ⟨m - 1, by omega⟩
    rw [play_loop] at h ⊢
    by_cases hlt : w.gameRound < ROUNDS_TO_WIN
    · rw [if_pos hlt] at h ⊢
      cases hr : echo_loop fuel0 fuel0 0 (playMoves (add_to_moves w)) with
      | outOfFuel w1 => rw [hr] at h; simp at h
      | ret c w1 =>
        rw [hr] at h
        rw [echo_loop_mono fuel0 fuel1 h0 fuel0 fuel1 0 _ _ _ h0 hr]
        cases c with
        | false => exact h
        | true => exact ih m' _ _ _ (by omega) h
    · rw [if_neg hlt] at h ⊢
      exact h

theorem play_memory_mono (n m : Nat) (hm : n ≤ m) (w v : World) (b : Bool)
    (h : play_memory n w = Result.ret b v) : play_memory m w = Result.ret b v := by
  rw [play_memory_eq_play_loop] at h ⊢
  exact play_loop_mono n m hm n m _ _ _ hm h

theorem Result.eq_ret_of_valueOf {α : Type} (r : Result α) (a : α)
    (h : r.valueOf = some a) : r = Result.ret a r.world := by
  cases r with
  | outOfFuel w => simp [Result.valueOf] at h
  | ret c w =>
    simp only [Result.valueOf, Option.some.injEq] at h
    rw [h]
    rfl

theorem attractMode_returns_on_key (w0 : World) (hk : w0.keypad 1 ≠ CHOICE_NONE) (fuel : Nat) :
    attractMode (fuel + 1) w0 = Result.ret () (afterAttract w0) := by
  rw [attractMode]
  exact attract_loop_key fuel _ hk

theorem keyThenIdle_clock : ClockAdvances (afterAttract keyThenIdle).clock := by
  intro n
  refine ⟨n + 3, by omega, ?_⟩
  show ENTRY_TIME_LIMIT ≤ toULong (((1000 * (n + 3) : Nat) : Int) - ((1000 * n : Nat) : Int))
  simp only [toULong, ENTRY_TIME_LIMIT]
  push_cast
  omega

theorem keyThenIdle_keys : KeysReleased (afterAttract keyThenIdle).keypad :=
  fun n => ⟨n, le_refl _, by
    show (if n + 1 + 1 = 1 then CHOICE_RED else CHOICE_NONE) = CHOICE_NONE
    rw [if_neg (by omega)]⟩

set_option maxRecDepth 100000 in
/-- Witness for C2: `attractMode` returns on a key tap, then nobody plays.  The
first wait of the game times out (it returns `CHOICE_NONE`), the game is lost,
`loop()` ends with `play_loser` and nothing writes the unlock pin. -/
theorem timeout_causes_loss_witness :
    ClockAdvances (afterAttract keyThenIdle).clock
    ∧ KeysReleased (afterAttract keyThenIdle).keypad
    ∧ (∀ fuel, 1 ≤ fuel → attractMode fuel keyThenIdle
        = Result.ret () (afterAttract keyThenIdle))
    ∧ ∃ N b w' seg,
      (∀ fuel, N ≤ fuel →
        play_memory fuel (gamePrelude (afterAttract keyThenIdle)) = Result.ret b w')
      ∧ w'.trace = (gamePrelude (afterAttract keyThenIdle)).trace ++ seg
      ∧ CHOICE_NONE ∈ waitResults seg
      ∧ b = false
      ∧ (∀ fuel, N ≤ fuel → 1 ≤ fuel →
          loop fuel keyThenIdle = Result.ret () (w'.emit play_loser))
      ∧ (w'.emit play_loser).trace
          = (gamePrelude (afterAttract keyThenIdle)).trace ++ (seg ++ play_loser)
      ∧ (∀ e ∈ seg ++ play_loser, isUnlockWrite e = false) := by
  have hat : ∀ fuel, 1 ≤ fuel → attractMode fuel keyThenIdle
      = Result.ret () (afterAttract keyThenIdle) := by
    intro fuel hf
    obtain ⟨f, rfl⟩ : ∃ f, fuel = f + 1 := ⟨fuel - 1, by omega⟩
    exact attractMode_returns_on_key keyThenIdle (by decide) f
  obtain ⟨N, b, w', seg, hret, htr, himp⟩ :=
    timeout_causes_loss (afterAttract keyThenIdle) keyThenIdle_clock keyThenIdle_keys
  have h8 := Result.eq_ret_of_valueOf
    (play_memory 8 (gamePrelude (afterAttract keyThenIdle))) false (by decide)
  have hmax := play_memory_mono 8 (max N 8) (le_max_right _ _) _ _ _ h8
  have hN := hret (max N 8) (le_max_left _ _)
  rw [hmax] at hN
  have hw : (play_memory 8 (gamePrelude (afterAttract keyThenIdle))).world = w' := by
    injection hN
  have hall : CHOICE_NONE
      ∈ waitResults (play_memory 8 (gamePrelude (afterAttract keyThenIdle))).world.trace := by
    decide
  have hpre : waitResults (gamePrelude (afterAttract keyThenIdle)).trace = [] := by decide
  have hnone : CHOICE_NONE ∈ waitResults seg := by
    rw [hw, htr, waitResults_append, hpre, List.nil_append] at hall
    exact hall
  obtain ⟨hb, -, hloop, htr2, hq, -⟩ := himp hnone
  exact ⟨keyThenIdle_clock, keyThenIdle_keys, hat, N, b, w', seg, hret, htr, hnone, hb,
    fun fuel hf h1 => hloop fuel keyThenIdle hf (hat fuel h1), htr2, hq⟩

end SimonSays
